import Mathlib

/-!
Verification of `custom::BST` (bst.h)

The node graph of `bst.h` is embedded as an explicit free store: a node pointer is an
address (`Nat`), the null pointer is `none`, and every statement of the C++ code that reads or
writes a field of a node becomes a read or a write of one cell of the store.  Loops and
recursive lambdas take a `fuel` argument; running out of fuel and dereferencing a pointer
that does not reference a live node both give `none`.

The element type `T` is an arbitrary type with a strict total order (`LinearOrder`).
-/

namespace custom

/-! ## The free store -/

/-- Class `BST::BNode`: the value and the three links of one node.  The `isRed` flag of the source
is written `false` by every constructor and never read, so it is not carried. -/
structure BNode (α : Type) where
  data : α
  pLeft : Option Nat
  pRight : Option Nat
  pParent : Option Nat
deriving DecidableEq

/-- The free store: the live nodes by address, and the next address `new` hands out. -/
structure Heap (α : Type) where
  cells : Nat → Option (BNode α)
  next : Nat

/-- A pointer to a node, or null: `BNode *`. -/
abbrev Ptr := Option Nat

/-- Class `BST::iterator`: its single field `pNode`. -/
abbrev iterator := Option Nat

/-- The fields `root` and `numElements` of a `BST` object.  `numElements` is a `size_t`; it
counts live nodes, each of which occupies its own address, so `++numElements` cannot reach
`2^64` and is the successor of a natural number; `--numElements` is `sizeDec`. -/
structure BST where
  root : Ptr
  numElements : Nat
deriving DecidableEq

variable {α : Type}

/-- The store with no live node. -/
def Heap.empty : Heap α := ⟨fun _ => none, 0⟩

/-- Overwrite the cell at address `a`. -/
def Heap.write (h : Heap α) (a : Nat) (n : BNode α) : Heap α :=
  ⟨fun x => if x = a then some n else h.cells x, h.next⟩

/-- Statement `delete p`: the cell at `a` is no longer live. -/
def Heap.free (h : Heap α) (a : Nat) : Heap α :=
  ⟨fun x => if x = a then none else h.cells x, h.next⟩

/-- Expression `new BNode(t)`: a fresh node holding `t` with all three links null. -/
def Heap.alloc (h : Heap α) (t : α) : Nat × Heap α :=
  (h.next, ⟨fun x => if x = h.next then some ⟨t, none, none, none⟩ else h.cells x, h.next + 1⟩)

/-- Statement `p->pLeft = v`. -/
def setLeft (h : Heap α) (p : Nat) (v : Ptr) : Option (Heap α) :=
  match h.cells p with
  | none => none
  | some n => some (h.write p { n with pLeft := v })

/-- Statement `p->pRight = v`. -/
def setRight (h : Heap α) (p : Nat) (v : Ptr) : Option (Heap α) :=
  match h.cells p with
  | none => none
  | some n => some (h.write p { n with pRight := v })

/-- Statement `p->pParent = v`. -/
def setParent (h : Heap α) (p : Nat) (v : Ptr) : Option (Heap α) :=
  match h.cells p with
  | none => none
  | some n => some (h.write p { n with pParent := v })

/-- Statement `p->data = t`. -/
def setData (h : Heap α) (p : Nat) (t : α) : Option (Heap α) :=
  match h.cells p with
  | none => none
  | some n => some (h.write p { n with data := t })

/-! ## BNode -/

/-- Method `BNode::addLeft(BNode * pNode)`. -/
def addLeft (h : Heap α) (this : Nat) (pNode : Ptr) : Option (Heap α) :=
  match setLeft h this pNode with
  | none => none
  | some h1 =>
    match pNode with
    | none => some h1
    | some c => setParent h1 c (some this)

/-- Method `BNode::addRight(BNode * pNode)`. -/
def addRight (h : Heap α) (this : Nat) (pNode : Ptr) : Option (Heap α) :=
  match setRight h this pNode with
  | none => none
  | some h1 =>
    match pNode with
    | none => some h1
    | some c => setParent h1 c (some this)

/-! ## Iterator -/

/-- The loop `while (p->pLeft) p = p->pLeft;`. -/
def leftmost (h : Heap α) : Nat → Nat → Option Nat
  | 0, _ => none
  | fuel + 1, p =>
    match h.cells p with
    | none => none
    | some n =>
      match n.pLeft with
      | none => some p
      | some l => leftmost h fuel l

/-- The loop `while (p->pRight) p = p->pRight;`. -/
def rightmost (h : Heap α) : Nat → Nat → Option Nat
  | 0, _ => none
  | fuel + 1, p =>
    match h.cells p with
    | none => none
    | some n =>
      match n.pRight with
      | none => some p
      | some r => rightmost h fuel r

/-- The loop `while (up && cur == up->pRight) { cur = up; up = up->pParent; }`
of `operator++`; the result is the final `up`. -/
def climbFromRight (h : Heap α) : Nat → Nat → Ptr → Option Ptr
  | _, _, none => some none
  | 0, _, some _ => none
  | fuel + 1, cur, some u =>
    match h.cells u with
    | none => none
    | some nu =>
      if nu.pRight = some cur then climbFromRight h fuel u nu.pParent
      else some (some u)

/-- The loop `while (up && cur == up->pLeft) { cur = up; up = up->pParent; }`
of `operator--`; the result is the final `up`. -/
def climbFromLeft (h : Heap α) : Nat → Nat → Ptr → Option Ptr
  | _, _, none => some none
  | 0, _, some _ => none
  | fuel + 1, cur, some u =>
    match h.cells u with
    | none => none
    | some nu =>
      if nu.pLeft = some cur then climbFromLeft h fuel u nu.pParent
      else some (some u)

/-- Method `BST::iterator::operator++` (prefix): the new value of `pNode`. -/
def increment (h : Heap α) (fuel : Nat) (it : iterator) : Option iterator :=
  match it with
  | none => some none
  | some p =>
    match h.cells p with
    | none => none
    | some n =>
      match n.pRight with
      | some r => (leftmost h fuel r).map some
      | none => climbFromRight h fuel p n.pParent

/-- Method `BST::iterator::operator--` (prefix): the new value of `pNode`. -/
def decrement (h : Heap α) (fuel : Nat) (it : iterator) : Option iterator :=
  match it with
  | none => some none
  | some p =>
    match h.cells p with
    | none => none
    | some n =>
      match n.pLeft with
      | some l => (rightmost h fuel l).map some
      | none => climbFromLeft h fuel p n.pParent

/-- Method `BST::iterator::operator*`. -/
def deref (h : Heap α) (it : iterator) : Option α :=
  match it with
  | none => none
  | some p => (h.cells p).map (fun n => n.data)

/-! ## BST -/

/-- Constructor `BST::BST()`. -/
def BST.new : BST := ⟨none, 0⟩

/-- Method `BST::empty`. -/
def BST.empty (b : BST) : Bool := b.numElements == 0

/-- Method `BST::size`. -/
def BST.size (b : BST) : Nat := b.numElements

/-- Method `BST::end`. -/
def BST.end_ : iterator := none

/-- Method `BST::begin`. -/
def BST.begin (h : Heap α) (fuel : Nat) (b : BST) : Option iterator :=
  if b.empty then some BST.end_
  else
    match b.root with
    | none => none
    | some r => (leftmost h fuel r).map some

/-- The loop `for (it = ...; it != end(); ++it)` collecting the node visited and `*it` at
each step. -/
def walk (h : Heap α) : Nat → iterator → Option (List (Nat × α))
  | _, none => some []
  | 0, some _ => none
  | fuel + 1, some p =>
    match h.cells p with
    | none => none
    | some n =>
      match increment h (fuel + 1) (some p) with
      | none => none
      | some nxt =>
        match walk h fuel nxt with
        | none => none
        | some rest => some ((p, n.data) :: rest)

/-- The nodes and values visited by an iterator stepped from `begin()` to `end()`. -/
def BST.traverse (h : Heap α) (fuel : Nat) (b : BST) : Option (List (Nat × α)) :=
  match b.begin h fuel with
  | none => none
  | some it => walk h fuel it

/-- The values visited by an iterator stepped from `begin()` to `end()`. -/
def BST.toList (h : Heap α) (fuel : Nat) (b : BST) : Option (List α) :=
  (b.traverse h fuel).map (fun xs => xs.map Prod.snd)

/-- How the descent loop of `insert` ends: by the early `return` at an equal node, or by
leaving the loop with `parent` and `wentLeft`. -/
inductive Descent where
  | found (cur : Nat)
  | slot (parent : Ptr) (wentLeft : Bool)
deriving DecidableEq

/-- The loop `while (cur) { ... }` of `BST::insert`. -/
def insertLoop [LinearOrder α] (h : Heap α) (t : α) (keepUnique : Bool) :
    Nat → Ptr → Ptr → Bool → Option Descent
  | _, none, parent, wentLeft => some (.slot parent wentLeft)
  | 0, some _, _, _ => none
  | fuel + 1, some c, _, _ =>
    match h.cells c with
    | none => none
    | some n =>
      if keepUnique = true ∧ t = n.data then some (.found c)
      else if t < n.data then insertLoop h t keepUnique fuel n.pLeft (some c) true
      else insertLoop h t keepUnique fuel n.pRight (some c) false

/-- Method `BST::insert(const T& t, bool keepUnique)`: the store and the tree object afterwards,
and the returned pair.  The rvalue overload has the same body. -/
def BST.insert [LinearOrder α] (h : Heap α) (fuel : Nat) (b : BST) (t : α)
    (keepUnique : Bool) : Option (Heap α × BST × iterator × Bool) :=
  match b.root with
  | none =>
    let (r, h1) := h.alloc t
    some (h1, ⟨some r, b.numElements + 1⟩, some r, true)
  | some r =>
    match insertLoop h t keepUnique fuel (some r) none false with
    | none => none
    | some (.found cur) => some (h, b, some cur, false)
    | some (.slot parent wentLeft) =>
      let (n, h1) := h.alloc t
      match parent with
      | none => none
      | some p =>
        match (if wentLeft then addLeft h1 p (some n) else addRight h1 p (some n)) with
        | none => none
        | some h2 => some (h2, ⟨b.root, b.numElements + 1⟩, some n, true)

/-- The loop `while (p) { ... }` of `BST::find`. -/
def findLoop [LinearOrder α] (h : Heap α) (t : α) : Nat → Ptr → Option iterator
  | _, none => some BST.end_
  | 0, some _ => none
  | fuel + 1, some p =>
    match h.cells p with
    | none => none
    | some n =>
      if n.data = t then some (some p)
      else if t < n.data then findLoop h t fuel n.pLeft
      else findLoop h t fuel n.pRight

/-- Method `BST::find`. -/
def BST.find [LinearOrder α] (h : Heap α) (fuel : Nat) (b : BST) (t : α) : Option iterator :=
  findLoop h t fuel b.root

/-- The lambda `transplant(u, v)` of `BST::erase`: replace the subtree rooted at `u` by the
subtree rooted at `v`. -/
def transplant (h : Heap α) (b : BST) (u : Nat) (v : Ptr) : Option (Heap α × BST) :=
  match h.cells u with
  | none => none
  | some nu =>
    let step1 : Option (Heap α × BST) :=
      match nu.pParent with
      | none => some (h, ⟨v, b.numElements⟩)
      | some p =>
        match h.cells p with
        | none => none
        | some np =>
          if np.pLeft = some u then setLeft h p v |>.map (fun h1 => (h1, b))
          else setRight h p v |>.map (fun h1 => (h1, b))
    match step1 with
    | none => none
    | some (h1, b1) =>
      match v with
      | none => some (h1, b1)
      | some va =>
        match h1.cells u with
        | none => none
        | some nu1 => (setParent h1 va nu1.pParent).map (fun h2 => (h2, b1))

/-- After `x->f = y;` the statement `if (x->f) x->f->pParent = x;`. -/
def adopt (h : Heap α) (x : Nat) (child : Ptr) : Option (Heap α) :=
  match child with
  | none => some h
  | some c => setParent h c (some x)

/-- The block `if (s->pParent != z) { transplant(s, s->pRight); s->pRight = z->pRight;
if (s->pRight) s->pRight->pParent = s; }` of the two-children case of `BST::erase`. -/
def detachSuccessor (h : Heap α) (b : BST) (z s : Nat) : Option (Heap α × BST) :=
  match h.cells s with
  | none => none
  | some ns =>
    if ns.pParent ≠ some z then
      match transplant h b s ns.pRight with
      | none => none
      | some (h1, b1) =>
        match h1.cells z with
        | none => none
        | some nz1 =>
          match setRight h1 s nz1.pRight with
          | none => none
          | some h2 =>
            match h2.cells s with
            | none => none
            | some ns2 => (adopt h2 s ns2.pRight).map (fun h3 => (h3, b1))
    else some (h, b)

/-- The block `transplant(z, s); s->pLeft = z->pLeft; if (s->pLeft) s->pLeft->pParent = s;`
of the two-children case of `BST::erase`. -/
def replaceBySuccessor (h : Heap α) (b : BST) (z s : Nat) : Option (Heap α × BST) :=
  match transplant h b z (some s) with
  | none => none
  | some (h4, b4) =>
    match h4.cells z with
    | none => none
    | some nz4 =>
      match setLeft h4 s nz4.pLeft with
      | none => none
      | some h5 =>
        match h5.cells s with
        | none => none
        | some ns5 => (adopt h5 s ns5.pLeft).map (fun h6 => (h6, b4))

/-- The statement `--numElements` on a `size_t`: it wraps at zero. -/
def sizeDec (n : Nat) : Nat := if n = 0 then 2 ^ 64 - 1 else n - 1

/-- Method `BST::erase`: the store and tree object afterwards and the returned iterator. -/
def BST.erase (h : Heap α) (fuel : Nat) (b : BST) (it : iterator) :
    Option (Heap α × BST × iterator) :=
  match it with
  | none => some (h, b, BST.end_)
  | some z =>
    match increment h fuel (some z) with
    | none => none
    | some next =>
      match h.cells z with
      | none => none
      | some nz =>
        match nz.pLeft, nz.pRight with
        | none, zr =>
          match transplant h b z zr with
          | none => none
          | some (h1, b1) => some (h1.free z, ⟨b1.root, sizeDec b1.numElements⟩, next)
        | some zl, none =>
          match transplant h b z (some zl) with
          | none => none
          | some (h1, b1) => some (h1.free z, ⟨b1.root, sizeDec b1.numElements⟩, next)
        | some _, some zr =>
          match leftmost h fuel zr with
          | none => none
          | some s =>
            match detachSuccessor h b z s with
            | none => none
            | some (h3, b3) =>
              match replaceBySuccessor h3 b3 z s with
              | none => none
              | some (h6, b6) => some (h6.free z, ⟨b6.root, sizeDec b6.numElements⟩, next)

/-! ## The shape of a node graph

A `Tree` describes the node graph reachable from a pointer: which address holds which value
and how the nodes are linked.  `Rep` says that the store really contains that graph. -/

/-- The shape of a node graph: `node l a v r` is the node at address `a` holding `v`. -/
inductive Tree (α : Type) where
  | nil
  | node (l : Tree α) (a : Nat) (v : α) (r : Tree α)

/-- The pointer to the root node of a graph. -/
def Tree.ptr : Tree α → Ptr
  | .nil => none
  | .node _ a _ _ => some a

/-- The nodes of a graph with their values, left subtree first, then the node, then the
right subtree. -/
def Tree.entries : Tree α → List (Nat × α)
  | .nil => []
  | .node l a v r => l.entries ++ (a, v) :: r.entries

/-- The addresses of the nodes of a graph, in in-order. -/
def Tree.addrs (t : Tree α) : List Nat := t.entries.map Prod.fst

/-- The values of a graph, in in-order. -/
def Tree.inorder (t : Tree α) : List α := t.entries.map Prod.snd

/-- The number of nodes of a graph. -/
def Tree.size : Tree α → Nat
  | .nil => 0
  | .node l _ _ r => l.size + 1 + r.size

/-- The store `h` holds the graph `t` below a node (or tree object) `parent`: every node
of `t` is live at its address with its value, its two child pointers and its parent
pointer. -/
def Rep (h : Heap α) : Tree α → Ptr → Prop
  | .nil, _ => True
  | .node l a v r, parent =>
    h.cells a = some ⟨v, l.ptr, r.ptr, parent⟩ ∧ Rep h l (some a) ∧ Rep h r (some a)

/-- The ordering invariant: every value of a left subtree is strictly less than the node's
value, every value of a right subtree is greater than or equal to it. -/
def Ordered [LinearOrder α] : Tree α → Prop
  | .nil => True
  | .node l _ v r =>
    Ordered l ∧ Ordered r ∧ (∀ x ∈ l.inorder, x < v) ∧ (∀ x ∈ r.inorder, v ≤ x)

/-- The store never hands out a live address: every address from `next` on is free. -/
def Heap.Fresh (h : Heap α) : Prop := ∀ a, h.next ≤ a → h.cells a = none

/-- The tree object `b` is well formed in the store `h` with node graph `t`: `root` points
to the graph, the root has no parent and every other node's `pParent` is the node holding it
as a child, no node occurs twice, and `numElements` is the number of nodes. -/
structure WF (h : Heap α) (b : BST) (t : Tree α) : Prop where
  fresh : h.Fresh
  root : b.root = t.ptr
  rep : Rep h t none
  nodup : t.addrs.Nodup
  count : b.numElements = t.size

/-- One step of a path from a node up to the root: the node is the left child of the node
at `a` (whose right subtree is `r`), or its right child (whose left subtree is `l`). -/
inductive Frame (α : Type) where
  | left (a : Nat) (v : α) (r : Tree α)
  | right (l : Tree α) (a : Nat) (v : α)

/-- A graph with a hole: the path from the hole up to the top, innermost step first. -/
abbrev Ctx (α : Type) := List (Frame α)

/-- Fill the hole of a context with a graph. -/
def plug : Ctx α → Tree α → Tree α
  | [], s => s
  | .left a v r :: c, s => plug c (.node s a v r)
  | .right l a v :: c, s => plug c (.node l a v s)

/-- The parent pointer of the node in the hole; `top` is the parent of the whole graph. -/
def Ctx.parent (c : Ctx α) (top : Ptr) : Ptr :=
  match c with
  | [] => top
  | .left a _ _ :: _ => some a
  | .right _ a _ :: _ => some a

/-- The entries that precede the hole in in-order. -/
def Ctx.before : Ctx α → List (Nat × α)
  | [] => []
  | .left _ _ _ :: c => Ctx.before c
  | .right l a v :: c => Ctx.before c ++ l.entries ++ [(a, v)]

/-- The entries that follow the hole in in-order. -/
def Ctx.after : Ctx α → List (Nat × α)
  | [] => []
  | .left a v r :: c => (a, v) :: r.entries ++ Ctx.after c
  | .right _ _ _ :: c => Ctx.after c

/-- The addresses of the nodes of a context. -/
def Ctx.addrs (c : Ctx α) : List Nat := c.before.map Prod.fst ++ c.after.map Prod.fst

/-- The store holds the context `c` around a hole whose pointer is `hole`: `top` is the
pointer to the root of the whole graph and `topParent` its parent. -/
def RepC (h : Heap α) : Ctx α → Ptr → Ptr → Ptr → Prop
  | [], hole, top, _ => top = hole
  | .left a v r :: c, hole, top, topParent =>
    h.cells a = some ⟨v, hole, r.ptr, Ctx.parent c topParent⟩ ∧ Rep h r (some a) ∧
      RepC h c (some a) top topParent
  | .right l a v :: c, hole, top, topParent =>
    h.cells a = some ⟨v, l.ptr, hole, Ctx.parent c topParent⟩ ∧ Rep h l (some a) ∧
      RepC h c (some a) top topParent

/-- Every step of the path is a left step: the hole is the leftmost position. -/
def Ctx.AllLeft : Ctx α → Prop
  | [] => True
  | .left _ _ _ :: c => Ctx.AllLeft c
  | .right _ _ _ :: _ => False

/-- Every step of the path is a right step: the hole is the rightmost position. -/
def Ctx.AllRight : Ctx α → Prop
  | [] => True
  | .left _ _ _ :: _ => False
  | .right _ _ _ :: c => Ctx.AllRight c

end custom

namespace custom

variable {α : Type}

/-- The search path of `insert` read off a graph: where the descent loop ends. -/
def Tree.descend [LinearOrder α] (keepUnique : Bool) (x : α) :
    Tree α → Ptr → Bool → Descent
  | .nil, parent, wentLeft => .slot parent wentLeft
  | .node l a v r, _, _ =>
    if keepUnique = true ∧ x = v then .found a
    else if x < v then Tree.descend keepUnique x l (some a) true
    else Tree.descend keepUnique x r (some a) false

/-- The graph after a new node at address `n` holding `x` is linked in at the end of the
search path (unchanged when the path ends at an equal node with `keepUnique`). -/
def Tree.ins [LinearOrder α] (keepUnique : Bool) (x : α) (n : Nat) : Tree α → Tree α
  | .nil => .node .nil n x .nil
  | .node l a v r =>
    if keepUnique = true ∧ x = v then .node l a v r
    else if x < v then .node (Tree.ins keepUnique x n l) a v r
    else .node l a v (Tree.ins keepUnique x n r)

/-- The search path of `find` read off a graph. -/
def Tree.lookup [LinearOrder α] (x : α) : Tree α → iterator
  | .nil => none
  | .node l a v r =>
    if v = x then some a
    else if x < v then Tree.lookup x l
    else Tree.lookup x r

end custom

namespace custom

variable {α : Type}

/-- The pointer to the root of a context whose hole holds `hole`: the hole itself when the
path is empty, the old root `top` otherwise. -/
def Ctx.root (c : Ctx α) (hole top : Ptr) : Ptr :=
  match c with
  | [] => hole
  | _ :: _ => top

end custom

namespace custom

variable {α : Type}

/-! ## Clearing and copy-assignment -/

/-- The recursive lambda `recurse` of `BST::clear` (and `destroy` of `operator=`, which has
the same body): delete the left subtree, the right subtree, then the node. -/
def destroy : Nat → Heap α → Ptr → Option (Heap α)
  | _, h, none => some h
  | 0, _, some _ => none
  | fuel + 1, h, some p =>
    match h.cells p with
    | none => none
    | some n =>
      match destroy fuel h n.pLeft with
      | none => none
      | some h1 =>
        match h1.cells p with
        | none => none
        | some n1 =>
          match destroy fuel h1 n1.pRight with
          | none => none
          | some h2 =>
            match h2.cells p with
            | none => none
            | some _ => some (h2.free p)

/-- Method `BST::clear`. -/
def BST.clear (h : Heap α) (fuel : Nat) (b : BST) : Option (Heap α × BST) :=
  match destroy fuel h b.root with
  | none => none
  | some h1 => some (h1, ⟨none, 0⟩)

/-- The recursive lambda `clone(src, parent)` of `operator=`: the store afterwards and the
pointer to the copy. -/
def clone : Nat → Heap α → Ptr → Ptr → Option (Heap α × Ptr)
  | _, h, none, _ => some (h, none)
  | 0, _, some _, _ => none
  | fuel + 1, h, some src, parent =>
    match h.cells src with
    | none => none
    | some ns =>
      let (n, h1) := h.alloc ns.data
      match setParent h1 n parent with
      | none => none
      | some h2 =>
        match h2.cells src with
        | none => none
        | some ns2 =>
          match clone fuel h2 ns2.pLeft (some n) with
          | none => none
          | some (h3, l) =>
            match setLeft h3 n l with
            | none => none
            | some h4 =>
              match h4.cells src with
              | none => none
              | some ns4 =>
                match clone fuel h4 ns4.pRight (some n) with
                | none => none
                | some (h5, r) =>
                  match setRight h5 n r with
                  | none => none
                  | some h6 => some (h6, some n)

/-- The recursive lambda `assignShape(dst, src)` of `operator=`. -/
def assignShape : Nat → Heap α → Ptr → Ptr → Option (Heap α)
  | _, h, none, _ => some h
  | _, h, some _, none => some h
  | 0, _, some _, some _ => none
  | fuel + 1, h, some dst, some src =>
    match h.cells src with
    | none => none
    | some ns =>
      match setData h dst ns.data with
      | none => none
      | some h1 =>
        match h1.cells dst, h1.cells src with
        | some nd1, some ns1 =>
          match assignShape fuel h1 nd1.pLeft ns1.pLeft with
          | none => none
          | some h2 =>
            match h2.cells dst, h2.cells src with
            | some nd2, some ns2 => assignShape fuel h2 nd2.pRight ns2.pRight
            | _, _ => none
        | _, _ => none

/-- The recursive lambda `count(n)` of `operator=`. -/
def count (h : Heap α) : Nat → Ptr → Option Nat
  | _, none => some 0
  | 0, some _ => none
  | fuel + 1, some p =>
    match h.cells p with
    | none => none
    | some n =>
      match count h fuel n.pLeft, count h fuel n.pRight with
      | some cl, some cr => some (1 + cl + cr)
      | _, _ => none

/-- Case 1 of `operator=`, `rhsCount == 1`: reuse the destination's root, delete its
subtrees; or allocate the single node when the destination is empty. -/
def assignCase1 (h : Heap α) (fuel : Nat) (this : BST) (rroot : Nat) :
    Option (Heap α × BST) :=
  match this.root with
  | none =>
    match h.cells rroot with
    | none => none
    | some nr =>
      let (n, h1) := h.alloc nr.data
      some (h1, ⟨some n, 1⟩)
  | some root =>
    match h.cells rroot with
    | none => none
    | some nr =>
      match setData h root nr.data with
      | none => none
      | some h1 =>
        match h1.cells root with
        | none => none
        | some n1 =>
          match destroy fuel h1 n1.pLeft with
          | none => none
          | some h2 =>
            match h2.cells root with
            | none => none
            | some n2 =>
              match destroy fuel h2 n2.pRight with
              | none => none
              | some h3 =>
                match setRight h3 root none with
                | none => none
                | some h4 =>
                  match setLeft h4 root none with
                  | none => none
                  | some h5 => some (h5, ⟨some root, 1⟩)

/-- Case 2 of `operator=`, the destination is a single node: assign the root, clone the
children of the source's root, recount. -/
def assignCase2 (h : Heap α) (fuel : Nat) (root rroot : Nat) : Option (Heap α × BST) :=
  match h.cells rroot with
  | none => none
  | some nr =>
    match setData h root nr.data with
    | none => none
    | some h1 =>
      match h1.cells rroot with
      | none => none
      | some nr1 =>
        match clone fuel h1 nr1.pLeft (some root) with
        | none => none
        | some (h2, l) =>
          match setLeft h2 root l with
          | none => none
          | some h3 =>
            match h3.cells rroot with
            | none => none
            | some nr3 =>
              match clone fuel h3 nr3.pRight (some root) with
              | none => none
              | some (h4, r) =>
                match setRight h4 root r with
                | none => none
                | some h5 =>
                  match count h5 fuel (some root) with
                  | none => none
                  | some c => some (h5, ⟨some root, c⟩)

/-- Case 3 of `operator=`, equal counts: assign in place. -/
def assignCase3 (h : Heap α) (fuel : Nat) (this : BST) (rroot : Nat) :
    Option (Heap α × BST) :=
  match assignShape fuel h this.root (some rroot) with
  | none => none
  | some h1 => some (h1, this)

/-- The fallback of `operator=`: clear, then clone. -/
def assignFallback (h : Heap α) (fuel : Nat) (this : BST) (rroot rhsCount : Nat) :
    Option (Heap α × BST) :=
  match this.clear h fuel with
  | none => none
  | some (h1, _) =>
    match clone fuel h1 (some rroot) none with
    | none => none
    | some (h2, r) => some (h2, ⟨r, rhsCount⟩)

/-- Method `BST::operator=(const BST & rhs)`: the store and the destination object afterwards.
`sameObject` is the test `this == &rhs`. -/
def BST.assign (h : Heap α) (fuel : Nat) (this rhs : BST) (sameObject : Bool) :
    Option (Heap α × BST) :=
  if sameObject then some (h, this)
  else
    match rhs.root with
    | none => this.clear h fuel
    | some rroot =>
      match count h fuel (some rroot) with
      | none => none
      | some rhsCount =>
        if rhsCount = 1 then assignCase1 h fuel this rroot
        else
          match this.root with
          | none => assignFallback h fuel this rroot rhsCount
          | some root =>
            match h.cells root with
            | none => none
            | some n =>
              if n.pLeft = none ∧ n.pRight = none then assignCase2 h fuel root rroot
              else if this.numElements = rhsCount then assignCase3 h fuel this rroot
              else assignFallback h fuel this rroot rhsCount

/-- Constructor `BST::BST(const BST & rhs)`: an empty tree assigned `rhs`. -/
def BST.copy (h : Heap α) (fuel : Nat) (rhs : BST) : Option (Heap α × BST) :=
  BST.assign h fuel BST.new rhs false

/-- The graph with every address forgotten: its shape and its values. -/
def Tree.skeleton : Tree α → Tree α
  | .nil => .nil
  | .node l _ v r => .node l.skeleton 0 v r.skeleton

end custom

namespace custom

variable {α : Type}

/-! ## Sequences of calls -/

/-- The call `insert(t, keepUnique)` made for each pair of the list in turn. -/
def insertAll [LinearOrder α] (fuel : Nat) :
    List (α × Bool) → Heap α × BST → Option (Heap α × BST)
  | [], s => some s
  | (t, keepUnique) :: rest, (h, b) =>
    match b.insert h fuel t keepUnique with
    | none => none
    | some (h1, b1, _, _) => insertAll fuel rest (h1, b1)

/-- Statement `++it` applied `k` times. -/
def advance (h : Heap α) (fuel : Nat) : Nat → iterator → Option iterator
  | 0, it => some it
  | k + 1, it =>
    match increment h fuel it with
    | none => none
    | some it1 => advance h fuel k it1

/-- A call made on a tree: `insert(t, keepUnique)`, or `erase(it)` where `it` is `begin()`
advanced `k` times (the node at position `k` of the traversal, or `end()`). -/
inductive Call (α : Type) where
  | insert (t : α) (keepUnique : Bool)
  | erase (k : Nat)

/-- Run a sequence of calls, counting the `insert` calls that returned `true` and the
`erase` calls made on an iterator other than `end()`. -/
def runCalls [LinearOrder α] (fuel : Nat) :
    List (Call α) → Heap α × BST × Nat × Nat → Option (Heap α × BST × Nat × Nat)
  | [], s => some s
  | .insert t keepUnique :: rest, (h, b, inserted, erased) =>
    match b.insert h fuel t keepUnique with
    | none => none
    | some (h1, b1, _, ok) =>
      runCalls fuel rest (h1, b1, if ok then inserted + 1 else inserted, erased)
  | .erase k :: rest, (h, b, inserted, erased) =>
    match b.begin h fuel with
    | none => none
    | some first =>
      match advance h fuel k first with
      | none => none
      | some it =>
        match b.erase h fuel it with
        | none => none
        | some (h1, b1, _) =>
          runCalls fuel rest (h1, b1, inserted, if it = BST.end_ then erased else erased + 1)

end custom

namespace custom

/-! ## A concrete tree

The tree built by inserting 5, 3, 8, 1, 4 in that order into an empty tree. -/

/-- The store after inserting 5, 3, 8, 1, 4: the nodes sit at addresses 0 to 4 in the order
of insertion. -/
def exampleHeap : Heap Int :=
  ⟨fun a =>
    match a with
    | 0 => some ⟨5, some 1, some 2, none⟩
    | 1 => some ⟨3, some 3, some 4, some 0⟩
    | 2 => some ⟨8, none, none, some 0⟩
    | 3 => some ⟨1, none, none, some 1⟩
    | 4 => some ⟨4, none, none, some 1⟩
    | _ => none, 5⟩

/-- The tree object after inserting 5, 3, 8, 1, 4. -/
def exampleBST : BST := ⟨some 0, 5⟩

/-- The node graph after inserting 5, 3, 8, 1, 4. -/
def exampleTree : Tree Int :=
  .node (.node (.node .nil 3 1 .nil) 1 3 (.node .nil 4 4 .nil)) 0 5 (.node .nil 2 8 .nil)

/-- A store with two trees: the source built by inserting 2, 1, 3 (nodes 0 to 2) and the
destination built by inserting 10 (node 3). -/
def pairHeap : Heap Int :=
  ⟨fun a =>
    match a with
    | 0 => some ⟨2, some 1, some 2, none⟩
    | 1 => some ⟨1, none, none, some 0⟩
    | 2 => some ⟨3, none, none, some 0⟩
    | 3 => some ⟨10, none, none, none⟩
    | _ => none, 4⟩

/-- The source tree object of `pairHeap`. -/
def pairSrc : BST := ⟨some 0, 3⟩

/-- The destination tree object of `pairHeap`. -/
def pairDest : BST := ⟨some 3, 1⟩

/-- The node graph of the source of `pairHeap`. -/
def pairSrcTree : Tree Int := .node (.node .nil 1 1 .nil) 0 2 (.node .nil 2 3 .nil)

/-- The node graph of the destination of `pairHeap`. -/
def pairDestTree : Tree Int := .node .nil 3 10 .nil

end custom

namespace custom

variable {α : Type}

/-- The tree object `b1` is a well-formed copy of the source `bs` with graph `ts`: its graph
has the shape and the values of `ts`, it shares no node with the source, and the source is
still well formed with the same graph. -/
def IsCopy (h1 : Heap α) (b1 bs : BST) (ts : Tree α) : Prop :=
  ∃ t1, WF h1 b1 t1 ∧ t1.skeleton = ts.skeleton ∧ WF h1 bs ts ∧ ∀ x ∈ t1.addrs, x ∉ ts.addrs

end custom

namespace custom

variable {α : Type}

/-! ## Swap, move and initializer-list assignment -/

/-- Method `BST::swap(BST & rhs)`: the two tree objects afterwards, `this` first.  Only the
fields of the two objects are exchanged; the store is not touched. -/
def BST.swap (this rhs : BST) : BST × BST :=
  let tempRoot := rhs.root
  let rhs1 : BST := ⟨this.root, rhs.numElements⟩
  let this1 : BST := ⟨tempRoot, this.numElements⟩
  let tempElements := rhs1.numElements
  let rhs2 : BST := ⟨rhs1.root, this1.numElements⟩
  let this2 : BST := ⟨this1.root, tempElements⟩
  (this2, rhs2)

/-- Method `BST::operator=(BST && rhs)`: `clear(); swap(rhs);`.  The store and the two tree
objects afterwards, `this` first. -/
def BST.moveAssign (h : Heap α) (fuel : Nat) (this rhs : BST) : Option (Heap α × BST × BST) :=
  match this.clear h fuel with
  | none => none
  | some (h1, this1) =>
    let (this2, rhs2) := this1.swap rhs
    some (h1, this2, rhs2)

/-- Constructor `BST::BST(BST && rhs)`: the new object takes `rhs.root` and
`rhs.numElements`, then `rhs.root = nullptr; rhs.numElements = 0`.  The new object first. -/
def BST.move (rhs : BST) : BST × BST :=
  (⟨rhs.root, rhs.numElements⟩, ⟨none, 0⟩)

/-- Method `BST::operator=(const std::initializer_list<T> & il)`: `clear()`, then
`insert(x)` for each element, with the default `keepUnique = false`. -/
def BST.assignList [LinearOrder α] (h : Heap α) (fuel : Nat) (this : BST) (il : List α) :
    Option (Heap α × BST) :=
  match this.clear h fuel with
  | none => none
  | some (h1, this1) => insertAll fuel (il.map (fun x => (x, false))) (h1, this1)

/-- Constructor `BST::BST(const std::initializer_list<T> & il)`: an empty tree assigned
`il`. -/
def BST.ofList [LinearOrder α] (h : Heap α) (fuel : Nat) (il : List α) :
    Option (Heap α × BST) :=
  BST.assignList h fuel BST.new il

/-! ## Further descriptions of graphs -/

/-- The invariant of the data model relating the two fields of a tree object:
`count == 0` exactly when `root` is none. -/
def BST.CountInv (b : BST) : Prop := b.numElements = 0 ↔ b.root = none

/-- The parent back-reference invariant on the nodes `nodes` of the tree `b`: the root has
no parent; every child pointer of a node leads to a node whose `pParent` is that node; and
every node other than the root has a `pParent` that is a node holding it as `pLeft` or
`pRight`. -/
def ParentLinked (h : Heap α) (b : BST) (nodes : List Nat) : Prop :=
  (∀ r, b.root = some r → ∃ n, h.cells r = some n ∧ n.pParent = none) ∧
  (∀ a ∈ nodes, ∀ n, h.cells a = some n → ∀ c, (n.pLeft = some c ∨ n.pRight = some c) →
    c ∈ nodes ∧ ∃ nc, h.cells c = some nc ∧ nc.pParent = some a) ∧
  (∀ a ∈ nodes, some a ≠ b.root → ∃ p ∈ nodes, ∃ na np, h.cells a = some na ∧
    na.pParent = some p ∧ h.cells p = some np ∧ (np.pLeft = some a ∨ np.pRight = some a))

/-- The destination graph after `assignShape(dst, src)`: same nodes and links, and the
value of the source at every node whose path from the root also exists in the source. -/
def Tree.overlay : Tree α → Tree α → Tree α
  | .nil, _ => .nil
  | .node l a v r, .nil => .node l a v r
  | .node l a _ r, .node sl _ sv sr => .node (Tree.overlay l sl) a sv (Tree.overlay r sr)

/-- The graph `t1` left by `erase` of a node with subtrees `l` and `r` in the hole of the
context `c`: the right subtree spliced in when there is no left child, the left subtree when
there is no right child, and otherwise the first node `s` of the right subtree moved into
the hole. -/
def Erased (c : Ctx α) (l r t1 : Tree α) : Prop :=
  (l = .nil ∧ t1 = plug c r) ∨ (l ≠ .nil ∧ r = .nil ∧ t1 = plug c l) ∨
  (l ≠ .nil ∧ ∃ cr s sv sr, r = plug cr (.node .nil s sv sr) ∧ Ctx.AllLeft cr ∧
    t1 = plug c (.node l s sv (plug cr sr)))

/-- A store with two trees: one built by inserting 5, 3, 9, 7, 8 (nodes 0 to 4), in which
the node holding 5 has two children and its in-order successor, the node holding 7, is not
its right child; and one built by inserting 20 (node 5). -/
def deepHeap : Heap Int :=
  ⟨fun a =>
    match a with
    | 0 => some ⟨5, some 1, some 2, none⟩
    | 1 => some ⟨3, none, none, some 0⟩
    | 2 => some ⟨9, some 3, none, some 0⟩
    | 3 => some ⟨7, none, some 4, some 2⟩
    | 4 => some ⟨8, none, none, some 3⟩
    | 5 => some ⟨20, none, none, none⟩
    | _ => none, 6⟩

/-- The tree object of `deepHeap` built by inserting 5, 3, 9, 7, 8. -/
def deepBST : BST := ⟨some 0, 5⟩

/-- The node graph of `deepBST`. -/
def deepTree : Tree Int :=
  .node (.node .nil 1 3 .nil) 0 5 (.node (.node .nil 3 7 (.node .nil 4 8 .nil)) 2 9 .nil)

/-- The tree object of `deepHeap` built by inserting 20. -/
def deepSrc : BST := ⟨some 5, 1⟩

/-- The node graph of `deepSrc`. -/
def deepSrcTree : Tree Int := .node .nil 5 20 .nil

end custom

namespace custom

variable {α : Type}

/-! ## The set adapter (set.h)

The class `custom::set` holds one `BST` and forwards to it.  Its iterator wraps a
`BST::iterator` and steps it with the tree's own `operator++` and `operator--`, so an
iterator of the set is represented by the iterator of the tree. -/

/-- Class `custom::set`: its single member `bst`. -/
structure set where
  bst : BST
deriving DecidableEq

/-- Constructor `set::set()`: the member `bst` is default-constructed. -/
def set.new : set := ⟨BST.new⟩

/-- Method `set::size`. -/
def set.size (s : set) : Nat := s.bst.size

/-- Method `set::empty`. -/
def set.empty (s : set) : Bool := s.bst.empty

/-- Method `set::begin`. -/
def set.begin (h : Heap α) (fuel : Nat) (s : set) : Option iterator := s.bst.begin h fuel

/-- Method `set::end`. -/
def set.end_ : iterator := BST.end_

/-- The values visited by a set iterator stepped from `begin()` to `end()`. -/
def set.toList (h : Heap α) (fuel : Nat) (s : set) : Option (List α) := s.bst.toList h fuel

/-- Method `set::operator=(const std::initializer_list<T> & il)`: `bst = il`. -/
def set.assignList [LinearOrder α] (h : Heap α) (fuel : Nat) (this : set) (il : List α) :
    Option (Heap α × set) :=
  match this.bst.assignList h fuel il with
  | none => none
  | some (h1, b1) => some (h1, ⟨b1⟩)

/-- Constructor `set::set(const std::initializer_list<T> & il)`: the member `bst` is
default-constructed, then `bst = il`. -/
def set.ofList [LinearOrder α] (h : Heap α) (fuel : Nat) (il : List α) :
    Option (Heap α × set) :=
  set.assignList h fuel set.new il

/-- Method `set::insert(const T & t)`: `bst.insert(t, true)`. -/
def set.insert [LinearOrder α] (h : Heap α) (fuel : Nat) (this : set) (t : α) :
    Option (Heap α × set × iterator × Bool) :=
  match this.bst.insert h fuel t true with
  | none => none
  | some (h1, b1, it, ok) => some (h1, ⟨b1⟩, it, ok)

/-- Method `set::insert(const std::initializer_list<T> & il)`: `insert(i)` for each element
in turn. -/
def set.insertList [LinearOrder α] (fuel : Nat) :
    List α → Heap α × set → Option (Heap α × set)
  | [], s => some s
  | t :: rest, (h, s) =>
    match s.insert h fuel t with
    | none => none
    | some (h1, s1, _, _) => set.insertList fuel rest (h1, s1)

/-- Constructor `set::set(Iterator first, Iterator last)`: the member `bst` is
default-constructed, then `bst.insert(*it, true)` for each element of the range, given here
as the list of its elements. -/
def set.ofRange [LinearOrder α] (h : Heap α) (fuel : Nat) (range : List α) :
    Option (Heap α × set) :=
  match insertAll fuel (range.map (fun x => (x, true))) (h, BST.new) with
  | none => none
  | some (h1, b1) => some (h1, ⟨b1⟩)

/-! ## Paths and shapes of graphs -/

/-- The node of a graph reached from its root by a path of child links (`false` follows
`pLeft`, `true` follows `pRight`): its address and its value, or none when the path leaves
the graph. -/
def Tree.nodeAt : Tree α → List Bool → Option (Nat × α)
  | .nil, _ => none
  | .node _ a v _, [] => some (a, v)
  | .node l _ _ _, false :: p => l.nodeAt p
  | .node _ _ _ r, true :: p => r.nodeAt p

/-- The shape of a graph: every address and every value forgotten. -/
def Tree.shape : Tree α → Tree Unit
  | .nil => .nil
  | .node l _ _ r => .node l.shape 0 () r.shape

/-- The three links of a node. -/
def BNode.links (n : BNode α) : Ptr × Ptr × Ptr := (n.pLeft, n.pRight, n.pParent)

/-- A store with three trees of three nodes each: one built by inserting 1, 2, 3 (nodes 0 to
2, a chain of right children), one built by inserting 3, 2, 1 (nodes 3 to 5, a chain of left
children) and one built by inserting 7, 8, 9 (nodes 6 to 8, a chain of right children). -/
def chainHeap : Heap Int :=
  ⟨fun a =>
    match a with
    | 0 => some ⟨1, none, some 1, none⟩
    | 1 => some ⟨2, none, some 2, some 0⟩
    | 2 => some ⟨3, none, none, some 1⟩
    | 3 => some ⟨3, some 4, none, none⟩
    | 4 => some ⟨2, some 5, none, some 3⟩
    | 5 => some ⟨1, none, none, some 4⟩
    | 6 => some ⟨7, none, some 7, none⟩
    | 7 => some ⟨8, none, some 8, some 6⟩
    | 8 => some ⟨9, none, none, some 7⟩
    | _ => none, 9⟩

/-- The tree object of `chainHeap` built by inserting 1, 2, 3. -/
def chainSrc : BST := ⟨some 0, 3⟩

/-- The node graph of `chainSrc`. -/
def chainSrcTree : Tree Int := .node .nil 0 1 (.node .nil 1 2 (.node .nil 2 3 .nil))

/-- The tree object of `chainHeap` built by inserting 3, 2, 1. -/
def chainDest : BST := ⟨some 3, 3⟩

/-- The node graph of `chainDest`. -/
def chainDestTree : Tree Int := .node (.node (.node .nil 5 1 .nil) 4 2 .nil) 3 3 .nil

/-- The tree object of `chainHeap` built by inserting 7, 8, 9. -/
def chainTwin : BST := ⟨some 6, 3⟩

/-- The node graph of `chainTwin`. -/
def chainTwinTree : Tree Int := .node .nil 6 7 (.node .nil 7 8 (.node .nil 8 9 .nil))

end custom

namespace custom

variable {α : Type}

/-! ## Basic facts about the store and graphs -/

@[simp] theorem Heap.write_cells (h : Heap α) (a : Nat) (n : BNode α) (x : Nat) :
    (h.write a n).cells x = if x = a then some n else h.cells x := rfl

@[simp] theorem Heap.write_next (h : Heap α) (a : Nat) (n : BNode α) :
    (h.write a n).next = h.next := rfl

@[simp] theorem Heap.free_cells (h : Heap α) (a : Nat) (x : Nat) :
    (h.free a).cells x = if x = a then none else h.cells x := rfl

@[simp] theorem Heap.free_next (h : Heap α) (a : Nat) : (h.free a).next = h.next := rfl

@[simp] theorem Heap.alloc_fst (h : Heap α) (t : α) : (h.alloc t).1 = h.next := rfl

@[simp] theorem Heap.alloc_cells (h : Heap α) (t : α) (x : Nat) :
    (h.alloc t).2.cells x = if x = h.next then some ⟨t, none, none, none⟩ else h.cells x := rfl

@[simp] theorem Heap.alloc_next (h : Heap α) (t : α) : (h.alloc t).2.next = h.next + 1 := rfl

@[simp] theorem Tree.ptr_nil : (Tree.nil : Tree α).ptr = none := rfl

@[simp] theorem Tree.ptr_node (l : Tree α) (a : Nat) (v : α) (r : Tree α) :
    (Tree.node l a v r).ptr = some a := rfl

@[simp] theorem Tree.entries_nil : (Tree.nil : Tree α).entries = [] := rfl

@[simp] theorem Tree.entries_node (l : Tree α) (a : Nat) (v : α) (r : Tree α) :
    (Tree.node l a v r).entries = l.entries ++ (a, v) :: r.entries := rfl

@[simp] theorem Tree.addrs_nil : (Tree.nil : Tree α).addrs = [] := rfl

@[simp] theorem Tree.addrs_node (l : Tree α) (a : Nat) (v : α) (r : Tree α) :
    (Tree.node l a v r).addrs = l.addrs ++ a :: r.addrs := by
  simp [Tree.addrs]

theorem Tree.map_fst_entries (t : Tree α) : t.entries.map Prod.fst = t.addrs := rfl

theorem Tree.map_snd_entries (t : Tree α) : t.entries.map Prod.snd = t.inorder := rfl

@[simp] theorem Tree.inorder_nil : (Tree.nil : Tree α).inorder = [] := rfl

@[simp] theorem Tree.inorder_node (l : Tree α) (a : Nat) (v : α) (r : Tree α) :
    (Tree.node l a v r).inorder = l.inorder ++ v :: r.inorder := by
  simp [Tree.inorder]

@[simp] theorem Tree.size_nil : (Tree.nil : Tree α).size = 0 := rfl

@[simp] theorem Tree.size_node (l : Tree α) (a : Nat) (v : α) (r : Tree α) :
    (Tree.node l a v r).size = l.size + 1 + r.size := rfl

theorem Tree.length_entries (t : Tree α) : t.entries.length = t.size := by
  induction t with
  | nil => rfl
  | node l a v r ihl ihr => simp [ihl, ihr]; omega

theorem Tree.length_addrs (t : Tree α) : t.addrs.length = t.size := by
  simp [Tree.addrs, Tree.length_entries]

theorem Tree.ptr_eq_none {t : Tree α} : t.ptr = none ↔ t = .nil := by
  cases t <;> simp

theorem Tree.ptr_mem_addrs {t : Tree α} {a : Nat} (ht : t.ptr = some a) : a ∈ t.addrs := by
  cases t with
  | nil => simp at ht
  | node l b v r => simp at ht; simp [ht]

theorem Tree.head_addrs_ne_none {t : Tree α} {a : Nat} (ht : t.ptr = some a) :
    t.addrs ≠ [] := by
  cases t with
  | nil => simp at ht
  | node l b v r => simp

@[simp] theorem Rep_nil (h : Heap α) (p : Ptr) : Rep h .nil p := trivial

theorem Rep_node {h : Heap α} {l r : Tree α} {a : Nat} {v : α} {p : Ptr} :
    Rep h (.node l a v r) p ↔
      h.cells a = some ⟨v, l.ptr, r.ptr, p⟩ ∧ Rep h l (some a) ∧ Rep h r (some a) := Iff.rfl

/-- A graph only depends on the cells of its own nodes. -/
theorem Rep.congr {h h1 : Heap α} {t : Tree α} {p : Ptr} (hr : Rep h t p)
    (hc : ∀ a ∈ t.addrs, h1.cells a = h.cells a) : Rep h1 t p := by
  induction t generalizing p with
  | nil => trivial
  | node l a v r ihl ihr =>
    obtain ⟨h0, hl, hrr⟩ := hr
    refine ⟨?_, ihl hl ?_, ihr hrr ?_⟩
    · rw [hc a (by simp)]; exact h0
    · intro x hx; exact hc x (by simp [hx])
    · intro x hx; exact hc x (by simp [hx])

/-- Every node of a graph held by the store is live. -/
theorem Rep.live {h : Heap α} {t : Tree α} {p : Ptr} (hr : Rep h t p) {a : Nat}
    (ha : a ∈ t.addrs) : ∃ n, h.cells a = some n := by
  induction t generalizing p with
  | nil => simp at ha
  | node l b v r ihl ihr =>
    obtain ⟨h0, hl, hrr⟩ := hr
    simp at ha
    rcases ha with ha | rfl | ha
    · exact ihl hl ha
    · exact ⟨_, h0⟩
    · exact ihr hrr ha

theorem Rep.lt_next {h : Heap α} {t : Tree α} {p : Ptr} (hr : Rep h t p) (hf : h.Fresh)
    {a : Nat} (ha : a ∈ t.addrs) : a < h.next := by
  by_contra hlt
  obtain ⟨n, hn⟩ := hr.live ha
  rw [hf a (by omega)] at hn
  exact absurd hn (by simp)

/-- Changing the parent pointer of the root node re-parents the graph. -/
theorem Rep.setParent {h : Heap α} {l r : Tree α} {a : Nat} {v : α} {p : Ptr}
    (hr : Rep h (.node l a v r) p) (hn : (Tree.node l a v r).addrs.Nodup) (q : Ptr) :
    Rep (h.write a ⟨v, l.ptr, r.ptr, q⟩) (.node l a v r) q := by
  obtain ⟨h0, hl, hrr⟩ := hr
  simp only [Tree.addrs_node] at hn
  have hn' := List.nodup_append.mp hn
  have hal : a ∉ l.addrs := fun hx => hn'.2.2 hx (by simp)
  have har : a ∉ r.addrs := (List.nodup_cons.mp hn'.2.1).1
  refine ⟨by simp, hl.congr ?_, hrr.congr ?_⟩
  · intro x hx
    have : x ≠ a := fun e => hal (e ▸ hx)
    simp [this]
  · intro x hx
    have : x ≠ a := fun e => har (e ▸ hx)
    simp [this]

/-! ## Contexts -/

@[simp] theorem plug_nil (s : Tree α) : plug [] s = s := rfl

@[simp] theorem plug_left (a : Nat) (v : α) (r : Tree α) (c : Ctx α) (s : Tree α) :
    plug (Frame.left a v r :: c) s = plug c (.node s a v r) := rfl

@[simp] theorem plug_right (l : Tree α) (a : Nat) (v : α) (c : Ctx α) (s : Tree α) :
    plug (Frame.right l a v :: c) s = plug c (.node l a v s) := rfl

theorem entries_plug (c : Ctx α) (s : Tree α) :
    (plug c s).entries = c.before ++ s.entries ++ c.after := by
  induction c generalizing s with
  | nil => simp [Ctx.before, Ctx.after]
  | cons f c ih =>
    cases f with
    | left a v r => simp [ih, Ctx.before, Ctx.after]
    | right l a v => simp [ih, Ctx.before, Ctx.after]

theorem addrs_plug (c : Ctx α) (s : Tree α) :
    (plug c s).addrs = c.before.map Prod.fst ++ s.addrs ++ c.after.map Prod.fst := by
  simp [Tree.addrs, entries_plug]

theorem size_plug (c : Ctx α) (s : Tree α) :
    (plug c s).size = c.before.length + s.size + c.after.length := by
  rw [← Tree.length_entries, entries_plug]; simp [Tree.length_entries]; omega

theorem mem_addrs_plug {c : Ctx α} {s : Tree α} {x : Nat} :
    x ∈ (plug c s).addrs ↔ x ∈ s.addrs ∨ x ∈ c.addrs := by
  simp only [addrs_plug, Ctx.addrs, List.mem_append]; tauto

theorem nodup_plug {c : Ctx α} {s : Tree α} :
    (plug c s).addrs.Nodup ↔
      s.addrs.Nodup ∧ c.addrs.Nodup ∧ ∀ x ∈ s.addrs, x ∉ c.addrs := by
  rw [addrs_plug, Ctx.addrs]
  have h1 : (c.before.map Prod.fst ++ s.addrs ++ c.after.map Prod.fst).Perm
      (s.addrs ++ (c.before.map Prod.fst ++ c.after.map Prod.fst)) := by
    rw [List.append_assoc]
    exact (List.perm_append_comm_assoc _ _ _)
  rw [h1.nodup_iff, List.nodup_append]
  constructor
  · rintro ⟨a, b, d⟩; exact ⟨a, b, fun x hx hx2 => d hx hx2⟩
  · rintro ⟨a, b, d⟩; exact ⟨a, b, fun x hx hx2 => d _ hx hx2⟩

theorem Ctx.length_le (c : Ctx α) : c.length ≤ c.before.length + c.after.length := by
  induction c with
  | nil => simp
  | cons f c ih =>
    cases f with
    | left a v r => simp [Ctx.before, Ctx.after]; omega
    | right l a v => simp [Ctx.before, Ctx.after]; omega

theorem Ctx.mem_addrs_left {a : Nat} {v : α} {r : Tree α} {c : Ctx α} {x : Nat} :
    x ∈ Ctx.addrs (Frame.left a v r :: c) ↔ x = a ∨ x ∈ r.addrs ∨ x ∈ Ctx.addrs c := by
  simp only [Ctx.addrs, Ctx.before, Ctx.after, Tree.addrs, List.map_cons, List.map_append,
    List.mem_append, List.mem_cons]
  tauto

theorem Ctx.mem_addrs_right {a : Nat} {v : α} {l : Tree α} {c : Ctx α} {x : Nat} :
    x ∈ Ctx.addrs (Frame.right l a v :: c) ↔ x = a ∨ x ∈ l.addrs ∨ x ∈ Ctx.addrs c := by
  simp only [Ctx.addrs, Ctx.before, Ctx.after, Tree.addrs, List.map_cons, List.map_append,
    List.mem_append, List.mem_cons, List.map_nil, List.mem_singleton, List.not_mem_nil,
    or_false]
  tauto

@[simp] theorem Ctx.addrs_empty : Ctx.addrs ([] : Ctx α) = [] := rfl

/-- A graph with a hole filled is held by the store exactly when the filling and the
context are. -/
theorem rep_plug {h : Heap α} {c : Ctx α} {s : Tree α} {top topParent : Ptr} :
    (Rep h (plug c s) topParent ∧ (plug c s).ptr = top) ↔
      (Rep h s (c.parent topParent) ∧ RepC h c s.ptr top topParent) := by
  induction c generalizing s with
  | nil => simp [Ctx.parent, RepC, eq_comm]
  | cons f c ih =>
    cases f with
    | left a v r =>
      rw [plug_left, ih]
      simp only [Rep_node, RepC, Ctx.parent, Tree.ptr_node]
      tauto
    | right l a v =>
      rw [plug_right, ih]
      simp only [Rep_node, RepC, Ctx.parent, Tree.ptr_node]
      tauto

/-- A context only depends on the cells of its own nodes. -/
theorem RepC.congr_ctx {h h1 : Heap α} {c : Ctx α} {hole top tp : Ptr} (hr : RepC h c hole top tp)
    (hc : ∀ a ∈ c.addrs, h1.cells a = h.cells a) : RepC h1 c hole top tp := by
  induction c generalizing hole with
  | nil => exact hr
  | cons f c ih =>
    cases f with
    | left a v r =>
      obtain ⟨h0, hrr, hcc⟩ := hr
      refine ⟨?_, hrr.congr ?_, ih hcc ?_⟩
      · rw [hc a (Ctx.mem_addrs_left.mpr (Or.inl rfl))]; exact h0
      · intro x hx; exact hc x (Ctx.mem_addrs_left.mpr (Or.inr (Or.inl hx)))
      · intro x hx; exact hc x (Ctx.mem_addrs_left.mpr (Or.inr (Or.inr hx)))
    | right l a v =>
      obtain ⟨h0, hrr, hcc⟩ := hr
      refine ⟨?_, hrr.congr ?_, ih hcc ?_⟩
      · rw [hc a (Ctx.mem_addrs_right.mpr (Or.inl rfl))]; exact h0
      · intro x hx; exact hc x (Ctx.mem_addrs_right.mpr (Or.inr (Or.inl hx)))
      · intro x hx; exact hc x (Ctx.mem_addrs_right.mpr (Or.inr (Or.inr hx)))

/-- Every node of a graph sits in the hole of some context. -/
theorem exists_plug_of_mem {t : Tree α} {z : Nat} (hz : z ∈ t.addrs) :
    ∃ c l v r, t = plug c (.node l z v r) := by
  induction t with
  | nil => simp at hz
  | node l a v r ihl ihr =>
    simp at hz
    rcases hz with hz | rfl | hz
    · obtain ⟨c, l1, v1, r1, e⟩ := ihl hz
      refine ⟨c ++ [Frame.left a v r], l1, v1, r1, ?_⟩
      rw [e]
      clear e ihl ihr hz
      generalize Tree.node l1 z v1 r1 = s
      induction c generalizing s with
      | nil => rfl
      | cons f c ih => cases f <;> simp [ih]
    · exact ⟨[], l, v, r, rfl⟩
    · obtain ⟨c, l1, v1, r1, e⟩ := ihr hz
      refine ⟨c ++ [Frame.right l a v], l1, v1, r1, ?_⟩
      rw [e]
      clear e ihl ihr hz
      generalize Tree.node l1 z v1 r1 = s
      induction c generalizing s with
      | nil => rfl
      | cons f c ih => cases f <;> simp [ih]

end custom

namespace custom

variable {α : Type}

/-! ## Stepping an iterator -/

/-- The loop of `begin` and `operator++` stops at the first node of the subtree. -/
theorem leftmost_eq {h : Heap α} {t : Tree α} {p : Ptr} {a : Nat} {fuel : Nat}
    (hr : Rep h t p) (ha : t.ptr = some a) (hf : t.size ≤ fuel) :
    leftmost h fuel a = t.addrs.head? := by
  induction t generalizing p a fuel with
  | nil => simp at ha
  | node l b v r ihl _ =>
    simp at ha; subst ha
    obtain ⟨h0, hl, _⟩ := hr
    cases fuel with
    | zero => simp at hf
    | succ fuel =>
      simp only [leftmost, h0]
      cases l with
      | nil => simp
      | node ll la lv lr =>
        simp only [Tree.ptr_node]
        rw [ihl hl rfl (by simp at hf ⊢; omega)]
        simp

/-- The loop of `operator--` stops at the last node of the subtree. -/
theorem rightmost_eq {h : Heap α} {t : Tree α} {p : Ptr} {a : Nat} {fuel : Nat}
    (hr : Rep h t p) (ha : t.ptr = some a) (hf : t.size ≤ fuel) :
    rightmost h fuel a = t.addrs.getLast? := by
  induction t generalizing p a fuel with
  | nil => simp at ha
  | node l b v r _ ihr =>
    simp at ha; subst ha
    obtain ⟨h0, _, hrr⟩ := hr
    cases fuel with
    | zero => simp at hf
    | succ fuel =>
      simp only [rightmost, h0]
      cases r with
      | nil => simp
      | node rl ra rv rr =>
        simp only [Tree.ptr_node]
        rw [ihr hrr rfl (by simp at hf ⊢; omega)]
        rw [Tree.addrs_node l, ← List.singleton_append, ← List.append_assoc,
          List.getLast?_append_of_ne_nil _ (Tree.head_addrs_ne_none (Tree.ptr_node rl ra rv rr))]

/-- Climbing from the hole of a context while arriving from a right child ends at the
first node after the hole. -/
theorem climbFromRight_eq {h : Heap α} {c : Ctx α} {z : Nat} {top : Ptr} {fuel : Nat}
    (hc : RepC h c (some z) top none) (hz : z ∉ c.addrs) (hn : c.addrs.Nodup)
    (hf : c.length ≤ fuel) :
    climbFromRight h fuel z (c.parent none) = some ((c.after.map Prod.fst).head?) := by
  induction c generalizing z fuel with
  | nil => cases fuel <;> simp [climbFromRight, Ctx.parent, Ctx.after]
  | cons f c ih =>
    cases fuel with
    | zero => simp at hf
    | succ fuel =>
    cases f with
    | left a v r =>
      obtain ⟨h0, hr, hcc⟩ := hc
      have hza : z ∉ r.addrs := fun hx => hz (Ctx.mem_addrs_left.mpr (Or.inr (Or.inl hx)))
      have : r.ptr ≠ some z := fun e => hza (Tree.ptr_mem_addrs e)
      simp [climbFromRight, Ctx.parent, h0, this, Ctx.after]
    | right l a v =>
      obtain ⟨h0, hl, hcc⟩ := hc
      have hac : a ∉ Ctx.addrs c := by
        intro hx
        simp only [Ctx.addrs, Ctx.before, Ctx.after, List.map_append, List.map_cons,
          List.map_nil] at hn hx
        have := List.nodup_append.mp hn
        rcases List.mem_append.mp hx with hx | hx
        · have h2 := List.nodup_append.mp this.1
          have h3 := List.nodup_append.mp h2.1
          exact h2.2.2 (List.mem_append_left _ hx) (by simp)
        · exact this.2.2 (by simp) hx
      have hnc : (Ctx.addrs c).Nodup := by
        simp only [Ctx.addrs, Ctx.before, Ctx.after, List.map_append, List.map_cons,
          List.map_nil] at hn ⊢
        have := List.nodup_append.mp hn
        have h2 := List.nodup_append.mp this.1
        have h3 := List.nodup_append.mp h2.1
        exact List.nodup_append.mpr ⟨h3.1, this.2.1, fun x hx hy =>
          this.2.2 (List.mem_append_left _ (List.mem_append_left _ hx)) hy⟩
      simp only [climbFromRight, Ctx.parent, h0, if_true, Ctx.after]
      exact ih hcc hac hnc (by simpa using hf)

/-- Climbing from the hole of a context while arriving from a left child ends at the
last node before the hole. -/
theorem climbFromLeft_eq {h : Heap α} {c : Ctx α} {z : Nat} {top : Ptr} {fuel : Nat}
    (hc : RepC h c (some z) top none) (hz : z ∉ c.addrs) (hn : c.addrs.Nodup)
    (hf : c.length ≤ fuel) :
    climbFromLeft h fuel z (c.parent none) = some ((c.before.map Prod.fst).getLast?) := by
  induction c generalizing z fuel with
  | nil => cases fuel <;> simp [climbFromLeft, Ctx.parent, Ctx.before]
  | cons f c ih =>
    cases fuel with
    | zero => simp at hf
    | succ fuel =>
    cases f with
    | right l a v =>
      obtain ⟨h0, hl, hcc⟩ := hc
      have hza : z ∉ l.addrs := fun hx => hz (Ctx.mem_addrs_right.mpr (Or.inr (Or.inl hx)))
      have : l.ptr ≠ some z := fun e => hza (Tree.ptr_mem_addrs e)
      simp [climbFromLeft, Ctx.parent, h0, this, Ctx.before, List.getLast?_append]
    | left a v r =>
      obtain ⟨h0, hr, hcc⟩ := hc
      have hac : a ∉ Ctx.addrs c := by
        intro hx
        simp only [Ctx.addrs, Ctx.before, Ctx.after, List.map_append, List.map_cons,
          List.map_nil] at hn hx
        have := List.nodup_append.mp hn
        rcases List.mem_append.mp hx with hx | hx
        · exact this.2.2 hx (by simp)
        · have h2 := List.nodup_cons.mp this.2.1
          exact h2.1 (List.mem_append_right _ hx)
      have hnc : (Ctx.addrs c).Nodup := by
        simp only [Ctx.addrs, Ctx.before, Ctx.after, List.map_append, List.map_cons,
          List.map_nil] at hn ⊢
        have := List.nodup_append.mp hn
        have h2 := List.nodup_cons.mp this.2.1
        have h3 := List.nodup_append.mp h2.2
        exact List.nodup_append.mpr ⟨this.1, h3.2.1, fun x hx hy =>
          this.2.2 hx (List.mem_cons_of_mem _ (List.mem_append_right _ hy))⟩
      simp only [climbFromLeft, Ctx.parent, h0, if_true, Ctx.before]
      exact ih hcc hac hnc (by simpa using hf)

end custom

namespace custom

variable {α : Type}

/-- The value stored at a node of a graph held by the store. -/
theorem Rep.data {h : Heap α} {t : Tree α} {p : Ptr} (hr : Rep h t p) {a : Nat} {v : α}
    (ha : (a, v) ∈ t.entries) : ∃ n, h.cells a = some n ∧ n.data = v := by
  induction t generalizing p with
  | nil => simp at ha
  | node l b w r ihl ihr =>
    obtain ⟨h0, hl, hrr⟩ := hr
    simp at ha
    rcases ha with ha | ⟨rfl, rfl⟩ | ha
    · exact ihl hl ha
    · exact ⟨_, h0, rfl⟩
    · exact ihr hrr ha

/-- In a list without repeated keys, the place of a key is unique. -/
theorem split_unique {x1 x2 y1 y2 : List (Nat × α)} {a : Nat} {v w : α}
    (hn : ((x1 ++ (a, v) :: y1).map Prod.fst).Nodup)
    (he : x1 ++ (a, v) :: y1 = x2 ++ (a, w) :: y2) : x1 = x2 ∧ v = w ∧ y1 = y2 := by
  induction x1 generalizing x2 with
  | nil =>
    cases x2 with
    | nil => simp at he; exact ⟨rfl, he.1, he.2⟩
    | cons e x2 =>
      simp at he
      obtain ⟨rfl, rfl⟩ := he
      simp at hn
  | cons e x1 ih =>
    cases x2 with
    | nil =>
      simp at he
      obtain ⟨rfl, rfl⟩ := he
      simp at hn
    | cons e2 x2 =>
      simp at he
      obtain ⟨rfl, he⟩ := he
      simp only [List.cons_append, List.map_cons, List.nodup_cons] at hn
      obtain ⟨r1, r2, r3⟩ := ih hn.2 he
      exact ⟨by rw [r1], r2, r3⟩

/-- Function `operator++` on an iterator at a node of a well-formed graph gives the next node in
in-order, or the end iterator at the last node. -/
theorem increment_eq {h : Heap α} {c : Ctx α} {l r : Tree α} {z : Nat} {v : α} {fuel : Nat}
    (hr : Rep h (plug c (.node l z v r)) none)
    (hn : (plug c (.node l z v r)).addrs.Nodup)
    (hf : (plug c (.node l z v r)).size ≤ fuel) :
    increment h fuel (some z) = some (((r.entries ++ c.after).map Prod.fst).head?) := by
  obtain ⟨hs, hc⟩ := (@rep_plug _ _ _ _ (plug c (.node l z v r)).ptr _).mp ⟨hr, rfl⟩
  obtain ⟨h0, hl, hrr⟩ := hs
  obtain ⟨n1, n2, n3⟩ := nodup_plug.mp hn
  rw [size_plug] at hf
  simp only [increment, h0]
  cases r with
  | nil =>
    simp only [Tree.ptr_nil, Tree.entries_nil, List.nil_append]
    exact climbFromRight_eq hc (n3 z (by simp)) n2 (by have := c.length_le; omega)
  | node rl ra rv rr =>
    simp only [Tree.ptr_node]
    rw [leftmost_eq hrr rfl (by simp at hf ⊢; omega)]
    have : (Tree.node rl ra rv rr).addrs ≠ [] := by simp
    rw [List.map_append, ← Tree.addrs]
    cases hx : (Tree.node rl ra rv rr).addrs with
    | nil => exact absurd hx this
    | cons x xs => simp

/-- Stepping an iterator from a node to the end visits the rest of the in-order
sequence. -/
theorem walk_eq {h : Heap α} {t : Tree α} (hr : Rep h t none) (hn : t.addrs.Nodup)
    (xs ys : List (Nat × α)) (he : t.entries = xs ++ ys) {fuel : Nat}
    (hf : t.size + ys.length ≤ fuel) :
    walk h fuel ((ys.map Prod.fst).head?) = some ys := by
  induction ys generalizing xs fuel with
  | nil => cases fuel <;> simp [walk]
  | cons e ys ih =>
    obtain ⟨a, v⟩ := e
    cases fuel with
    | zero => simp at hf
    | succ fuel =>
      have hmem : (a, v) ∈ t.entries := by rw [he]; simp
      obtain ⟨n, hcell, hdata⟩ := hr.data hmem
      have hmem2 : a ∈ t.addrs := List.mem_map.mpr ⟨(a, v), hmem, rfl⟩
      obtain ⟨c, l, w, r, et⟩ := exists_plug_of_mem hmem2
      subst et
      have hsplit : xs = c.before ++ l.entries ∧ v = w ∧ ys = r.entries ++ c.after := by
        have e2 := he
        rw [entries_plug] at e2
        simp only [Tree.entries_node, List.append_assoc, List.cons_append] at e2
        have hn2 : ((xs ++ (a, v) :: ys).map Prod.fst).Nodup := by
          rw [← he]; exact hn
        have e3 : xs ++ (a, v) :: ys = (c.before ++ l.entries) ++ (a, w) :: (r.entries ++ c.after) := by
          rw [← e2, List.append_assoc]
        exact split_unique hn2 e3
      have hinc : increment h (fuel + 1) (some a) =
          some (((r.entries ++ c.after).map Prod.fst).head?) :=
        increment_eq hr hn (by simp at hf ⊢; omega)
      simp only [List.map_cons, List.head?_cons, walk, hcell, hinc]
      rw [← hsplit.2.2, ih (xs ++ [(a, v)]) (by simp [he]) (by simp at hf; omega)]
      simp [hdata]

theorem WF.empty_iff {h : Heap α} {b : BST} {t : Tree α} (w : WF h b t) :
    b.empty = true ↔ t = .nil := by
  simp only [BST.empty, beq_iff_eq, w.count]
  cases t <;> simp

/-- Stepping an iterator from `begin()` to `end()` visits exactly the nodes of the graph in
in-order. -/
theorem traverse_eq {h : Heap α} {b : BST} {t : Tree α} (w : WF h b t) {fuel : Nat}
    (hf : 2 * t.size ≤ fuel) : b.traverse h fuel = some t.entries := by
  unfold BST.traverse BST.begin
  by_cases he : b.empty = true
  · have := w.empty_iff.mp he
    subst this
    cases fuel <;> simp [he, BST.end_, walk]
  · have hne : t ≠ .nil := fun e => he (w.empty_iff.mpr e)
    cases t with
    | nil => exact absurd rfl hne
    | node l a v r =>
      simp only [he, w.root, Tree.ptr_node]
      rw [leftmost_eq w.rep rfl (by omega)]
      have hw : walk h fuel (((Tree.node l a v r).entries.map Prod.fst).head?) =
          some (Tree.node l a v r).entries :=
        walk_eq w.rep w.nodup [] (Tree.node l a v r).entries rfl
          (by rw [Tree.length_entries]; omega)
      rw [← Tree.addrs] at hw
      cases hx : (Tree.node l a v r).addrs with
      | nil => simp at hx
      | cons x xs =>
        rw [hx] at hw
        simpa using hw

theorem toList_eq {h : Heap α} {b : BST} {t : Tree α} (w : WF h b t) {fuel : Nat}
    (hf : 2 * t.size ≤ fuel) : b.toList h fuel = some t.inorder := by
  simp [BST.toList, traverse_eq w hf, Tree.inorder]

end custom

namespace custom

variable {α : Type}

/-! ## insert and find -/

theorem insertLoop_eq [LinearOrder α] {h : Heap α} {t : Tree α} {p : Ptr} (x : α)
    (ku : Bool) (hr : Rep h t p) {fuel : Nat} (hf : t.size ≤ fuel) (par : Ptr) (wl : Bool) :
    insertLoop h x ku fuel t.ptr par wl = some (t.descend ku x par wl) := by
  induction t generalizing p fuel par wl with
  | nil => cases fuel <;> simp [insertLoop, Tree.descend]
  | node l a v r ihl ihr =>
    obtain ⟨h0, hl, hrr⟩ := hr
    cases fuel with
    | zero => simp at hf
    | succ fuel =>
      simp only [Tree.ptr_node, insertLoop, h0, Tree.descend]
      split
      · rfl
      · split
        · exact ihl hl (by simp at hf; omega) _ _
        · exact ihr hrr (by simp at hf; omega) _ _

theorem findLoop_eq [LinearOrder α] {h : Heap α} {t : Tree α} {p : Ptr} (x : α)
    (hr : Rep h t p) {fuel : Nat} (hf : t.size ≤ fuel) :
    findLoop h x fuel t.ptr = some (t.lookup x) := by
  induction t generalizing p fuel with
  | nil => cases fuel <;> simp [findLoop, Tree.lookup, BST.end_]
  | node l a v r ihl ihr =>
    obtain ⟨h0, hl, hrr⟩ := hr
    cases fuel with
    | zero => simp at hf
    | succ fuel =>
      simp only [Tree.ptr_node, findLoop, h0, Tree.lookup]
      split
      · rfl
      · split
        · exact ihl hl (by simp at hf; omega)
        · exact ihr hrr (by simp at hf; omega)

theorem Tree.ins_ptr [LinearOrder α] (ku : Bool) (x : α) (n : Nat) {t : Tree α} {a : Nat}
    (ht : t.ptr = some a) : (t.ins ku x n).ptr = some a := by
  cases t with
  | nil => simp at ht
  | node l b v r =>
    simp only [Tree.ins]
    split
    · exact ht
    · split <;> exact ht

/-- Linking the new node in at the end of the search path gives the graph `Tree.ins`. -/
theorem attach_rep [LinearOrder α] {h : Heap α} {t : Tree α} {p : Ptr} {x : α} {ku : Bool}
    (hr : Rep h t p) (hn : t.addrs.Nodup) (hfr : ∀ a ∈ t.addrs, a < h.next)
    {a0 : Nat} (ht : t.ptr = some a0) {par q : Ptr} {wl wl1 : Bool}
    (hd : t.descend ku x par wl = .slot q wl1) :
    ∃ qa h2, q = some qa ∧ qa ∈ t.addrs ∧
      (if wl1 then addLeft (h.alloc x).2 qa (some h.next)
        else addRight (h.alloc x).2 qa (some h.next)) = some h2 ∧
      Rep h2 (t.ins ku x h.next) p ∧
      (∀ y, y ≠ qa → y ≠ h.next → h2.cells y = h.cells y) ∧ h2.next = h.next + 1 := by
  induction t generalizing p a0 par wl with
  | nil => simp at ht
  | node l a v r ihl ihr =>
    obtain ⟨h0, hl, hrr⟩ := hr
    simp only [Tree.addrs_node] at hn hfr
    have hn' := List.nodup_append.mp hn
    have hal : a ∉ l.addrs := fun hx => hn'.2.2 hx (by simp)
    have har : a ∉ r.addrs := (List.nodup_cons.mp hn'.2.1).1
    have hanext : a ≠ h.next := fun e => by
      have := hfr a (by simp); omega
    simp only [Tree.descend] at hd
    simp only [Tree.ins]
    split at hd
    · simp at hd
    rename_i hne
    rw [if_neg hne]
    split at hd
    · rename_i hlt
      rw [if_pos hlt]
      cases l with
      | nil =>
        simp only [Tree.descend, Descent.slot.injEq] at hd
        obtain ⟨rfl, rfl⟩ := hd
        simp only [Tree.ins]
        refine ⟨a, (((h.alloc x).2.write a ⟨v, some h.next, r.ptr, p⟩).write h.next
          ⟨x, none, none, some a⟩), rfl, by simp, ?_, ?_, ?_, ?_⟩
        · simp only [if_true, addLeft, setLeft, Heap.alloc_cells, if_neg hanext, h0,
            setParent, Heap.write_cells, if_neg hanext.symm, if_true, Tree.ptr_nil]
        · refine ⟨by simp [hanext], ⟨by simp, trivial, trivial⟩, hrr.congr ?_⟩
          intro y hy
          have h1 : y ≠ a := fun e => har (e ▸ hy)
          have h2 : y ≠ h.next := fun e => by
            have := hfr y (by simp [hy]); omega
          simp [h1, h2]
        · intro y h1 h2; simp [h1, h2]
        · simp
      | node ll la lv lr =>
        obtain ⟨qa, h2, e1, e2, e3, e4, e5, e6⟩ := ihl hl hn'.1
          (fun y hy => hfr y (by simp at hy ⊢; tauto)) rfl hd
        refine ⟨qa, h2, e1, by simp at e2 ⊢; tauto, e3, ?_, e5, e6⟩
        have hqa : a ≠ qa := fun e => hal (e ▸ e2)
        refine ⟨?_, e4, hrr.congr ?_⟩
        · rw [e5 a hqa hanext, h0,
            Tree.ins_ptr ku x h.next (Tree.ptr_node ll la lv lr)]; rfl
        · intro y hy
          have h1 : y ≠ qa := fun e => hn'.2.2 e2 (by rw [← e]; simp [hy])
          have h2 : y ≠ h.next := fun e => by
            have := hfr y (by simp [hy]); omega
          exact e5 y h1 h2
    · rename_i hlt
      rw [if_neg hlt]
      cases r with
      | nil =>
        simp only [Tree.descend, Descent.slot.injEq] at hd
        obtain ⟨rfl, rfl⟩ := hd
        simp only [Tree.ins]
        refine ⟨a, (((h.alloc x).2.write a ⟨v, l.ptr, some h.next, p⟩).write h.next
          ⟨x, none, none, some a⟩), rfl, by simp, ?_, ?_, ?_, ?_⟩
        · simp only [addRight, setRight, Heap.alloc_cells, if_neg hanext, h0,
            setParent, Heap.write_cells, if_neg hanext.symm, if_true, Tree.ptr_nil]
          simp
        · refine ⟨by simp [hanext], hl.congr ?_, ⟨by simp, trivial, trivial⟩⟩
          intro y hy
          have h1 : y ≠ a := fun e => hal (e ▸ hy)
          have h2 : y ≠ h.next := fun e => by
            have := hfr y (by simp [hy]); omega
          simp [h1, h2]
        · intro y h1 h2; simp [h1, h2]
        · simp
      | node rl ra rv rr =>
        obtain ⟨qa, h2, e1, e2, e3, e4, e5, e6⟩ := ihr hrr (List.nodup_cons.mp hn'.2.1).2
          (fun y hy => hfr y (by simp at hy ⊢; tauto)) rfl hd
        refine ⟨qa, h2, e1, by simp at e2 ⊢; tauto, e3, ?_, e5, e6⟩
        have hqa : a ≠ qa := fun e => har (e ▸ e2)
        refine ⟨?_, hl.congr ?_, e4⟩
        · rw [e5 a hqa hanext, h0,
            Tree.ins_ptr ku x h.next (Tree.ptr_node rl ra rv rr)]; rfl
        · intro y hy
          have h1 : y ≠ qa := fun e => hn'.2.2 hy (by rw [e]; exact List.mem_cons_of_mem _ e2)
          have h2 : y ≠ h.next := fun e => by
            have := hfr y (by simp [hy]); omega
          exact e5 y h1 h2

end custom

namespace custom

variable {α : Type}

/-- Where the new node lands in the in-order sequence: after every element `≤ x`, before
every element `> x`. -/
theorem Tree.ins_entries [LinearOrder α] {t : Tree α} {ku : Bool} {x : α} (n : Nat)
    {par q : Ptr} {wl wl1 : Bool} (hd : t.descend ku x par wl = .slot q wl1) :
    ∃ xs ys, t.entries = xs ++ ys ∧ (t.ins ku x n).entries = xs ++ (n, x) :: ys ∧
      (Ordered t → (∀ e ∈ xs, e.2 ≤ x) ∧ (∀ e ∈ ys, x < e.2)) := by
  induction t generalizing par wl with
  | nil => exact ⟨[], [], rfl, rfl, fun _ => by simp⟩
  | node l a v r ihl ihr =>
    simp only [Tree.descend] at hd
    simp only [Tree.ins]
    split at hd
    · simp at hd
    rename_i hne
    rw [if_neg hne]
    split at hd
    · rename_i hlt
      rw [if_pos hlt]
      obtain ⟨xs, ys, e1, e2, e3⟩ := ihl hd
      refine ⟨xs, ys ++ (a, v) :: r.entries, by simp [e1], by simp [e2], ?_⟩
      rintro ⟨ol, _, _, o4⟩
      refine ⟨(e3 ol).1, ?_⟩
      intro e he
      simp only [List.mem_append, List.mem_cons] at he
      rcases he with he | rfl | he
      · exact (e3 ol).2 e he
      · exact hlt
      · exact lt_of_lt_of_le hlt (o4 e.2 (List.mem_map.mpr ⟨e, he, rfl⟩))
    · rename_i hlt
      rw [if_neg hlt]
      obtain ⟨xs, ys, e1, e2, e3⟩ := ihr hd
      refine ⟨l.entries ++ (a, v) :: xs, ys, by simp [e1], by simp [e2], ?_⟩
      rintro ⟨_, orr, o3, _⟩
      refine ⟨?_, (e3 orr).2⟩
      intro e he
      simp only [List.mem_append, List.mem_cons] at he
      rcases he with he | rfl | he
      · exact le_trans (le_of_lt (o3 e.2 (List.mem_map.mpr ⟨e, he, rfl⟩))) (not_lt.mp hlt)
      · exact not_lt.mp hlt
      · exact (e3 orr).1 e he

theorem Tree.ins_size [LinearOrder α] {t : Tree α} {ku : Bool} {x : α} (n : Nat)
    {par q : Ptr} {wl wl1 : Bool} (hd : t.descend ku x par wl = .slot q wl1) :
    (t.ins ku x n).size = t.size + 1 := by
  obtain ⟨xs, ys, e1, e2, _⟩ := Tree.ins_entries n hd
  rw [← Tree.length_entries, ← Tree.length_entries, e1, e2]
  simp; omega

theorem Tree.ins_nodup [LinearOrder α] {t : Tree α} {ku : Bool} {x : α} {n : Nat}
    {par q : Ptr} {wl wl1 : Bool} (hd : t.descend ku x par wl = .slot q wl1)
    (hn : t.addrs.Nodup) (hnew : n ∉ t.addrs) : (t.ins ku x n).addrs.Nodup := by
  obtain ⟨xs, ys, e1, e2, _⟩ := Tree.ins_entries n hd
  simp only [Tree.addrs, e1, e2, List.map_append, List.map_cons, List.mem_append] at hn hnew ⊢
  have hp : (xs.map Prod.fst ++ n :: ys.map Prod.fst).Perm
      (n :: (xs.map Prod.fst ++ ys.map Prod.fst)) := List.perm_middle
  rw [hp.nodup_iff, List.nodup_cons]
  exact ⟨by simpa using hnew, hn⟩

/-- Function `insert` at an equal node with `keepUnique`: the early return. -/
theorem insert_found [LinearOrder α] {h : Heap α} {b : BST} {t : Tree α} (w : WF h b t)
    {fuel : Nat} (hf : t.size ≤ fuel) {x : α} {ku : Bool} {c : Nat}
    (hd : t.descend ku x none false = .found c) :
    b.insert h fuel x ku = some (h, b, some c, false) := by
  cases t with
  | nil => simp [Tree.descend] at hd
  | node l a v r =>
    have hl := insertLoop_eq x ku w.rep hf none false
    simp only [Tree.ptr_node] at hl
    simp only [BST.insert, w.root, Tree.ptr_node, hl, hd]

/-- Function `insert` when the descent reaches an absent child: the new node is linked in. -/
theorem insert_slot [LinearOrder α] {h : Heap α} {b : BST} {t : Tree α} (w : WF h b t)
    {fuel : Nat} (hf : t.size ≤ fuel) {x : α} {ku : Bool} {q : Ptr} {wl : Bool}
    (hd : t.descend ku x none false = .slot q wl) :
    ∃ h1, b.insert h fuel x ku =
        some (h1, ⟨(t.ins ku x h.next).ptr, b.numElements + 1⟩, some h.next, true) ∧
      WF h1 ⟨(t.ins ku x h.next).ptr, b.numElements + 1⟩ (t.ins ku x h.next) ∧
      (∀ y, y ∉ t.addrs → y ≠ h.next → h1.cells y = h.cells y) ∧ h1.next = h.next + 1 := by
  have hnew : h.next ∉ t.addrs := fun hx => by
    have := w.rep.lt_next w.fresh hx; omega
  cases t with
  | nil =>
    refine ⟨(h.alloc x).2, ?_, ?_, ?_, rfl⟩
    · simp [BST.insert, w.root, Tree.ins, Heap.alloc]
    · refine ⟨?_, rfl, ?_, by simp [Tree.ins], by simp [Tree.ins, w.count]⟩
      · intro a ha
        have h1 : a ≠ h.next := by simp at ha; omega
        simp only [Heap.alloc_cells, if_neg h1]
        exact w.fresh a (by simp at ha; omega)
      · simp [Tree.ins, Rep_node]
    · intro y _ hy; simp [hy]
  | node l a v r =>
    have hl := insertLoop_eq x ku w.rep hf none false
    simp only [Tree.ptr_node] at hl
    obtain ⟨qa, h2, e1, e2, e3, e4, e5, e6⟩ := attach_rep w.rep w.nodup
      (fun y hy => w.rep.lt_next w.fresh hy) rfl hd
    subst e1
    refine ⟨h2, ?_, ?_, ?_, e6⟩
    · simp only [BST.insert, w.root, Tree.ptr_node, hl, hd]
      have : (h.alloc x) = (h.next, (h.alloc x).2) := rfl
      rw [this]
      simp only [e3, Tree.ins_ptr ku x h.next (Tree.ptr_node l a v r)]
    · refine ⟨?_, rfl, e4, Tree.ins_nodup hd w.nodup hnew, ?_⟩
      · intro y hy
        rw [e6] at hy
        have h1 : y ≠ qa := fun e => by
          have := w.rep.lt_next w.fresh e2; omega
        rw [e5 y h1 (by omega)]
        exact w.fresh y (by omega)
      · simp [Tree.ins_size _ hd, w.count]
    · intro y hy1 hy2
      exact e5 y (fun e => hy1 (e ▸ e2)) hy2

end custom

namespace custom

variable {α : Type}

/-! ## Frames for single writes -/

theorem Rep.write {h : Heap α} {t : Tree α} {p : Ptr} (hr : Rep h t p) {a : Nat}
    (ha : a ∉ t.addrs) (n : BNode α) : Rep (h.write a n) t p :=
  hr.congr (fun x hx => by
    have : x ≠ a := fun e => ha (e ▸ hx)
    simp [this])

theorem Rep.free {h : Heap α} {t : Tree α} {p : Ptr} (hr : Rep h t p) {a : Nat}
    (ha : a ∉ t.addrs) : Rep (h.free a) t p :=
  hr.congr (fun x hx => by
    have : x ≠ a := fun e => ha (e ▸ hx)
    simp [this])

theorem RepC.write_ctx {h : Heap α} {c : Ctx α} {hole top tp : Ptr} (hr : RepC h c hole top tp)
    {a : Nat} (ha : a ∉ c.addrs) (n : BNode α) : RepC (h.write a n) c hole top tp :=
  hr.congr_ctx (fun x hx => by
    have : x ≠ a := fun e => ha (e ▸ hx)
    simp [this])

theorem RepC.free_ctx {h : Heap α} {c : Ctx α} {hole top tp : Ptr} (hr : RepC h c hole top tp)
    {a : Nat} (ha : a ∉ c.addrs) : RepC (h.free a) c hole top tp :=
  hr.congr_ctx (fun x hx => by
    have : x ≠ a := fun e => ha (e ▸ hx)
    simp [this])

theorem Ctx.nodup_left {a : Nat} {v : α} {r : Tree α} {c : Ctx α} :
    (Ctx.addrs (Frame.left a v r :: c)).Nodup ↔
      a ∉ r.addrs ∧ a ∉ Ctx.addrs c ∧ r.addrs.Nodup ∧ (Ctx.addrs c).Nodup ∧
        ∀ x ∈ r.addrs, x ∉ Ctx.addrs c := by
  have hp : (Ctx.addrs (Frame.left a v r :: c)).Perm (a :: (r.addrs ++ Ctx.addrs c)) := by
    simp only [Ctx.addrs, Ctx.before, Ctx.after, Tree.addrs, List.map_cons, List.map_append,
      List.append_eq]
    exact List.perm_middle.trans (List.Perm.cons _ (List.perm_append_comm_assoc _ _ _))
  rw [hp.nodup_iff, List.nodup_cons, List.nodup_append, List.mem_append]
  constructor
  · rintro ⟨h1, h2, h3, h4⟩
    exact ⟨fun x => h1 (Or.inl x), fun x => h1 (Or.inr x), h2, h3, fun x hx hy => h4 hx hy⟩
  · rintro ⟨h1, h2, h3, h4, h5⟩
    exact ⟨fun x => x.elim h1 h2, h3, h4, fun x hx hy => h5 x hx hy⟩

theorem Ctx.nodup_right {a : Nat} {v : α} {l : Tree α} {c : Ctx α} :
    (Ctx.addrs (Frame.right l a v :: c)).Nodup ↔
      a ∉ l.addrs ∧ a ∉ Ctx.addrs c ∧ l.addrs.Nodup ∧ (Ctx.addrs c).Nodup ∧
        ∀ x ∈ l.addrs, x ∉ Ctx.addrs c := by
  have hp : (Ctx.addrs (Frame.right l a v :: c)).Perm (a :: (l.addrs ++ Ctx.addrs c)) := by
    simp only [Ctx.addrs, Ctx.before, Ctx.after, Tree.addrs, List.map_cons, List.map_append,
      List.map_nil, List.append_assoc]
    have h1 : (List.map Prod.fst c.before ++
        (List.map Prod.fst l.entries ++ ([a] ++ List.map Prod.fst c.after))).Perm
        ((List.map Prod.fst l.entries ++ [a]) ++
          (List.map Prod.fst c.before ++ List.map Prod.fst c.after)) := by
      rw [← List.append_assoc, ← List.append_assoc, ← List.append_assoc]
      refine List.Perm.append_right _ ?_
      rw [List.append_assoc]
      exact List.perm_append_comm
    refine h1.trans ?_
    rw [List.append_assoc]
    exact List.perm_middle
  rw [hp.nodup_iff, List.nodup_cons, List.nodup_append, List.mem_append]
  constructor
  · rintro ⟨h1, h2, h3, h4⟩
    exact ⟨fun x => h1 (Or.inl x), fun x => h1 (Or.inr x), h2, h3, fun x hx hy => h4 hx hy⟩
  · rintro ⟨h1, h2, h3, h4, h5⟩
    exact ⟨fun x => x.elim h1 h2, h3, h4, fun x hx hy => h5 x hx hy⟩

theorem Ctx.parent_mem {c : Ctx α} {tp : Ptr} {p : Nat} (hc : c ≠ [])
    (hp : c.parent tp = some p) : p ∈ c.addrs := by
  cases c with
  | nil => exact absurd rfl hc
  | cons f c =>
    cases f with
    | left a v r =>
      simp only [Ctx.parent, Option.some.injEq] at hp
      exact Ctx.mem_addrs_left.mpr (Or.inl hp.symm)
    | right l a v =>
      simp only [Ctx.parent, Option.some.injEq] at hp
      exact Ctx.mem_addrs_right.mpr (Or.inl hp.symm)

theorem plug_ptr (c : Ctx α) (s : Tree α) (s0 : Tree α) :
    (plug c s).ptr = c.root s.ptr (plug c s0).ptr := by
  induction c generalizing s s0 with
  | nil => rfl
  | cons f c ih =>
    cases f with
    | left a v r =>
      simp only [plug_left, Ctx.root]
      cases c with
      | nil => rfl
      | cons g c => rw [ih (.node s a v r) (.node s0 a v r)]; simp [Ctx.root]
    | right l a v =>
      simp only [plug_right, Ctx.root]
      cases c with
      | nil => rfl
      | cons g c => rw [ih (.node l a v s) (.node l a v s0)]; simp [Ctx.root]

/-- The lambda `transplant(u, v)`: the node `u` in the hole of a context is replaced by
the graph `s`, whose root takes over the parent pointer of `u`. -/
theorem transplant_spec {h : Heap α} (b : BST) {c : Ctx α} {u : Nat} {top tp : Ptr}
    {nu : BNode α} {s : Tree α} {ps : Ptr}
    (hc : RepC h c (some u) top tp) (hu : h.cells u = some nu)
    (hpar : nu.pParent = c.parent tp) (htop : c = [] → tp = none)
    (hs : Rep h s ps) (hsn : s.addrs.Nodup) (hcn : c.addrs.Nodup)
    (hdisj : ∀ x ∈ s.addrs, x ∉ c.addrs) (huc : u ∉ c.addrs) (hus : u ∉ s.addrs) :
    ∃ h1, transplant h b u s.ptr = some (h1, ⟨c.root s.ptr b.root, b.numElements⟩) ∧
      RepC h1 c s.ptr (c.root s.ptr top) tp ∧ Rep h1 s (c.parent tp) ∧
      (∀ y, some y ≠ c.parent tp → some y ≠ s.ptr → h1.cells y = h.cells y) ∧
      h1.next = h.next := by
  cases c with
  | nil =>
    have htp := htop rfl
    subst htp
    simp only [Ctx.parent] at hpar
    cases s with
    | nil =>
      exact ⟨h, by simp [transplant, hu, hpar, Ctx.root], rfl, trivial, fun _ _ _ => rfl, rfl⟩
    | node sl sa sv sr =>
      have h0 := hs.1
      refine ⟨h.write sa ⟨sv, sl.ptr, sr.ptr, none⟩, ?_, rfl, hs.setParent hsn none, ?_, rfl⟩
      · simp [transplant, hu, hpar, Ctx.root, setParent, h0]
      · intro y _ hy
        have : y ≠ sa := fun e => hy (by simp [e])
        simp [this]
  | cons f c =>
    cases f with
    | left p v r =>
      obtain ⟨hp0, hr, hcc⟩ := hc
      obtain ⟨n1, n2, n3, n4, n5⟩ := Ctx.nodup_left.mp hcn
      have hup : u ≠ p := fun e => huc (Ctx.mem_addrs_left.mpr (Or.inl e))
      simp only [Ctx.parent] at hpar
      cases s with
      | nil =>
        refine ⟨h.write p ⟨v, none, r.ptr, Ctx.parent c tp⟩, ?_, ⟨by simp, hr.write n1 _,
          hcc.write_ctx n2 _⟩, trivial, ?_, rfl⟩
        · simp [transplant, hu, hpar, hp0, setLeft, Ctx.root]
        · intro y hy _
          have : y ≠ p := fun e => hy (by simp [Ctx.parent, e])
          simp [this]
      | node sl sa sv sr =>
        have h0 := hs.1
        have hsa : sa ∉ Ctx.addrs (Frame.left p v r :: c) := hdisj sa (by simp)
        have hsap : sa ≠ p := fun e => hsa (Ctx.mem_addrs_left.mpr (Or.inl e))
        have hps : p ∉ (Tree.node sl sa sv sr).addrs := fun hx =>
          hdisj p hx (Ctx.mem_addrs_left.mpr (Or.inl rfl))
        refine ⟨(h.write p ⟨v, some sa, r.ptr, Ctx.parent c tp⟩).write sa
          ⟨sv, sl.ptr, sr.ptr, some p⟩, ?_, ⟨by simp [hsap.symm], ?_, ?_⟩, ?_, ?_, rfl⟩
        · simp [transplant, hu, hpar, hp0, setLeft, Ctx.root, setParent, hup, hsap, h0]
        · exact (hr.write n1 _).write
            (fun hx => hsa (Ctx.mem_addrs_left.mpr (Or.inr (Or.inl hx)))) _
        · exact (hcc.write_ctx n2 _).write_ctx
            (fun hx => hsa (Ctx.mem_addrs_left.mpr (Or.inr (Or.inr hx)))) _
        · exact (hs.write hps _).setParent hsn _ |> fun hh => by
            simpa [Ctx.parent] using hh
        · intro y hy1 hy2
          have e1 : y ≠ p := fun e => hy1 (by simp [Ctx.parent, e])
          have e2 : y ≠ sa := fun e => hy2 (by simp [e])
          simp [e1, e2]
    | right l p v =>
      obtain ⟨hp0, hl, hcc⟩ := hc
      obtain ⟨n1, n2, n3, n4, n5⟩ := Ctx.nodup_right.mp hcn
      have hup : u ≠ p := fun e => huc (Ctx.mem_addrs_right.mpr (Or.inl e))
      have hul : l.ptr ≠ some u := fun e =>
        huc (Ctx.mem_addrs_right.mpr (Or.inr (Or.inl (Tree.ptr_mem_addrs e))))
      simp only [Ctx.parent] at hpar
      cases s with
      | nil =>
        refine ⟨h.write p ⟨v, l.ptr, none, Ctx.parent c tp⟩, ?_, ⟨by simp, hl.write n1 _,
          hcc.write_ctx n2 _⟩, trivial, ?_, rfl⟩
        · simp [transplant, hu, hpar, hp0, setRight, Ctx.root, hul]
        · intro y hy _
          have : y ≠ p := fun e => hy (by simp [Ctx.parent, e])
          simp [this]
      | node sl sa sv sr =>
        have h0 := hs.1
        have hsa : sa ∉ Ctx.addrs (Frame.right l p v :: c) := hdisj sa (by simp)
        have hsap : sa ≠ p := fun e => hsa (Ctx.mem_addrs_right.mpr (Or.inl e))
        have hps : p ∉ (Tree.node sl sa sv sr).addrs := fun hx =>
          hdisj p hx (Ctx.mem_addrs_right.mpr (Or.inl rfl))
        refine ⟨(h.write p ⟨v, l.ptr, some sa, Ctx.parent c tp⟩).write sa
          ⟨sv, sl.ptr, sr.ptr, some p⟩, ?_, ⟨by simp [hsap.symm], ?_, ?_⟩, ?_, ?_, rfl⟩
        · simp [transplant, hu, hpar, hp0, setRight, Ctx.root, setParent, hup, hsap, h0, hul]
        · exact (hl.write n1 _).write
            (fun hx => hsa (Ctx.mem_addrs_right.mpr (Or.inr (Or.inl hx)))) _
        · exact (hcc.write_ctx n2 _).write_ctx
            (fun hx => hsa (Ctx.mem_addrs_right.mpr (Or.inr (Or.inr hx)))) _
        · exact (hs.write hps _).setParent hsn _ |> fun hh => by
            simpa [Ctx.parent] using hh
        · intro y hy1 hy2
          have e1 : y ≠ p := fun e => hy1 (by simp [Ctx.parent, e])
          have e2 : y ≠ sa := fun e => hy2 (by simp [e])
          simp [e1, e2]

end custom

namespace custom

variable {α : Type}

/-! ## erase -/

theorem plug_append (c1 c2 : Ctx α) (s : Tree α) :
    plug (c1 ++ c2) s = plug c2 (plug c1 s) := by
  induction c1 generalizing s with
  | nil => rfl
  | cons f c ih => cases f <;> simp [ih]

theorem Ctx.allLeft_append {c1 c2 : Ctx α} (h1 : c1.AllLeft) (h2 : c2.AllLeft) :
    Ctx.AllLeft (c1 ++ c2) := by
  induction c1 with
  | nil => exact h2
  | cons f c ih =>
    cases f with
    | left a v r => exact ih h1
    | right l a v => exact h1.elim

theorem Ctx.before_of_allLeft {c : Ctx α} (hc : c.AllLeft) : c.before = [] := by
  induction c with
  | nil => rfl
  | cons f c ih =>
    cases f with
    | left a v r => exact ih hc
    | right l a v => exact hc.elim

/-- The first node of a non-empty graph sits at the end of a path of left steps and has no
left child. -/
theorem exists_plug_leftmost (l : Tree α) (a : Nat) (v : α) (r : Tree α) :
    ∃ c s sv sr, Tree.node l a v r = plug c (.node .nil s sv sr) ∧ Ctx.AllLeft c := by
  induction l generalizing a v r with
  | nil => exact ⟨[], a, v, r, rfl, trivial⟩
  | node ll la lv lr ih _ =>
    obtain ⟨c, s, sv, sr, e, hc⟩ := ih la lv lr
    refine ⟨c ++ [Frame.left a v r], s, sv, sr, ?_, Ctx.allLeft_append hc trivial⟩
    rw [plug_append, ← e]; rfl

theorem plug_node_ne_nil (c : Ctx α) (l : Tree α) (a : Nat) (v : α) (r : Tree α) :
    plug c (.node l a v r) ≠ .nil := by
  induction c generalizing l a v r with
  | nil => simp
  | cons f c ih => cases f <;> simp only [plug_left, plug_right] <;> exact ih _ _ _ _

theorem plug_cons_ne_nil (f : Frame α) (c : Ctx α) (s : Tree α) : plug (f :: c) s ≠ .nil := by
  cases f <;> simp only [plug_left, plug_right] <;> exact plug_node_ne_nil _ _ _ _ _

/-- The first block of the two-children case when the successor is not the right child:
the successor is cut out of the right subtree, which becomes its right subtree. -/
theorem detachSuccessor_inner {h : Heap α} (b : BST) {z s : Nat} {f : Frame α} {cr : Ctx α}
    {sv : α} {sr : Tree α} {nz : BNode α}
    (hr : Rep h (plug (f :: cr) (.node .nil s sv sr)) (some z))
    (hn : (plug (f :: cr) (.node .nil s sv sr)).addrs.Nodup)
    (hz : z ∉ (plug (f :: cr) (.node .nil s sv sr)).addrs)
    (hcz : h.cells z = some nz)
    (hzr : nz.pRight = (plug (f :: cr) (.node .nil s sv sr)).ptr) :
    ∃ h3 ps, detachSuccessor h b z s = some (h3, b) ∧
      Rep h3 (.node .nil s sv (plug (f :: cr) sr)) ps ∧
      (∀ y, y ∉ (plug (f :: cr) (.node .nil s sv sr)).addrs → h3.cells y = h.cells y) ∧
      h3.next = h.next := by
  obtain ⟨hs, hc⟩ :=
    (@rep_plug _ _ _ _ (plug (f :: cr) (.node .nil s sv sr)).ptr _).mp ⟨hr, rfl⟩
  obtain ⟨n1, n2, n3⟩ := nodup_plug.mp hn
  obtain ⟨hs0, -, hsr⟩ := hs
  simp only [Tree.addrs_node, Tree.addrs_nil, List.nil_append, List.nodup_cons] at n1
  have hsc : s ∉ Ctx.addrs (f :: cr) := n3 s (by simp)
  obtain ⟨p, hp⟩ : ∃ p, Ctx.parent (f :: cr) (some z) = some p := by
    cases f <;> exact ⟨_, rfl⟩
  have hpm : p ∈ Ctx.addrs (f :: cr) := Ctx.parent_mem (by simp) hp
  have hpz : p ≠ z := fun e => hz (mem_addrs_plug.mpr (Or.inr (e ▸ hpm)))
  have hps : p ≠ s := fun e => hsc (e ▸ hpm)
  obtain ⟨h1, t1, t2, t3, t4, t5⟩ := transplant_spec b (s := sr) hc hs0 rfl (by simp) hsr n1.2 n2
    (fun x hx => n3 x (by simp [hx])) hsc n1.1
  have hroot : Ctx.root (f :: cr) sr.ptr b.root = b.root := rfl
  have htop : Ctx.root (f :: cr) sr.ptr (plug (f :: cr) (.node .nil s sv sr)).ptr =
      (plug (f :: cr) (.node .nil s sv sr)).ptr := rfl
  rw [hroot] at t1
  rw [htop] at t2
  obtain ⟨hr1, hptr1⟩ := (rep_plug (s := sr)).mpr ⟨t3, t2⟩
  have hsr_s : sr.ptr ≠ some s := fun e => n1.1 (Tree.ptr_mem_addrs e)
  have hsr_z : sr.ptr ≠ some z := fun e =>
    hz (mem_addrs_plug.mpr (Or.inl (by simp [Tree.ptr_mem_addrs e])))
  have hz1 : h1.cells z = some nz := by
    rw [t4 z (by rw [hp]; simp [Ne.symm hpz]) (Ne.symm hsr_z), hcz]
  have hs1 : h1.cells s = some ⟨sv, none, sr.ptr, some p⟩ := by
    rw [t4 s (by rw [hp]; simp [Ne.symm hps]) (Ne.symm hsr_s), hs0, hp]; rfl
  have hs_r1 : s ∉ (plug (f :: cr) sr).addrs := fun hx => by
    rcases mem_addrs_plug.mp hx with hx | hx
    · exact n1.1 hx
    · exact hsc hx
  have hn1 : (plug (f :: cr) sr).addrs.Nodup :=
    nodup_plug.mpr ⟨n1.2, n2, fun x hx => n3 x (by simp [hx])⟩
  have hsub : ∀ y, y ∈ (plug (f :: cr) sr).addrs →
      y ∈ (plug (f :: cr) (.node .nil s sv sr)).addrs := fun y hy => by
    rcases mem_addrs_plug.mp hy with hy | hy
    · exact mem_addrs_plug.mpr (Or.inl (by simp [hy]))
    · exact mem_addrs_plug.mpr (Or.inr hy)
  cases hshape : plug (f :: cr) sr with
  | nil => exact absurd hshape (plug_cons_ne_nil f cr sr)
  | node rl ra rv rr =>
    rw [hshape] at hr1 hptr1 hs_r1 hn1
    have hras : ra ≠ s := fun e => hs_r1 (by simp [e])
    have hra0 : h1.cells ra = some ⟨rv, rl.ptr, rr.ptr, some z⟩ := hr1.1
    refine ⟨(h1.write s ⟨sv, none, some ra, some p⟩).write ra ⟨rv, rl.ptr, rr.ptr, some s⟩,
      some p, ?_, ⟨by simp [Ne.symm hras], trivial, ?_⟩, ?_, by simp [t5]⟩
    · simp only [detachSuccessor, hs0, hp]
      rw [if_pos (by simp [hpz])]
      simp only [t1, hz1, hzr, ← hptr1, Tree.ptr_node, setRight, hs1, Heap.write_cells,
        if_true, adopt, setParent, if_neg hras, hra0, Option.map_some']
    · exact (hr1.write hs_r1 _).setParent hn1 (some s)
    · intro y hy
      have e1 : y ≠ ra := fun e => hy (hsub y (by rw [hshape, e]; simp))
      have e2 : y ≠ s := fun e => hy (mem_addrs_plug.mpr (Or.inl (by simp [e])))
      have e3 : y ≠ p := fun e => hy (mem_addrs_plug.mpr (Or.inr (e ▸ hpm)))
      have e4 : some y ≠ sr.ptr := fun e =>
        hy (mem_addrs_plug.mpr (Or.inl (by simp [Tree.ptr_mem_addrs e.symm])))
      simp only [Heap.write_cells, if_neg e1, if_neg e2]
      exact t4 y (by rw [hp]; simp [e3]) e4

end custom

namespace custom

variable {α : Type}

theorem Ctx.parent_none_mem {c : Ctx α} {p : Nat} (hp : c.parent none = some p) :
    p ∈ c.addrs := by
  cases c with
  | nil => simp [Ctx.parent] at hp
  | cons f c => exact Ctx.parent_mem (by simp) hp

theorem Ctx.ne_parent {c : Ctx α} {y : Nat} (hy : y ∉ c.addrs) : some y ≠ c.parent none :=
  fun e => hy (Ctx.parent_none_mem e.symm)

/-- The second block of the two-children case: the successor `s` takes the place of `z`
and adopts the left subtree of `z`. -/
theorem replaceBySuccessor_spec {h3 : Heap α} (b : BST) {c : Ctx α} {z s : Nat} {top : Ptr}
    {nz : BNode α} {ll : Tree α} {la : Nat} {lv : α} {lr : Tree α} {sv : α} {r1 : Tree α}
    {ps : Ptr}
    (hc : RepC h3 c (some z) top none) (hcz : h3.cells z = some nz)
    (hzp : nz.pParent = c.parent none) (hzl : nz.pLeft = some la)
    (hl : Rep h3 (.node ll la lv lr) (some z)) (hs : Rep h3 (.node .nil s sv r1) ps)
    (hn : (plug c (.node (.node ll la lv lr) s sv r1)).addrs.Nodup)
    (hz : z ∉ (plug c (.node (.node ll la lv lr) s sv r1)).addrs) :
    ∃ h6, replaceBySuccessor h3 b z s =
        some (h6, ⟨c.root (some s) b.root, b.numElements⟩) ∧
      Rep h6 (.node (.node ll la lv lr) s sv r1) (c.parent none) ∧
      RepC h6 c (some s) (c.root (some s) top) none ∧
      (∀ y, y ∉ c.addrs → y ≠ s → y ≠ la → h6.cells y = h3.cells y) ∧
      h6.next = h3.next := by
  obtain ⟨n1, n2, n3⟩ := nodup_plug.mp hn
  have hzc : z ∉ c.addrs := fun hx => hz (mem_addrs_plug.mpr (Or.inr hx))
  have hzt : z ∉ (Tree.node (.node ll la lv lr) s sv r1).addrs := fun hx =>
    hz (mem_addrs_plug.mpr (Or.inl hx))
  rw [Tree.addrs_node] at n1 hzt n3
  have n1' := List.nodup_append.mp n1
  have hsL : s ∉ (Tree.node ll la lv lr).addrs := fun hx => n1'.2.2 hx (by simp)
  have hsr : s ∉ r1.addrs := (List.nodup_cons.mp n1'.2.1).1
  have hlas : la ≠ s := fun e => hsL (by simp [e])
  have hzs : z ≠ s := fun e => hzt (by simp [e])
  have hzla : z ≠ la := fun e => hzt (by simp [e])
  have hlar : la ∉ r1.addrs := fun hx => n1'.2.2 (by simp) (List.mem_cons_of_mem _ hx)
  have hsn : (Tree.node .nil s sv r1).addrs.Nodup := by simpa using n1'.2.1
  have hsc : s ∉ c.addrs := n3 s (by simp)
  have hlac : la ∉ c.addrs := n3 la (by simp)
  obtain ⟨h4, t1, t2, t3, t4, t5⟩ := transplant_spec b (s := .node .nil s sv r1) hc hcz hzp
    (fun _ => rfl) hs hsn n2
    (fun x hx => n3 x (by simp at hx ⊢; tauto)) hzc (by simp at hzt ⊢; tauto)
  simp only [Tree.ptr_node] at t1 t2 t4
  have hz4 : h4.cells z = some nz := by
    rw [t4 z (Ctx.ne_parent hzc) (by simp [hzs]), hcz]
  have hs4 : h4.cells s = some ⟨sv, none, r1.ptr, c.parent none⟩ := t3.1
  have hla4 : h4.cells la = some ⟨lv, ll.ptr, lr.ptr, some z⟩ := by
    rw [t4 la (Ctx.ne_parent hlac) (by simp [hlas])]; exact hl.1
  have hl4 : Rep h4 (.node ll la lv lr) (some z) := hl.congr (fun y hy =>
    t4 y (Ctx.ne_parent (n3 y (by simp at hy ⊢; tauto)))
      (by simp; exact fun e => hsL (e ▸ hy)))
  refine ⟨(h4.write s ⟨sv, some la, r1.ptr, c.parent none⟩).write la
    ⟨lv, ll.ptr, lr.ptr, some s⟩, ?_, ⟨by simp [Ne.symm hlas], ?_, ?_⟩, ?_, ?_, by simp [t5]⟩
  · simp only [replaceBySuccessor, t1, hz4, hzl, setLeft, hs4, Heap.write_cells, if_true,
      adopt, setParent, if_neg hlas, hla4, Option.map_some']
  · exact (hl4.write hsL _).setParent n1'.1 (some s)
  · exact (t3.2.2.write hsr _).write hlar _
  · exact (t2.write_ctx hsc _).write_ctx hlac _
  · intro y hy1 hy2 hy3
    simp only [Heap.write_cells, if_neg hy3, if_neg hy2]
    exact t4 y (Ctx.ne_parent hy1) (by simp [hy2])

end custom

namespace custom

variable {α : Type}

/-- The first block of the two-children case, whether or not the successor is the right
child of `z`. -/
theorem detachSuccessor_spec {h : Heap α} (b : BST) {z s : Nat} {cr : Ctx α}
    {sv : α} {sr : Tree α} {nz : BNode α}
    (hr : Rep h (plug cr (.node .nil s sv sr)) (some z))
    (hn : (plug cr (.node .nil s sv sr)).addrs.Nodup)
    (hz : z ∉ (plug cr (.node .nil s sv sr)).addrs)
    (hcz : h.cells z = some nz)
    (hzr : nz.pRight = (plug cr (.node .nil s sv sr)).ptr) :
    ∃ h3 ps, detachSuccessor h b z s = some (h3, b) ∧
      Rep h3 (.node .nil s sv (plug cr sr)) ps ∧
      (∀ y, y ∉ (plug cr (.node .nil s sv sr)).addrs → h3.cells y = h.cells y) ∧
      h3.next = h.next := by
  cases cr with
  | nil =>
    refine ⟨h, some z, ?_, hr, fun _ _ => rfl, rfl⟩
    have h0 := hr.1
    simp only [plug_nil] at h0
    simp [detachSuccessor, h0]
  | cons f cr => exact detachSuccessor_inner b hr hn hz hcz hzr

theorem WF.of_plug {h1 : Heap α} {c : Ctx α} {s : Tree α} {top : Ptr} {n : Nat}
    (hf : h1.Fresh) (hc : RepC h1 c s.ptr (c.root s.ptr top) none)
    (hs : Rep h1 s (c.parent none)) (hn : (plug c s).addrs.Nodup) (hcount : n = (plug c s).size) :
    WF h1 ⟨c.root s.ptr top, n⟩ (plug c s) := by
  obtain ⟨e1, e2⟩ := rep_plug.mpr ⟨hs, hc⟩
  exact ⟨hf, e2.symm, e1, hn, hcount⟩

theorem nodup_of_entries_sublist {t1 t : Tree α} (hs : t1.entries.Sublist t.entries)
    (hn : t.addrs.Nodup) : t1.addrs.Nodup :=
  List.Nodup.sublist (List.Sublist.map _ hs) hn

/-- Function `erase` of the node `z` in the hole of a context, with the graph it leaves:
the result is again a well-formed tree, whose in-order sequence is the old one without `z`;
the returned iterator is at the node that followed `z`. -/
theorem erase_shape {h : Heap α} {b : BST} {c : Ctx α} {l r : Tree α} {z : Nat} {v : α}
    (w : WF h b (plug c (.node l z v r))) {fuel : Nat}
    (hf : (plug c (.node l z v r)).size ≤ fuel) :
    ∃ h1 t1, b.erase h fuel (some z) = some (h1, ⟨t1.ptr, b.numElements - 1⟩,
        ((r.entries ++ c.after).map Prod.fst).head?) ∧
      WF h1 ⟨t1.ptr, b.numElements - 1⟩ t1 ∧
      t1.entries = c.before ++ l.entries ++ r.entries ++ c.after ∧
      h1.cells z = none ∧
      (∀ y, y ∉ (plug c (.node l z v r)).addrs → h1.cells y = h.cells y) ∧
      h1.next = h.next ∧ Erased c l r t1 := by
  have hinc := increment_eq w.rep w.nodup hf
  obtain ⟨hs, hc⟩ := (@rep_plug _ _ _ _ b.root _).mp ⟨w.rep, w.root.symm⟩
  obtain ⟨n1, n2, n3⟩ := nodup_plug.mp w.nodup
  obtain ⟨h0, hl, hr⟩ := hs
  have hzc : z ∉ c.addrs := n3 z (by simp)
  rw [Tree.addrs_node] at n1 n3
  have n1' := List.nodup_append.mp n1
  have hzl : z ∉ l.addrs := fun hx => n1'.2.2 hx (by simp)
  have hzr : z ∉ r.addrs := (List.nodup_cons.mp n1'.2.1).1
  have hrn : r.addrs.Nodup := (List.nodup_cons.mp n1'.2.1).2
  have hcount : b.numElements - 1 = c.before.length + (l.size + r.size) + c.after.length := by
    rw [w.count, size_plug]; simp; omega
  have hdec : sizeDec b.numElements = b.numElements - 1 := by
    rw [sizeDec, if_neg]
    rw [w.count, size_plug]; simp
  have hsub : (c.before ++ l.entries ++ r.entries ++ c.after).Sublist
      (plug c (.node l z v r)).entries := by
    rw [entries_plug, Tree.entries_node]
    simp only [List.append_assoc]
    refine List.Sublist.append_left (List.Sublist.append_left ?_ _) _
    exact List.Sublist.cons _ (List.Sublist.refl _)
  have hfresh : ∀ h1 : Heap α, h1.next = h.next →
      (∀ y, y ∉ (plug c (.node l z v r)).addrs → h1.cells y = h.cells y) → h1.Fresh := by
    intro h1 e1 e2 a ha
    rw [e2 a (fun hx => by have := w.rep.lt_next w.fresh hx; omega)]
    exact w.fresh a (by omega)
  -- the two splice cases share their proof
  have splice : ∀ s : Tree α, Rep h s (some z) → s.addrs.Nodup →
      (∀ x ∈ s.addrs, x ∉ c.addrs) → z ∉ s.addrs →
      (∀ x ∈ s.addrs, x ∈ (plug c (.node l z v r)).addrs) →
      s.entries = l.entries ++ r.entries →
      ∃ h1, transplant h b z s.ptr = some (h1, ⟨(plug c s).ptr, b.numElements⟩) ∧
        WF (h1.free z) ⟨(plug c s).ptr, b.numElements - 1⟩ (plug c s) ∧
        (∀ y, y ∉ (plug c (.node l z v r)).addrs → (h1.free z).cells y = h.cells y) ∧
        h1.next = h.next := by
    intro s hsrep hsn hsd hzs hsm hse
    obtain ⟨h1, t1, t2, t3, t4, t5⟩ := transplant_spec b (s := s) hc h0 rfl (fun _ => rfl)
      hsrep hsn n2 hsd hzc hzs
    have hptr : (plug c s).ptr = c.root s.ptr b.root := by
      rw [plug_ptr c s (.node l z v r), w.root]
    have hframe : ∀ y, y ∉ (plug c (.node l z v r)).addrs →
        (h1.free z).cells y = h.cells y := by
      intro y hy
      have e1 : y ≠ z := fun e => hy (mem_addrs_plug.mpr (Or.inl (by simp [e])))
      simp only [Heap.free_cells, if_neg e1]
      refine t4 y (Ctx.ne_parent (fun hx => hy (mem_addrs_plug.mpr (Or.inr hx)))) ?_
      exact fun e => hy (hsm y (Tree.ptr_mem_addrs e.symm))
    refine ⟨h1, by rw [hptr]; exact t1, ?_, hframe, t5⟩
    rw [hptr]
    refine WF.of_plug (hfresh _ t5 hframe) (t2.free_ctx hzc) (t3.free hzs) ?_ ?_
    · refine nodup_of_entries_sublist ?_ w.nodup
      rw [entries_plug, hse, ← List.append_assoc]; exact hsub
    · rw [hcount, size_plug, ← Tree.length_entries s, hse]
      simp [Tree.length_entries]
  cases l with
  | nil =>
    obtain ⟨h1, e1, e2, e3, e4⟩ := splice r hr hrn (fun x hx => n3 x (by simp [hx])) hzr
      (fun x hx => mem_addrs_plug.mpr (Or.inl (by simp [hx]))) (by simp)
    refine ⟨h1.free z, plug c r, ?_, e2, by simp [entries_plug], by simp, e3, e4,
      Or.inl ⟨rfl, rfl⟩⟩
    simp only [BST.erase, hinc, h0, Tree.ptr_nil, e1, hdec]
  | node ll la lv lr =>
    cases r with
    | nil =>
      obtain ⟨h1, e1, e2, e3, e4⟩ := splice (.node ll la lv lr) hl n1'.1
        (fun x hx => n3 x (by simp at hx ⊢; tauto)) hzl
        (fun x hx => mem_addrs_plug.mpr (Or.inl (by simp at hx ⊢; tauto))) (by simp)
      refine ⟨h1.free z, plug c (.node ll la lv lr), ?_, e2, by simp [entries_plug], by simp,
        e3, e4, Or.inr (Or.inl ⟨by simp, rfl, rfl⟩)⟩
      simp only [Tree.ptr_node] at e1
      simp only [BST.erase, hinc, h0, Tree.ptr_nil, Tree.ptr_node, e1, hdec]
    | node rl ra rv rr =>
      obtain ⟨cr, s, sv, sr, er, hall⟩ := exists_plug_leftmost rl ra rv rr
      have hbefore := Ctx.before_of_allLeft hall
      have hre : (Tree.node rl ra rv rr).entries = (s, sv) :: (plug cr sr).entries := by
        rw [er, entries_plug, entries_plug, hbefore]; simp
      have hlm : leftmost h fuel ra = some s := by
        rw [leftmost_eq hr rfl (by rw [size_plug] at hf; simp at hf ⊢; omega)]
        simp [Tree.addrs, hre]
      rw [er] at hr hrn hzr
      obtain ⟨h3, ps, d1, d2, d3, d4⟩ := detachSuccessor_spec b hr hrn hzr h0
        (by rw [← er])
      rw [← er] at d3
      have hrsub : ∀ y, y ∈ (Tree.node rl ra rv rr).addrs →
          y ∈ (plug c (.node (.node ll la lv lr) z v (.node rl ra rv rr))).addrs :=
        fun y hy => mem_addrs_plug.mpr (Or.inl (by simp at hy ⊢; tauto))
      have hz3 : h3.cells z = some ⟨v, some la, some ra, c.parent none⟩ := by
        rw [d3 z (by rw [er]; exact hzr)]; exact h0
      have hc3 : RepC h3 c (some z) b.root none := hc.congr_ctx (fun y hy =>
        d3 y (fun hx => n3 y (by simp at hx ⊢; tauto) hy))
      have hl3 : Rep h3 (.node ll la lv lr) (some z) := hl.congr (fun y hy =>
        d3 y (fun hx => n1'.2.2 hy (List.mem_cons_of_mem _ hx)))
      have hent : (plug c (.node (.node ll la lv lr) s sv (plug cr sr))).entries =
          c.before ++ (Tree.node ll la lv lr).entries ++ (Tree.node rl ra rv rr).entries ++
            c.after := by
        rw [entries_plug, Tree.entries_node, ← hre]; simp
      have hn6 : (plug c (.node (.node ll la lv lr) s sv (plug cr sr))).addrs.Nodup := by
        refine nodup_of_entries_sublist ?_ w.nodup
        rw [hent]; exact hsub
      have hz6 : z ∉ (plug c (.node (.node ll la lv lr) s sv (plug cr sr))).addrs := by
        intro hx
        rw [Tree.addrs, hent] at hx
        simp only [List.map_append, List.mem_append, Tree.map_fst_entries] at hx
        have hzb : z ∉ c.before.map Prod.fst := fun hy =>
          hzc (by simp [Ctx.addrs]; exact Or.inl (by simpa using hy))
        have hza : z ∉ c.after.map Prod.fst := fun hy =>
          hzc (by simp [Ctx.addrs]; exact Or.inr (by simpa using hy))
        rw [← er] at hzr
        tauto
      obtain ⟨h6, r1, r2, r3, r4, r5⟩ := replaceBySuccessor_spec b hc3 hz3 rfl rfl hl3 d2 hn6 hz6
      have hptr : (plug c (.node (.node ll la lv lr) s sv (plug cr sr))).ptr =
          c.root (some s) b.root := by
        rw [plug_ptr c _ (.node (.node ll la lv lr) z v (.node rl ra rv rr)), w.root]; rfl
      have hsmem : s ∈ (Tree.node rl ra rv rr).addrs := by simp [Tree.addrs, hre]
      have hframe : ∀ y, y ∉ (plug c (.node (.node ll la lv lr) z v (.node rl ra rv rr))).addrs →
          (h6.free z).cells y = h.cells y := by
        intro y hy
        have e1 : y ≠ z := fun e => hy (mem_addrs_plug.mpr (Or.inl (by simp [e])))
        simp only [Heap.free_cells, if_neg e1]
        rw [r4 y (fun hx => hy (mem_addrs_plug.mpr (Or.inr hx)))
          (fun e => hy (hrsub y (e ▸ hsmem)))
          (fun e => hy (mem_addrs_plug.mpr (Or.inl (by simp [e]))))]
        exact d3 y (fun hx => hy (hrsub y hx))
      refine ⟨h6.free z, plug c (.node (.node ll la lv lr) s sv (plug cr sr)), ?_, ?_, hent,
        by simp, hframe, by simp [r5, d4],
        Or.inr (Or.inr ⟨by simp, cr, s, sv, sr, er, hall, rfl⟩)⟩
      · simp only [BST.erase, hinc, h0, Tree.ptr_node, hlm, d1, r1, hptr, hdec]
      · rw [hptr]
        have hzt : z ∉ (Tree.node (.node ll la lv lr) s sv (plug cr sr)).addrs := fun hx =>
          hz6 (mem_addrs_plug.mpr (Or.inl hx))
        refine WF.of_plug (s := .node (.node ll la lv lr) s sv (plug cr sr))
          (hfresh _ (by simp [r5, d4]) hframe) (r3.free_ctx hzc) (r2.free hzt) hn6 ?_
        rw [← Tree.length_entries, hent, hcount]
        simp [Tree.length_entries]; omega

/-- Function `erase` of the node `z` in the hole of a context: the result is again a well-formed
tree, whose in-order sequence is the old one without `z`; the returned iterator is at the
node that followed `z`. -/
theorem erase_spec {h : Heap α} {b : BST} {c : Ctx α} {l r : Tree α} {z : Nat} {v : α}
    (w : WF h b (plug c (.node l z v r))) {fuel : Nat}
    (hf : (plug c (.node l z v r)).size ≤ fuel) :
    ∃ h1 t1, b.erase h fuel (some z) = some (h1, ⟨t1.ptr, b.numElements - 1⟩,
        ((r.entries ++ c.after).map Prod.fst).head?) ∧
      WF h1 ⟨t1.ptr, b.numElements - 1⟩ t1 ∧
      t1.entries = c.before ++ l.entries ++ r.entries ++ c.after ∧
      h1.cells z = none ∧
      (∀ y, y ∉ (plug c (.node l z v r)).addrs → h1.cells y = h.cells y) ∧
      h1.next = h.next := by
  obtain ⟨h1, t1, e1, e2, e3, e4, e5, e6, -⟩ := erase_shape w hf
  exact ⟨h1, t1, e1, e2, e3, e4, e5, e6⟩

end custom

namespace custom

variable {α : Type}

/-! ## The ordering invariant -/

theorem Ordered.sorted [LinearOrder α] {t : Tree α} (ho : Ordered t) :
    t.inorder.Sorted (· ≤ ·) := by
  induction t with
  | nil => simp
  | node l a v r ihl ihr =>
    obtain ⟨ol, orr, o3, o4⟩ := ho
    simp only [Tree.inorder_node, List.Sorted, List.pairwise_append, List.pairwise_cons]
    refine ⟨ihl ol, ⟨o4, ihr orr⟩, ?_⟩
    intro x hx y hy
    simp only [List.mem_cons] at hy
    rcases hy with rfl | hy
    · exact le_of_lt (o3 x hx)
    · exact le_trans (le_of_lt (o3 x hx)) (o4 y hy)

theorem Tree.ins_inorder_mem [LinearOrder α] {t : Tree α} {ku : Bool} {x : α} {n : Nat}
    {y : α} (hy : y ∈ (t.ins ku x n).inorder) : y = x ∨ y ∈ t.inorder := by
  induction t with
  | nil => simp [Tree.ins] at hy; exact Or.inl hy
  | node l a v r ihl ihr =>
    simp only [Tree.ins] at hy
    split at hy
    · exact Or.inr hy
    · split at hy
      · simp only [Tree.inorder_node, List.mem_append, List.mem_cons] at hy ⊢
        rcases hy with hy | hy | hy
        · rcases ihl hy with h1 | h1 <;> tauto
        · tauto
        · tauto
      · simp only [Tree.inorder_node, List.mem_append, List.mem_cons] at hy ⊢
        rcases hy with hy | hy | hy
        · tauto
        · tauto
        · rcases ihr hy with h1 | h1 <;> tauto

/-- Linking a new node in at the end of the search path keeps the ordering invariant. -/
theorem Ordered.ins [LinearOrder α] {t : Tree α} (ho : Ordered t) (ku : Bool) (x : α)
    (n : Nat) : Ordered (t.ins ku x n) := by
  induction t with
  | nil => simp [Tree.ins, Ordered]
  | node l a v r ihl ihr =>
    obtain ⟨ol, orr, o3, o4⟩ := ho
    simp only [Tree.ins]
    split
    · exact ⟨ol, orr, o3, o4⟩
    · split
      · rename_i hlt
        refine ⟨ihl ol, orr, ?_, o4⟩
        intro y hy
        rcases Tree.ins_inorder_mem hy with rfl | h1
        · exact hlt
        · exact o3 y h1
      · rename_i hlt
        refine ⟨ol, ihr orr, o3, ?_⟩
        intro y hy
        rcases Tree.ins_inorder_mem hy with rfl | h1
        · exact not_lt.mp hlt
        · exact o4 y h1

/-- With `keepUnique`, the search path of `insert` stops at a node holding the value if the
tree holds it at all. -/
theorem Tree.descend_found [LinearOrder α] {t : Tree α} (ho : Ordered t) {x : α}
    (hx : x ∈ t.inorder) (par : Ptr) (wl : Bool) :
    ∃ c, t.descend true x par wl = .found c ∧ (c, x) ∈ t.entries := by
  induction t generalizing par wl with
  | nil => simp at hx
  | node l a v r ihl ihr =>
    obtain ⟨ol, orr, o3, o4⟩ := ho
    simp only [Tree.descend, true_and]
    by_cases hxv : x = v
    · subst hxv
      exact ⟨a, by simp, by simp⟩
    · rw [if_neg hxv]
      simp only [Tree.inorder_node, List.mem_append, List.mem_cons] at hx
      by_cases hlt : x < v
      · rw [if_pos hlt]
        have hxl : x ∈ l.inorder := by
          rcases hx with h1 | h1 | h1
          · exact h1
          · exact absurd h1 hxv
          · exact absurd (o4 x h1) (not_le.mpr hlt)
        obtain ⟨c, e1, e2⟩ := ihl ol hxl (some a) true
        exact ⟨c, e1, by simp [e2]⟩
      · rw [if_neg hlt]
        have hxr : x ∈ r.inorder := by
          rcases hx with h1 | h1 | h1
          · exact absurd (o3 x h1) hlt
          · exact absurd h1 hxv
          · exact h1
        obtain ⟨c, e1, e2⟩ := ihr orr hxr (some a) false
        exact ⟨c, e1, by simp [e2]⟩

/-- Without `keepUnique` the search path of `insert` always ends at an absent child. -/
theorem Tree.descend_slot [LinearOrder α] (t : Tree α) (x : α) (par : Ptr) (wl : Bool) :
    ∃ q wl1, t.descend false x par wl = .slot q wl1 := by
  induction t generalizing par wl with
  | nil => exact ⟨par, wl, rfl⟩
  | node l a v r ihl ihr =>
    simp only [Tree.descend]
    rw [if_neg (by simp)]
    split
    · exact ihl _ _
    · exact ihr _ _

/-- The search path of `find` stops at a node holding the value if the tree holds it. -/
theorem Tree.lookup_mem [LinearOrder α] {t : Tree α} (ho : Ordered t) {x : α}
    (hx : x ∈ t.inorder) : ∃ p, t.lookup x = some p ∧ (p, x) ∈ t.entries := by
  induction t with
  | nil => simp at hx
  | node l a v r ihl ihr =>
    obtain ⟨ol, orr, o3, o4⟩ := ho
    simp only [Tree.lookup]
    by_cases hxv : v = x
    · subst hxv
      exact ⟨a, by simp, by simp⟩
    · rw [if_neg hxv]
      simp only [Tree.inorder_node, List.mem_append, List.mem_cons] at hx
      by_cases hlt : x < v
      · rw [if_pos hlt]
        have hxl : x ∈ l.inorder := by
          rcases hx with h1 | h1 | h1
          · exact h1
          · exact absurd h1.symm hxv
          · exact absurd (o4 x h1) (not_le.mpr hlt)
        obtain ⟨c, e1, e2⟩ := ihl ol hxl
        exact ⟨c, e1, by simp [e2]⟩
      · rw [if_neg hlt]
        have hxr : x ∈ r.inorder := by
          rcases hx with h1 | h1 | h1
          · exact absurd (o3 x h1) hlt
          · exact absurd h1.symm hxv
          · exact h1
        obtain ⟨c, e1, e2⟩ := ihr orr hxr
        exact ⟨c, e1, by simp [e2]⟩

/-- The search path of `find` reaches an absent child if no node holds the value. -/
theorem Tree.lookup_not_mem [LinearOrder α] {t : Tree α} {x : α} (hx : x ∉ t.inorder) :
    t.lookup x = none := by
  induction t with
  | nil => rfl
  | node l a v r ihl ihr =>
    simp only [Tree.inorder_node, List.mem_append, List.mem_cons, not_or] at hx
    simp only [Tree.lookup]
    rw [if_neg (fun e => hx.2.1 e.symm)]
    split
    · exact ihl hx.1
    · exact ihr hx.2.2

theorem Tree.mem_addrs_ins [LinearOrder α] (t : Tree α) (x : α) (n : Nat) :
    n ∈ (t.ins false x n).addrs := by
  obtain ⟨q, wl1, hd⟩ := Tree.descend_slot t x none false
  obtain ⟨xs, ys, _, e2, _⟩ := Tree.ins_entries n hd
  simp [Tree.addrs, e2]

/-- A duplicate inserted without `keepUnique` lands in the right subtree of the node at
which `find` stops. -/
theorem Tree.ins_duplicate [LinearOrder α] {t : Tree α} (ho : Ordered t) {x : α}
    (hx : x ∈ t.inorder) (n : Nat) :
    ∃ c l f r, t = plug c (.node l f x r) ∧ t.lookup x = some f ∧
      t.ins false x n = plug c (.node l f x (r.ins false x n)) := by
  induction t with
  | nil => simp at hx
  | node l a v r ihl ihr =>
    obtain ⟨ol, orr, o3, o4⟩ := ho
    by_cases hxv : v = x
    · subst hxv
      refine ⟨[], l, a, r, rfl, by simp [Tree.lookup], ?_⟩
      simp [Tree.ins]
    · simp only [Tree.inorder_node, List.mem_append, List.mem_cons] at hx
      by_cases hlt : x < v
      · have hxl : x ∈ l.inorder := by
          rcases hx with h1 | h1 | h1
          · exact h1
          · exact absurd h1.symm hxv
          · exact absurd (o4 x h1) (not_le.mpr hlt)
        obtain ⟨c, l1, f, r1, e1, e2, e3⟩ := ihl ol hxl
        refine ⟨c ++ [Frame.left a v r], l1, f, r1, ?_, ?_, ?_⟩
        · rw [plug_append, ← e1]; rfl
        · simp [Tree.lookup, hxv, hlt, e2]
        · rw [plug_append, ← e3]; simp [Tree.ins, hlt]
      · have hxr : x ∈ r.inorder := by
          rcases hx with h1 | h1 | h1
          · exact absurd (o3 x h1) hlt
          · exact absurd h1.symm hxv
          · exact h1
        obtain ⟨c, l1, f, r1, e1, e2, e3⟩ := ihr orr hxr
        refine ⟨c ++ [Frame.right l a v], l1, f, r1, ?_, ?_, ?_⟩
        · rw [plug_append, ← e1]; rfl
        · simp [Tree.lookup, hxv, hlt, e2]
        · rw [plug_append, ← e3]; simp [Tree.ins, hlt]

/-- The empty tree object in the empty store. -/
theorem WF.new : WF (Heap.empty : Heap α) BST.new .nil :=
  ⟨fun _ _ => rfl, rfl, trivial, by simp, rfl⟩

/-- Function `insert` always returns, and keeps the tree well formed and ordered. -/
theorem insert_total [LinearOrder α] {h : Heap α} {b : BST} {t : Tree α} (w : WF h b t)
    (ho : Ordered t) {fuel : Nat} (hf : t.size ≤ fuel) (x : α) (ku : Bool) :
    ∃ h1 b1 it ok t1, b.insert h fuel x ku = some (h1, b1, it, ok) ∧ WF h1 b1 t1 ∧
      Ordered t1 ∧ t1.size = t.size + (if ok then 1 else 0) := by
  cases hd : t.descend ku x none false with
  | found c =>
    exact ⟨h, b, some c, false, t, insert_found w hf hd, w, ho, by simp⟩
  | slot q wl =>
    obtain ⟨h1, e1, e2, _, _⟩ := insert_slot w hf hd
    exact ⟨h1, _, _, true, _, e1, e2, ho.ins ku x _, by simp [Tree.ins_size _ hd]⟩

theorem insertAll_total [LinearOrder α] (ops : List (α × Bool)) {h : Heap α} {b : BST}
    {t : Tree α} (w : WF h b t) (ho : Ordered t) {fuel : Nat}
    (hf : t.size + ops.length ≤ fuel) :
    ∃ h1 b1 t1, insertAll fuel ops (h, b) = some (h1, b1) ∧ WF h1 b1 t1 ∧ Ordered t1 ∧
      t1.size ≤ t.size + ops.length := by
  induction ops generalizing h b t with
  | nil => exact ⟨h, b, t, rfl, w, ho, by simp⟩
  | cons op ops ih =>
    obtain ⟨x, ku⟩ := op
    have hf1 : t.size ≤ fuel := by simp at hf; omega
    obtain ⟨h1, b1, it, ok, t1, e1, w1, o1, s1⟩ := insert_total w ho hf1 x ku
    have hs : t1.size ≤ t.size + 1 := by split at s1 <;> omega
    obtain ⟨h2, b2, t2, e2, w2, o2, s2⟩ := ih w1 o1 (by simp at hf; omega)
    refine ⟨h2, b2, t2, ?_, w2, o2, by simp; omega⟩
    simp only [insertAll, e1, e2]

end custom

namespace custom

variable {α : Type}

/-! ## Positions in the traversal -/

/-- The context of a node determines what precedes and what follows it in in-order. -/
theorem split_of_plug {c : Ctx α} {l r : Tree α} {z : Nat} {w v : α}
    {xs ys : List (Nat × α)} (hn : (plug c (.node l z w r)).addrs.Nodup)
    (he : (plug c (.node l z w r)).entries = xs ++ (z, v) :: ys) :
    xs = c.before ++ l.entries ∧ v = w ∧ ys = r.entries ++ c.after := by
  have e2 := he
  rw [entries_plug] at e2
  simp only [Tree.entries_node, List.append_assoc, List.cons_append] at e2
  have hn2 : ((xs ++ (z, v) :: ys).map Prod.fst).Nodup := by rw [← he]; exact hn
  have e3 : xs ++ (z, v) :: ys = (c.before ++ l.entries) ++ (z, w) :: (r.entries ++ c.after) := by
    rw [← e2, List.append_assoc]
  exact split_unique hn2 e3

/-- Function `operator++` at a node gives the node that follows it in the traversal, or
`end()`. -/
theorem increment_of_entries {h : Heap α} {t : Tree α} (hr : Rep h t none)
    (hn : t.addrs.Nodup) {xs ys : List (Nat × α)} {z : Nat} {v : α}
    (he : t.entries = xs ++ (z, v) :: ys) {fuel : Nat} (hf : t.size ≤ fuel) :
    increment h fuel (some z) = some ((ys.map Prod.fst).head?) := by
  have hmem : z ∈ t.addrs := List.mem_map.mpr ⟨(z, v), by rw [he]; simp, rfl⟩
  obtain ⟨c, l, w, r, et⟩ := exists_plug_of_mem hmem
  subst et
  obtain ⟨-, -, e3⟩ := split_of_plug hn he
  rw [increment_eq hr hn hf, e3]

theorem begin_eq {h : Heap α} {b : BST} {t : Tree α} (w : WF h b t) {fuel : Nat}
    (hf : t.size ≤ fuel) : b.begin h fuel = some (t.addrs.head?) := by
  unfold BST.begin
  by_cases he : b.empty = true
  · have := w.empty_iff.mp he
    subst this
    simp [he, BST.end_]
  · cases t with
    | nil => exact absurd (w.empty_iff.mpr rfl) he
    | node l a v r =>
      simp only [he, w.root, Tree.ptr_node]
      rw [leftmost_eq w.rep rfl hf]
      cases hx : (Tree.node l a v r).addrs with
      | nil => simp at hx
      | cons x xs => simp

theorem Tree.entries_split (t : Tree α) {k : Nat} (hk : k < t.entries.length) :
    t.entries = t.entries.take k ++ t.entries[k] :: t.entries.drop (k + 1) := by
  rw [← List.drop_eq_getElem_cons hk, List.take_append_drop]

theorem Tree.addrs_drop (t : Tree α) {k : Nat} (hk : k < t.entries.length) :
    t.addrs.drop k = (t.entries[k]).1 :: t.addrs.drop (k + 1) := by
  have hk2 : k < t.addrs.length := by simpa [Tree.addrs] using hk
  rw [List.drop_eq_getElem_cons hk2]
  simp [Tree.addrs]

/-- Advancing an iterator `k` times moves it `k` positions along the traversal, stopping at
`end()`. -/
theorem advance_eq {h : Heap α} {t : Tree α} (hr : Rep h t none) (hn : t.addrs.Nodup)
    {fuel : Nat} (hf : t.size ≤ fuel) (k j : Nat) :
    advance h fuel k ((t.addrs.drop j).head?) = some ((t.addrs.drop (j + k)).head?) := by
  induction k generalizing j with
  | zero => rfl
  | succ k ih =>
    simp only [advance]
    have hstep : increment h fuel ((t.addrs.drop j).head?) =
        some ((t.addrs.drop (j + 1)).head?) := by
      by_cases hj : j < t.entries.length
      · have hsplit := t.entries_split hj
        have hd := t.addrs_drop hj
        rw [hd, List.head?_cons]
        have := increment_of_entries (z := (t.entries[j]).1) (v := (t.entries[j]).2) hr hn hsplit hf
        rw [this]
        simp [Tree.addrs, List.map_drop]
      · have h1 : t.addrs.drop j = [] := List.drop_eq_nil_of_le (by
          simp [Tree.addrs]; omega)
        have h2 : t.addrs.drop (j + 1) = [] := List.drop_eq_nil_of_le (by
          simp [Tree.addrs]; omega)
        simp [h1, h2, increment]
    rw [hstep]
    simp only []
    rw [ih (j + 1)]
    congr 3
    omega

/-- Function `erase` at a node given by its place in the traversal. -/
theorem erase_traverse {h : Heap α} {b : BST} {t : Tree α} (w : WF h b t)
    {xs ys : List (Nat × α)} {z : Nat} {v : α} (he : t.entries = xs ++ (z, v) :: ys)
    {fuel : Nat} (hf : t.size ≤ fuel) :
    ∃ h1 b1 t1, b.erase h fuel (some z) = some (h1, b1, (ys.map Prod.fst).head?) ∧
      WF h1 b1 t1 ∧ t1.entries = xs ++ ys ∧ b1.numElements + 1 = b.numElements ∧
      h1.cells z = none ∧ (∀ y, y ∉ t.addrs → h1.cells y = h.cells y) := by
  have hmem : z ∈ t.addrs := List.mem_map.mpr ⟨(z, v), by rw [he]; simp, rfl⟩
  obtain ⟨c, l, v1, r, et⟩ := exists_plug_of_mem hmem
  subst et
  obtain ⟨s1, -, s3⟩ := split_of_plug w.nodup he
  obtain ⟨h1, t1, e1, e2, e3, e4, e5, e6⟩ := erase_spec w hf
  refine ⟨h1, _, t1, by rw [s3]; exact e1, e2, by rw [e3, s1, s3]; simp, ?_, e4, e5⟩
  have : b.numElements = (xs ++ (z, v) :: ys).length := by
    rw [w.count, ← Tree.length_entries, he]
  simp at this
  simp only [this]
  omega

/-- Function `insert` always returns and keeps the tree well formed. -/
theorem insert_wf [LinearOrder α] {h : Heap α} {b : BST} {t : Tree α} (w : WF h b t)
    {fuel : Nat} (hf : t.size ≤ fuel) (x : α) (ku : Bool) :
    ∃ h1 b1 it ok t1, b.insert h fuel x ku = some (h1, b1, it, ok) ∧ WF h1 b1 t1 ∧
      t1.size = t.size + (if ok then 1 else 0) := by
  cases hd : t.descend ku x none false with
  | found c =>
    exact ⟨h, b, some c, false, t, insert_found w hf hd, w, by simp⟩
  | slot q wl =>
    obtain ⟨h1, e1, e2, _, _⟩ := insert_slot w hf hd
    exact ⟨h1, _, _, true, _, e1, e2, by simp [Tree.ins_size _ hd]⟩

/-- Along any sequence of calls the tree stays well formed and its node count is the
number of successful insertions minus the number of erasures. -/
theorem runCalls_total [LinearOrder α] (calls : List (Call α)) {h : Heap α} {b : BST}
    {t : Tree α} (w : WF h b t) {fuel : Nat} (hf : t.size + calls.length ≤ fuel)
    (ins ers : Nat) (hc : t.size + ers = ins) :
    ∃ h1 b1 t1 ins1 ers1, runCalls fuel calls (h, b, ins, ers) = some (h1, b1, ins1, ers1) ∧
      WF h1 b1 t1 ∧ t1.size + ers1 = ins1 := by
  induction calls generalizing h b t ins ers with
  | nil => exact ⟨h, b, t, ins, ers, rfl, w, hc⟩
  | cons op calls ih =>
    simp only [List.length_cons] at hf
    cases op with
    | insert x ku =>
      obtain ⟨h1, b1, it, ok, t1, e1, w1, s1⟩ := insert_wf w (by omega : t.size ≤ fuel) x ku
      have hs : t1.size ≤ t.size + 1 := by split at s1 <;> omega
      obtain ⟨h2, b2, t2, i2, r2, e2, w2, c2⟩ := ih w1 (by omega)
        (if ok then ins + 1 else ins) ers (by cases ok <;> simp at s1 ⊢ <;> omega)
      exact ⟨h2, b2, t2, i2, r2, by simp only [runCalls, e1, e2], w2, c2⟩
    | erase k =>
      have hb := begin_eq w (by omega : t.size ≤ fuel)
      have ha := advance_eq w.rep w.nodup (by omega : t.size ≤ fuel) k 0
      simp only [List.drop_zero, zero_add] at ha
      cases hit : (t.addrs.drop k).head? with
      | none =>
        obtain ⟨h2, b2, t2, i2, r2, e2, w2, c2⟩ := ih w (by omega) ins ers hc
        refine ⟨h2, b2, t2, i2, r2, ?_, w2, c2⟩
        simp only [runCalls, hb, ha, hit, BST.erase, BST.end_, if_true, e2]
      | some z =>
        have hk : k < t.entries.length := by
          by_contra hlt
          have : t.addrs.drop k = [] := List.drop_eq_nil_of_le (by simp [Tree.addrs]; omega)
          simp [this] at hit
        have hsplit := t.entries_split hk
        have hz : (t.entries[k]).1 = z := by
          have hd := t.addrs_drop hk
          rw [hd] at hit
          simpa using hit
        have hsplit2 : t.entries = t.entries.take k ++ (z, (t.entries[k]).2) ::
            t.entries.drop (k + 1) := by
          rw [← hz]; exact hsplit
        obtain ⟨h1, b1, t1, e1, w1, s1, n1, -, -⟩ := erase_traverse w hsplit2
          (by omega : t.size ≤ fuel)
        have hsz : t1.size + 1 = t.size := by
          rw [← w1.count, ← w.count]; exact n1
        obtain ⟨h2, b2, t2, i2, r2, e2, w2, c2⟩ := ih w1 (by omega) ins (ers + 1) (by omega)
        refine ⟨h2, b2, t2, i2, r2, ?_, w2, c2⟩
        simp only [runCalls, hb, ha, hit, e1, BST.end_]
        simpa using e2

end custom

namespace custom

variable {α : Type}

/-! ## clear and copy-assignment -/

theorem count_eq {h : Heap α} {t : Tree α} {p : Ptr} (hr : Rep h t p) {fuel : Nat}
    (hf : t.size ≤ fuel) : count h fuel t.ptr = some t.size := by
  induction t generalizing p fuel with
  | nil => cases fuel <;> simp [count]
  | node l a v r ihl ihr =>
    obtain ⟨h0, hl, hrr⟩ := hr
    cases fuel with
    | zero => simp at hf
    | succ fuel =>
      simp only [Tree.size_node] at hf
      simp only [Tree.ptr_node, count, h0, ihl hl (by omega : l.size ≤ fuel),
        ihr hrr (by omega : r.size ≤ fuel), Tree.size_node]
      congr 1; omega

/-- Function `destroy` frees every node of the graph and touches nothing else. -/
theorem destroy_spec {h : Heap α} {t : Tree α} {p : Ptr} (hr : Rep h t p)
    (hn : t.addrs.Nodup) {fuel : Nat} (hf : t.size ≤ fuel) :
    ∃ h1, destroy fuel h t.ptr = some h1 ∧ (∀ y ∈ t.addrs, h1.cells y = none) ∧
      (∀ y, y ∉ t.addrs → h1.cells y = h.cells y) ∧ h1.next = h.next := by
  induction t generalizing h p fuel with
  | nil => exact ⟨h, by cases fuel <;> simp [destroy], by simp, fun _ _ => rfl, rfl⟩
  | node l a v r ihl ihr =>
    obtain ⟨h0, hl, hrr⟩ := hr
    simp only [Tree.addrs_node] at hn
    have hn' := List.nodup_append.mp hn
    have hal : a ∉ l.addrs := fun hx => hn'.2.2 hx (by simp)
    have har : a ∉ r.addrs := (List.nodup_cons.mp hn'.2.1).1
    cases fuel with
    | zero => simp at hf
    | succ fuel =>
      simp only [Tree.size_node] at hf
      obtain ⟨h1, e1, e2, e3, e4⟩ := ihl hl hn'.1 (by omega : l.size ≤ fuel)
      have hr1 : Rep h1 r (some a) := hrr.congr (fun y hy =>
        e3 y (fun hx => hn'.2.2 hx (List.mem_cons_of_mem _ hy)))
      obtain ⟨h2, f1, f2, f3, f4⟩ := ihr hr1 (List.nodup_cons.mp hn'.2.1).2
        (by omega : r.size ≤ fuel)
      have ha1 : h1.cells a = h.cells a := e3 a hal
      have ha2 : h2.cells a = h.cells a := by rw [f3 a har, ha1]
      refine ⟨h2.free a, ?_, ?_, ?_, by simp [f4, e4]⟩
      · simp only [Tree.ptr_node, destroy, h0, e1, ha1, f1, ha2]
      · intro y hy
        simp only [Tree.addrs_node, List.mem_append, List.mem_cons] at hy
        simp only [Heap.free_cells]
        split
        · rfl
        · rcases hy with hy | hy | hy
          · by_cases hyr : y ∈ r.addrs
            · exact f2 y hyr
            · rw [f3 y hyr]; exact e2 y hy
          · contradiction
          · exact f2 y hy
      · intro y hy
        simp only [Tree.addrs_node, List.mem_append, List.mem_cons, not_or] at hy
        simp only [Heap.free_cells, if_neg hy.2.1]
        rw [f3 y hy.2.2, e3 y hy.1]

/-- Function `clear` frees every node and leaves the empty tree. -/
theorem clear_spec {h : Heap α} {b : BST} {t : Tree α} (w : WF h b t) {fuel : Nat}
    (hf : t.size ≤ fuel) :
    ∃ h1, b.clear h fuel = some (h1, ⟨none, 0⟩) ∧ WF h1 ⟨none, 0⟩ .nil ∧
      (∀ y, y ∉ t.addrs → h1.cells y = h.cells y) ∧ h1.next = h.next := by
  obtain ⟨h1, e1, e2, e3, e4⟩ := destroy_spec w.rep w.nodup hf
  refine ⟨h1, by simp [BST.clear, w.root, e1], ⟨?_, rfl, trivial, by simp, rfl⟩, e3, e4⟩
  intro a ha
  rw [e4] at ha
  by_cases hm : a ∈ t.addrs
  · exact e2 a hm
  · rw [e3 a hm]; exact w.fresh a ha

theorem Tree.skeleton_size {t1 t2 : Tree α} (hs : t1.skeleton = t2.skeleton) :
    t1.size = t2.size := by
  induction t1 generalizing t2 with
  | nil => cases t2 <;> simp [Tree.skeleton] at hs ⊢
  | node l a v r ihl ihr =>
    cases t2 with
    | nil => simp [Tree.skeleton] at hs
    | node l2 a2 v2 r2 =>
      simp only [Tree.skeleton, Tree.node.injEq, true_and] at hs
      simp [ihl hs.1, ihr hs.2.2]

theorem Tree.skeleton_inorder {t1 t2 : Tree α} (hs : t1.skeleton = t2.skeleton) :
    t1.inorder = t2.inorder := by
  induction t1 generalizing t2 with
  | nil => cases t2 <;> simp [Tree.skeleton] at hs ⊢
  | node l a v r ihl ihr =>
    cases t2 with
    | nil => simp [Tree.skeleton] at hs
    | node l2 a2 v2 r2 =>
      simp only [Tree.skeleton, Tree.node.injEq, true_and] at hs
      simp [ihl hs.1, ihr hs.2.2, hs.2.1]

/-- Function `clone` builds a fresh copy of the graph, with the same shape and values, and touches no
node that was live before. -/
theorem clone_spec {h : Heap α} {t : Tree α} {p : Ptr} (hr : Rep h t p) (hfr : h.Fresh)
    {fuel : Nat} (hf : t.size ≤ fuel) (parent : Ptr) :
    ∃ h1 t1, clone fuel h t.ptr parent = some (h1, t1.ptr) ∧ Rep h1 t1 parent ∧
      t1.skeleton = t.skeleton ∧ (∀ y, y < h.next → h1.cells y = h.cells y) ∧
      (∀ y ∈ t1.addrs, h.next ≤ y ∧ y < h1.next) ∧ t1.addrs.Nodup ∧ h.next ≤ h1.next ∧
      h1.Fresh := by
  induction t generalizing h p fuel parent with
  | nil =>
    exact ⟨h, .nil, by cases fuel <;> simp [clone], trivial, rfl, fun _ _ => rfl, by simp,
      by simp, le_refl _, hfr⟩
  | node l a v r ihl ihr =>
    have hr0 := hr
    obtain ⟨h0, hl, hrr⟩ := hr
    cases fuel with
    | zero => simp at hf
    | succ fuel =>
      simp only [Tree.size_node] at hf
      have ha : a < h.next := hr0.lt_next hfr (by simp)
      have han : a ≠ h.next := by omega
      have hlt : ∀ y ∈ l.addrs, y < h.next := fun y hy => hr0.lt_next hfr (by simp [hy])
      have hrt : ∀ y ∈ r.addrs, y < h.next := fun y hy => hr0.lt_next hfr (by simp [hy])
      -- the new node
      let h2 : Heap α := (h.alloc v).2.write h.next ⟨v, none, none, parent⟩
      have h2next : h2.next = h.next + 1 := rfl
      have h2cells : ∀ y, y ≠ h.next → h2.cells y = h.cells y := fun y hy => by
        simp [h2, hy]
      have h2fresh : h2.Fresh := fun y hy => by
        rw [h2next] at hy
        rw [h2cells y (by omega)]; exact hfr y (by omega)
      have hl2 : Rep h2 l (some a) := hl.congr (fun y hy => h2cells y (by
        have := hlt y hy; omega))
      obtain ⟨h3, l1, e1, e2, e3, e4, e5, e6, e7, e8⟩ := ihl hl2 h2fresh
        (by omega : l.size ≤ fuel) (some h.next)
      rw [h2next] at e4 e5 e7
      have h3n : h3.cells h.next = some ⟨v, none, none, parent⟩ := by
        rw [e4 _ (by omega)]; simp [h2]
      let h4 : Heap α := h3.write h.next ⟨v, l1.ptr, none, parent⟩
      have h4cells : ∀ y, y ≠ h.next → h4.cells y = h3.cells y := fun y hy => by
        simp [h4, hy]
      have h4fresh : h4.Fresh := fun y hy => by
        have : h4.next = h3.next := rfl
        rw [this] at hy
        rw [h4cells y (by omega)]; exact e8 y hy
      have hold4 : ∀ y, y < h.next → h4.cells y = h.cells y := fun y hy => by
        rw [h4cells y (by omega), e4 y (by omega), h2cells y (by omega)]
      have hr4 : Rep h4 r (some a) := hrr.congr (fun y hy => hold4 y (hrt y hy))
      obtain ⟨h5, r1, f1, f2, f3, f4, f5, f6, f7, f8⟩ := ihr hr4 h4fresh
        (by omega : r.size ≤ fuel) (some h.next)
      have h4next : h4.next = h3.next := rfl
      rw [h4next] at f4 f5 f7
      have h5n : h5.cells h.next = some ⟨v, l1.ptr, none, parent⟩ := by
        rw [f4 _ (by omega)]; simp [h4]
      have hn_l1 : h.next ∉ l1.addrs := fun hx => by have := e5 _ hx; omega
      have hn_r1 : h.next ∉ r1.addrs := fun hx => by have := f5 _ hx; omega
      refine ⟨h5.write h.next ⟨v, l1.ptr, r1.ptr, parent⟩, .node l1 h.next v r1, ?_,
        ⟨by simp, ?_, f2.write hn_r1 _⟩, by simp [Tree.skeleton, e3, f3], ?_, ?_, ?_, ?_, ?_⟩
      · have hs2 : h2.cells a = h.cells a := h2cells a han
        have hs4 : h4.cells a = h.cells a := hold4 a ha
        have halloc : h.alloc v = (h.next, (h.alloc v).2) := rfl
        simp only [Tree.ptr_node, clone, h0]
        rw [halloc]
        simp only [setParent, Heap.alloc_cells, if_true]
        show (match (h2.cells a) with
          | none => none
          | some ns2 => _) = _
        rw [hs2, h0]
        simp only [e1, setLeft, h3n]
        show (match (h4.cells a) with
          | none => none
          | some ns4 => _) = _
        rw [hs4, h0]
        simp only [f1, setRight, h5n]
      · have hl4 : Rep h4 l1 (some h.next) := e2.write hn_l1 _
        have hl5 : Rep h5 l1 (some h.next) := hl4.congr (fun y hy => f4 y (e5 y hy).2)
        exact hl5.write hn_l1 _
      · intro y hy
        have : y ≠ h.next := by omega
        simp only [Heap.write_cells, if_neg this]
        rw [f4 y (by omega)]; exact hold4 y hy
      · intro y hy
        simp only [Tree.addrs_node, List.mem_append, List.mem_cons] at hy
        simp only [Heap.write_next]
        rcases hy with hy | rfl | hy
        · have := e5 y hy; omega
        · omega
        · have := f5 y hy; omega
      · simp only [Tree.addrs_node]
        refine List.nodup_append.mpr ⟨e6, List.nodup_cons.mpr ⟨hn_r1, f6⟩, ?_⟩
        intro y hy1 hy2
        simp only [List.mem_cons] at hy2
        rcases hy2 with rfl | hy2
        · exact hn_l1 hy1
        · have := e5 y hy1; have := f5 y hy2; omega
      · simp only [Heap.write_next]; omega
      · intro y hy
        simp only [Heap.write_next] at hy
        have : y ≠ h.next := by omega
        simp only [Heap.write_cells, if_neg this]
        exact f8 y hy

end custom

namespace custom

variable {α : Type}

theorem WF.transfer {h h1 : Heap α} {b : BST} {t : Tree α} (w : WF h b t) (hf : h1.Fresh)
    (hc : ∀ a ∈ t.addrs, h1.cells a = h.cells a) : WF h1 b t :=
  ⟨hf, w.root, w.rep.congr hc, w.nodup, w.count⟩

theorem WF.addr_lt_next {h : Heap α} {b : BST} {t : Tree α} (w : WF h b t) {a : Nat}
    (ha : a ∈ t.addrs) : a < h.next := w.rep.lt_next w.fresh ha

/-- Case 1 of `operator=` with an empty destination. -/
theorem assignCase1_empty {h : Heap α} {bd bs : BST} {sa : Nat} {sv : α}
    (wd : WF h bd .nil) (ws : WF h bs (.node .nil sa sv .nil)) (fuel : Nat) :
    ∃ h1 b1, assignCase1 h fuel bd sa = some (h1, b1) ∧
      IsCopy h1 b1 bs (.node .nil sa sv .nil) := by
  have h0 := ws.rep.1
  have hsa : sa < h.next := ws.addr_lt_next (by simp)
  have hfr : ((h.alloc sv).2).Fresh := fun y hy => by
    simp only [Heap.alloc_next] at hy
    have : y ≠ h.next := by omega
    simp only [Heap.alloc_cells, if_neg this]
    exact ws.fresh y (by omega)
  refine ⟨(h.alloc sv).2, ⟨some h.next, 1⟩, ?_, .node .nil h.next sv .nil,
    ⟨hfr, rfl, ⟨by simp, trivial, trivial⟩, by simp, rfl⟩, rfl, ws.transfer hfr ?_, ?_⟩
  · simp [assignCase1, wd.root, h0, Heap.alloc]
  · intro a ha
    have : a ≠ h.next := by have := ws.addr_lt_next ha; omega
    simp [this]
  · intro x hx
    simp only [Tree.addrs_node, Tree.addrs_nil, List.nil_append, List.mem_singleton] at hx ⊢
    omega

/-- Case 1 of `operator=` with a non-empty destination: the root is reused, its subtrees
are deleted. -/
theorem assignCase1_node {h : Heap α} {bd bs : BST} {dl dr : Tree α} {da : Nat} {dv : α}
    {sa : Nat} {sv : α}
    (wd : WF h bd (.node dl da dv dr)) (ws : WF h bs (.node .nil sa sv .nil))
    (hdisj : ∀ x ∈ (Tree.node dl da dv dr).addrs, x ∉ (Tree.node .nil sa sv .nil).addrs)
    {fuel : Nat} (hf : (Tree.node dl da dv dr).size ≤ fuel) :
    ∃ h1 b1, assignCase1 h fuel bd sa = some (h1, b1) ∧
      IsCopy h1 b1 bs (.node .nil sa sv .nil) := by
  have h0 := ws.rep.1
  obtain ⟨d0, hdl, hdr⟩ := wd.rep
  have hn := wd.nodup
  simp only [Tree.addrs_node] at hn
  have hn' := List.nodup_append.mp hn
  have hal : da ∉ dl.addrs := fun hx => hn'.2.2 hx (by simp)
  have har : da ∉ dr.addrs := (List.nodup_cons.mp hn'.2.1).1
  simp only [Tree.size_node] at hf
  have hsada : sa ≠ da := fun e => hdisj da (by simp) (by simp [e])
  let h1 : Heap α := h.write da ⟨sv, dl.ptr, dr.ptr, none⟩
  have h1da : h1.cells da = some ⟨sv, dl.ptr, dr.ptr, none⟩ := by simp [h1]
  obtain ⟨h2, e1, e2, e3, e4⟩ := destroy_spec (hdl.write hal _ : Rep h1 dl (some da)) hn'.1
    (by omega : dl.size ≤ fuel)
  have h2da : h2.cells da = some ⟨sv, dl.ptr, dr.ptr, none⟩ := by rw [e3 da hal, h1da]
  have hdr2 : Rep h2 dr (some da) := (hdr.write har _ : Rep h1 dr (some da)).congr
    (fun y hy => e3 y (fun hx => hn'.2.2 hx (List.mem_cons_of_mem _ hy)))
  obtain ⟨h3, f1, f2, f3, f4⟩ := destroy_spec hdr2 (List.nodup_cons.mp hn'.2.1).2
    (by omega : dr.size ≤ fuel)
  have h3da : h3.cells da = some ⟨sv, dl.ptr, dr.ptr, none⟩ := by rw [f3 da har, h2da]
  let h5 : Heap α := (h3.write da ⟨sv, dl.ptr, none, none⟩).write da ⟨sv, none, none, none⟩
  have hframe : ∀ y, y ∉ (Tree.node dl da dv dr).addrs → h5.cells y = h.cells y := by
    intro y hy
    simp only [Tree.addrs_node, List.mem_append, List.mem_cons, not_or] at hy
    simp only [h5, Heap.write_cells, if_neg hy.2.1]
    rw [f3 y hy.2.2, e3 y hy.1]
    simp [h1, hy.2.1]
  have hold : ∀ y ∈ dl.addrs ++ dr.addrs, h5.cells y = none := by
    intro y hy
    have hyda : y ≠ da := fun e => by
      rcases List.mem_append.mp hy with hy | hy
      · exact hal (e ▸ hy)
      · exact har (e ▸ hy)
    simp only [h5, Heap.write_cells, if_neg hyda]
    rcases List.mem_append.mp hy with hy | hy
    · by_cases hyr : y ∈ dr.addrs
      · exact f2 y hyr
      · rw [f3 y hyr]; exact e2 y hy
    · exact f2 y hy
  have hfr : h5.Fresh := by
    intro y hy
    have hnext : h5.next = h.next := by simp [h5, f4, e4, h1]
    rw [hnext] at hy
    rw [hframe y (fun hx => by have := wd.addr_lt_next hx; omega)]
    exact wd.fresh y hy
  refine ⟨h5, ⟨some da, 1⟩, ?_, .node .nil da sv .nil,
    ⟨hfr, rfl, ⟨by simp [h5], trivial, trivial⟩, by simp, rfl⟩, rfl, ws.transfer hfr ?_, ?_⟩
  · simp only [assignCase1, wd.root, Tree.ptr_node, h0, setData, d0]
    show (match h1.cells da with
      | none => none
      | some n1 => _) = _
    simp only [h1da, e1, h2da, f1, setRight, h3da, setLeft, Heap.write_cells, if_true]
  · intro a ha
    exact hframe a (fun hx => hdisj a hx ha)
  · intro x hx
    simp only [Tree.addrs_node, Tree.addrs_nil, List.nil_append, List.mem_singleton] at hx ⊢
    omega

/-- Case 2 of `operator=`: a single-node destination takes the root value and clones of the
two subtrees of the source. -/
theorem assignCase2_spec {h : Heap α} {bd bs : BST} {da : Nat} {dv : α}
    {sl sr : Tree α} {sa : Nat} {sv : α}
    (wd : WF h bd (.node .nil da dv .nil)) (ws : WF h bs (.node sl sa sv sr))
    (hdisj : da ∉ (Tree.node sl sa sv sr).addrs)
    {fuel : Nat} (hf : (Tree.node sl sa sv sr).size ≤ fuel) :
    ∃ h1 b1, assignCase2 h fuel da sa = some (h1, b1) ∧
      IsCopy h1 b1 bs (.node sl sa sv sr) := by
  obtain ⟨s0, hsl, hsr⟩ := ws.rep
  have d0 := wd.rep.1
  simp only [Tree.ptr_nil] at d0
  simp only [Tree.size_node] at hf
  have hda : da < h.next := wd.addr_lt_next (by simp)
  have hsada : sa ≠ da := fun e => hdisj (by simp [e])
  have hsrc : ∀ y ∈ (Tree.node sl sa sv sr).addrs, y ≠ da ∧ y < h.next := fun y hy =>
    ⟨fun e => hdisj (e ▸ hy), ws.addr_lt_next hy⟩
  let h1 : Heap α := h.write da ⟨sv, none, none, none⟩
  have h1c : ∀ y, y ≠ da → h1.cells y = h.cells y := fun y hy => by simp [h1, hy]
  have h1fr : h1.Fresh := fun y hy => by
    rw [h1c y (by have : h1.next = h.next := rfl; omega)]; exact wd.fresh y hy
  have hsl1 : Rep h1 sl (some sa) := hsl.congr (fun y hy =>
    h1c y (hsrc y (by simp [hy])).1)
  obtain ⟨h2, l1, e1, e2, e3, e4, e5, e6, e7, e8⟩ := clone_spec hsl1 h1fr
    (by omega : sl.size ≤ fuel) (some da)
  have h1next : h1.next = h.next := rfl
  rw [h1next] at e4 e5 e7
  have h2da : h2.cells da = some ⟨sv, none, none, none⟩ := by rw [e4 da hda]; simp [h1]
  let h3 : Heap α := h2.write da ⟨sv, l1.ptr, none, none⟩
  have h3c : ∀ y, y ≠ da → h3.cells y = h2.cells y := fun y hy => by simp [h3, hy]
  have h3fr : h3.Fresh := fun y hy => by
    have : h3.next = h2.next := rfl
    rw [h3c y (by omega)]; exact e8 y hy
  have hold3 : ∀ y ∈ (Tree.node sl sa sv sr).addrs, h3.cells y = h.cells y := fun y hy => by
    rw [h3c y (hsrc y hy).1, e4 y (hsrc y hy).2, h1c y (hsrc y hy).1]
  have hsr3 : Rep h3 sr (some sa) := hsr.congr (fun y hy => hold3 y (by simp [hy]))
  obtain ⟨h4, r1, f1, f2, f3, f4, f5, f6, f7, f8⟩ := clone_spec hsr3 h3fr
    (by omega : sr.size ≤ fuel) (some da)
  have h3next : h3.next = h2.next := rfl
  rw [h3next] at f4 f5 f7
  have h4da : h4.cells da = some ⟨sv, l1.ptr, none, none⟩ := by
    rw [f4 da (by omega)]; simp [h3]
  let h5 : Heap α := h4.write da ⟨sv, l1.ptr, r1.ptr, none⟩
  have hda_l1 : da ∉ l1.addrs := fun hx => by have := e5 _ hx; omega
  have hda_r1 : da ∉ r1.addrs := fun hx => by have := f5 _ hx; omega
  have hrep5 : Rep h5 (.node l1 da sv r1) none := by
    refine ⟨by simp [h5], ?_, f2.write hda_r1 _⟩
    have hl3 : Rep h3 l1 (some da) := e2.write hda_l1 _
    have hl4 : Rep h4 l1 (some da) := hl3.congr (fun y hy => f4 y (e5 y hy).2)
    exact hl4.write hda_l1 _
  have hsize : (Tree.node l1 da sv r1).size = (Tree.node sl sa sv sr).size := by
    simp [Tree.skeleton_size e3, Tree.skeleton_size f3]
  have hfr5 : h5.Fresh := fun y hy => by
    have hn : h5.next = h4.next := rfl
    rw [hn] at hy
    have : y ≠ da := by omega
    simp only [h5, Heap.write_cells, if_neg this]
    exact f8 y hy
  refine ⟨h5, ⟨some da, (Tree.node l1 da sv r1).size⟩, ?_, .node l1 da sv r1,
    ⟨hfr5, rfl, hrep5, ?_, rfl⟩, by simp [Tree.skeleton, e3, f3], ws.transfer hfr5 ?_, ?_⟩
  · simp only [assignCase2, s0, setData, d0]
    show (match h1.cells sa with
      | none => none
      | some nr1 => _) = _
    rw [h1c sa hsada, s0]
    simp only [e1, setLeft, h2da]
    show (match h3.cells sa with
      | none => none
      | some nr3 => _) = _
    rw [hold3 sa (by simp), s0]
    simp only [f1, setRight, h4da]
    show (match count h5 fuel (some da) with
      | none => none
      | some c => _) = _
    have hcnt : count h5 fuel (Tree.node l1 da sv r1).ptr = some (Tree.node l1 da sv r1).size :=
      count_eq hrep5 (by rw [hsize]; simp; omega)
    simp only [Tree.ptr_node] at hcnt
    rw [hcnt]
  · simp only [Tree.addrs_node]
    refine List.nodup_append.mpr ⟨e6, List.nodup_cons.mpr ⟨hda_r1, f6⟩, ?_⟩
    intro y hy1 hy2
    simp only [List.mem_cons] at hy2
    rcases hy2 with rfl | hy2
    · exact hda_l1 hy1
    · have := e5 y hy1; have := f5 y hy2; omega
  · intro y hy
    simp only [h5, Heap.write_cells, if_neg (hsrc y hy).1]
    rw [f4 y (by have := (hsrc y hy).2; omega)]
    exact hold3 y hy
  · intro x hx hx2
    simp only [Tree.addrs_node, List.mem_append, List.mem_cons] at hx
    rcases hx with hx | rfl | hx
    · have := e5 x hx; have := (hsrc x hx2).2; omega
    · exact hdisj hx2
    · have := f5 x hx; have := (hsrc x hx2).2; omega

/-- The fallback of `operator=`: the destination is cleared and the source cloned. -/
theorem assignFallback_spec {h : Heap α} {bd bs : BST} {td ts : Tree α}
    (wd : WF h bd td) (ws : WF h bs ts)
    (hdisj : ∀ x ∈ td.addrs, x ∉ ts.addrs) {sa : Nat} (hsa : ts.ptr = some sa)
    {fuel : Nat} (hf : td.size + ts.size ≤ fuel) :
    ∃ h1 b1, assignFallback h fuel bd sa ts.size = some (h1, b1) ∧ IsCopy h1 b1 bs ts := by
  obtain ⟨h1, e1, e2, e3, e4⟩ := clear_spec wd (by omega : td.size ≤ fuel)
  have hs1 : Rep h1 ts none := ws.rep.congr (fun y hy => e3 y (fun hx => hdisj y hx hy))
  obtain ⟨h2, t1, f1, f2, f3, f4, f5, f6, f7, f8⟩ := clone_spec hs1 e2.fresh
    (by omega : ts.size ≤ fuel) none
  rw [hsa] at f1
  refine ⟨h2, ⟨t1.ptr, ts.size⟩, by simp [assignFallback, e1, f1], t1,
    ⟨f8, rfl, f2, f6, (Tree.skeleton_size f3).symm⟩, f3, ws.transfer f8 ?_, ?_⟩
  · intro y hy
    rw [f4 y (by rw [e4]; exact ws.addr_lt_next hy)]
    exact e3 y (fun hx => hdisj y hx hy)
  · intro x hx hx2
    have := f5 x hx
    have := ws.addr_lt_next hx2
    omega

end custom

namespace custom

variable {α : Type}

theorem Tree.size_eq_zero {t : Tree α} : t.size = 0 ↔ t = .nil := by
  cases t <;> simp

/-- Function `operator=` outside the equal-count case: the destination becomes a copy of the
source. -/
theorem assign_spec {h : Heap α} {bd bs : BST} {td ts : Tree α}
    (wd : WF h bd td) (ws : WF h bs ts) (hdisj : ∀ x ∈ td.addrs, x ∉ ts.addrs)
    (hcase : ¬(td.size = ts.size ∧ 2 ≤ td.size)) {fuel : Nat}
    (hf : td.size + ts.size ≤ fuel) :
    ∃ h1 b1, bd.assign h fuel bs false = some (h1, b1) ∧ IsCopy h1 b1 bs ts := by
  cases ts with
  | nil =>
    obtain ⟨h1, e1, e2, e3, e4⟩ := clear_spec wd (by omega : td.size ≤ fuel)
    refine ⟨h1, _, by simp [BST.assign, ws.root, e1], .nil, e2, rfl, ws.transfer e2.fresh ?_, ?_⟩
    · intro a ha; simp at ha
    · intro x hx; simp at hx
  | node sl sa sv sr =>
    have hcount : count h fuel (Tree.node sl sa sv sr).ptr = some (Tree.node sl sa sv sr).size :=
      count_eq ws.rep (by omega)
    simp only [Tree.ptr_node] at hcount
    simp only [BST.assign, ws.root, Tree.ptr_node, hcount, Bool.false_eq_true, if_false]
    by_cases hone : (Tree.node sl sa sv sr).size = 1
    · rw [if_pos hone]
      simp only [Tree.size_node] at hone
      have hl : sl = .nil := Tree.size_eq_zero.mp (by omega)
      have hr : sr = .nil := Tree.size_eq_zero.mp (by omega)
      subst hl hr
      cases td with
      | nil => exact assignCase1_empty wd ws fuel
      | node dl da dv dr => exact assignCase1_node wd ws hdisj (by omega)
    · rw [if_neg hone]
      cases td with
      | nil =>
        simp only [wd.root, Tree.ptr_nil]
        exact assignFallback_spec wd ws hdisj rfl hf
      | node dl da dv dr =>
        have d0 := wd.rep.1
        simp only [wd.root, Tree.ptr_node, d0]
        by_cases hsingle : dl.ptr = none ∧ dr.ptr = none
        · rw [if_pos hsingle]
          have hl : dl = .nil := Tree.ptr_eq_none.mp hsingle.1
          have hr : dr = .nil := Tree.ptr_eq_none.mp hsingle.2
          subst hl hr
          exact assignCase2_spec wd ws (hdisj da (by simp)) (by omega)
        · rw [if_neg hsingle]
          have hsz : 2 ≤ (Tree.node dl da dv dr).size := by
            simp only [Tree.size_node]
            by_contra hlt
            have hl : dl = .nil := Tree.size_eq_zero.mp (by omega)
            have hr : dr = .nil := Tree.size_eq_zero.mp (by omega)
            subst hl hr
            exact hsingle ⟨rfl, rfl⟩
          have hne : bd.numElements ≠ (Tree.node sl sa sv sr).size := by
            rw [wd.count]
            exact fun e => hcase ⟨e, hsz⟩
          rw [if_neg hne]
          exact assignFallback_spec wd ws hdisj rfl hf

end custom

namespace custom

variable {α : Type}

/-! ## Stepping backwards, and positions by index -/

/-- Function `operator--` on an iterator at a node of a well-formed graph gives the previous
node in in-order, or the none iterator at the first node. -/
theorem decrement_eq {h : Heap α} {c : Ctx α} {l r : Tree α} {z : Nat} {v : α} {fuel : Nat}
    (hr : Rep h (plug c (.node l z v r)) none)
    (hn : (plug c (.node l z v r)).addrs.Nodup)
    (hf : (plug c (.node l z v r)).size ≤ fuel) :
    decrement h fuel (some z) = some (((c.before ++ l.entries).map Prod.fst).getLast?) := by
  obtain ⟨hs, hc⟩ := (@rep_plug _ _ _ _ (plug c (.node l z v r)).ptr _).mp ⟨hr, rfl⟩
  obtain ⟨h0, hl, hrr⟩ := hs
  obtain ⟨n1, n2, n3⟩ := nodup_plug.mp hn
  rw [size_plug] at hf
  simp only [decrement, h0]
  cases l with
  | nil =>
    simp only [Tree.ptr_nil, Tree.entries_nil, List.append_nil]
    exact climbFromLeft_eq hc (n3 z (by simp)) n2 (by have := c.length_le; omega)
  | node ll la lv lr =>
    simp only [Tree.ptr_node]
    rw [rightmost_eq hl rfl (by simp at hf ⊢; omega)]
    have hne : (Tree.node ll la lv lr).addrs ≠ [] := by simp
    rw [List.map_append, Tree.map_fst_entries, List.getLast?_append_of_ne_nil _ hne]
    cases hx : (Tree.node ll la lv lr).addrs.getLast? with
    | none => simp [List.getLast?_eq_none_iff] at hx
    | some x => rfl

/-- Function `operator--` at a node gives the node that precedes it in the traversal, or the
none iterator. -/
theorem decrement_of_entries {h : Heap α} {t : Tree α} (hr : Rep h t none)
    (hn : t.addrs.Nodup) {xs ys : List (Nat × α)} {z : Nat} {v : α}
    (he : t.entries = xs ++ (z, v) :: ys) {fuel : Nat} (hf : t.size ≤ fuel) :
    decrement h fuel (some z) = some ((xs.map Prod.fst).getLast?) := by
  have hmem : z ∈ t.addrs := List.mem_map.mpr ⟨(z, v), by rw [he]; simp, rfl⟩
  obtain ⟨c, l, w, r, et⟩ := exists_plug_of_mem hmem
  subst et
  obtain ⟨e1, -, -⟩ := split_of_plug hn he
  rw [decrement_eq hr hn hf, e1]

theorem Tree.addrs_getElem (t : Tree α) {i : Nat} (hi : i < t.entries.length) :
    t.addrs[i]? = some (t.entries[i]).1 := by
  simp [Tree.addrs, List.getElem?_map, List.getElem?_eq_getElem hi]

theorem Tree.entries_split_pair (t : Tree α) {k : Nat} (hk : k < t.entries.length) :
    t.entries = t.entries.take k ++ ((t.entries[k]).1, (t.entries[k]).2) ::
      t.entries.drop (k + 1) := t.entries_split hk

/-- Function `operator++` by index: from position `i` of the in-order node list to position
`i + 1`, which is the end iterator past the last node. -/
theorem increment_index {h : Heap α} {t : Tree α} (hr : Rep h t none) (hn : t.addrs.Nodup)
    {fuel : Nat} (hf : t.size ≤ fuel) (i : Nat) :
    increment h fuel (t.addrs[i]?) = some (t.addrs[i + 1]?) := by
  by_cases hi : i < t.entries.length
  · rw [t.addrs_getElem hi, increment_of_entries hr hn (t.entries_split_pair hi) hf]
    rw [List.map_drop, Tree.map_fst_entries, List.head?_drop]
  · have h1 : t.addrs[i]? = none := List.getElem?_eq_none (by simp [Tree.addrs]; omega)
    have h2 : t.addrs[i + 1]? = none := List.getElem?_eq_none (by simp [Tree.addrs]; omega)
    rw [h1, h2]; rfl

/-- Function `operator--` by index: from position `i + 1` of the in-order node list to
position `i`, and from the first position to the none iterator. -/
theorem decrement_index {h : Heap α} {t : Tree α} (hr : Rep h t none) (hn : t.addrs.Nodup)
    {fuel : Nat} (hf : t.size ≤ fuel) :
    (∀ i, i + 1 < t.size → decrement h fuel (t.addrs[i + 1]?) = some (t.addrs[i]?)) ∧
    (0 < t.size → decrement h fuel (t.addrs[0]?) = some none) := by
  constructor
  · intro i hi
    have hi1 : i + 1 < t.entries.length := by rw [Tree.length_entries]; exact hi
    have hi0 : i < t.entries.length := by omega
    rw [t.addrs_getElem hi1, decrement_of_entries hr hn (t.entries_split_pair hi1) hf,
      t.addrs_getElem hi0]
    congr 1
    rw [List.map_take, List.getLast?_take]
    simp [List.getElem?_map, List.getElem?_eq_getElem hi0]
  · intro hpos
    have hi0 : 0 < t.entries.length := by rw [Tree.length_entries]; exact hpos
    rw [t.addrs_getElem hi0, decrement_of_entries hr hn (t.entries_split_pair hi0) hf]
    simp

/-- Advancing `j` times from `begin()` reaches position `j` of the in-order node list. -/
theorem advance_begin {h : Heap α} {b : BST} {t : Tree α} (w : WF h b t) {fuel : Nat}
    (hf : t.size ≤ fuel) (j : Nat) :
    ∃ first, b.begin h fuel = some first ∧ advance h fuel j first = some (t.addrs[j]?) := by
  refine ⟨_, begin_eq w hf, ?_⟩
  have := advance_eq w.rep w.nodup hf j 0
  simp only [List.drop_zero, zero_add] at this
  rw [this, List.head?_drop]

end custom

namespace custom

variable {α : Type}

/-! ## The ordering invariant under erase -/

theorem inorder_plug (c : Ctx α) (s : Tree α) :
    (plug c s).inorder = c.before.map Prod.snd ++ s.inorder ++ c.after.map Prod.snd := by
  simp [Tree.inorder, entries_plug]

theorem Ordered.plug_parts [LinearOrder α] {c : Ctx α} {s : Tree α} (ho : Ordered (plug c s)) :
    Ordered s := by
  induction c generalizing s with
  | nil => exact ho
  | cons f c ih =>
    cases f with
    | left a v r => exact (ih ho).1
    | right l a v => exact (ih ho).2.1

/-- Replacing the graph in the hole by an ordered graph that holds no new value keeps the
ordering invariant. -/
theorem Ordered.plug_subset [LinearOrder α] {c : Ctx α} {s s1 : Tree α}
    (ho : Ordered (plug c s)) (h1 : Ordered s1) (hsub : ∀ x ∈ s1.inorder, x ∈ s.inorder) :
    Ordered (plug c s1) := by
  induction c generalizing s s1 with
  | nil => exact h1
  | cons f c ih =>
    cases f with
    | left a v r =>
      obtain ⟨-, o2, o3, o4⟩ := Ordered.plug_parts (c := c) ho
      refine ih ho ⟨h1, o2, fun x hx => o3 x (hsub x hx), o4⟩ ?_
      intro x hx
      simp only [Tree.inorder_node, List.mem_append, List.mem_cons] at hx ⊢
      rcases hx with hx | hx | hx
      · exact Or.inl (hsub x hx)
      · exact Or.inr (Or.inl hx)
      · exact Or.inr (Or.inr hx)
    | right l a v =>
      obtain ⟨o1, -, o3, o4⟩ := Ordered.plug_parts (c := c) ho
      refine ih ho ⟨o1, h1, o3, fun x hx => o4 x (hsub x hx)⟩ ?_
      intro x hx
      simp only [Tree.inorder_node, List.mem_append, List.mem_cons] at hx ⊢
      rcases hx with hx | hx | hx
      · exact Or.inl hx
      · exact Or.inr (Or.inl hx)
      · exact Or.inr (Or.inr (hsub x hx))

/-- The graph left by `erase` satisfies the ordering invariant if the graph before did. -/
theorem Erased.ordered [LinearOrder α] {c : Ctx α} {l r t1 : Tree α} {z : Nat} {v : α}
    (he : Erased c l r t1) (ho : Ordered (plug c (.node l z v r))) : Ordered t1 := by
  obtain ⟨o1, o2, o3, o4⟩ := Ordered.plug_parts ho
  rcases he with ⟨-, rfl⟩ | ⟨-, -, rfl⟩ | ⟨-, cr, s, sv, sr, er, hall, rfl⟩
  · exact ho.plug_subset o2 (fun x hx => by simp [hx])
  · exact ho.plug_subset o1 (fun x hx => by simp [hx])
  · have hrin : r.inorder = sv :: (plug cr sr).inorder := by
      rw [er, inorder_plug, inorder_plug, Ctx.before_of_allLeft hall]; simp
    have hsorted := o2.sorted
    rw [hrin] at hsorted o4
    have hmin : ∀ x ∈ (plug cr sr).inorder, sv ≤ x := (List.sorted_cons.mp hsorted).1
    have hvs : v ≤ sv := o4 sv (by simp)
    have hor1 : Ordered (plug cr sr) := by
      rw [er] at o2
      have hsr : Ordered sr := (Ordered.plug_parts o2).2.1
      exact o2.plug_subset hsr (fun x hx => by simp [hx])
    refine ho.plug_subset ⟨o1, hor1, fun x hx => lt_of_lt_of_le (o3 x hx) hvs, hmin⟩ ?_
    intro x hx
    simp only [Tree.inorder_node, List.mem_append, List.mem_cons] at hx ⊢
    rw [hrin]
    simp only [List.mem_cons]
    tauto

/-- Function `erase` at a node given by its place in the traversal, with the ordering
invariant. -/
theorem erase_ordered [LinearOrder α] {h : Heap α} {b : BST} {t : Tree α} (w : WF h b t)
    (ho : Ordered t) {xs ys : List (Nat × α)} {z : Nat} {v : α}
    (he : t.entries = xs ++ (z, v) :: ys) {fuel : Nat} (hf : t.size ≤ fuel) :
    ∃ h1 b1 t1, b.erase h fuel (some z) = some (h1, b1, (ys.map Prod.fst).head?) ∧
      WF h1 b1 t1 ∧ Ordered t1 ∧ t1.entries = xs ++ ys := by
  have hmem : z ∈ t.addrs := List.mem_map.mpr ⟨(z, v), by rw [he]; simp, rfl⟩
  obtain ⟨c, l, v1, r, et⟩ := exists_plug_of_mem hmem
  subst et
  obtain ⟨s1, -, s3⟩ := split_of_plug w.nodup he
  obtain ⟨h1, t1, e1, e2, e3, -, -, -, e7⟩ := erase_shape w hf
  exact ⟨h1, _, t1, by rw [s3]; exact e1, e2, e7.ordered ho, by rw [e3, s1, s3]; simp⟩

/-! ## The graph is determined by the store -/

/-- The store holds at most one graph below a given pointer. -/
theorem Rep.unique {h : Heap α} {t t1 : Tree α} {p p1 : Ptr} (hr : Rep h t p)
    (hr1 : Rep h t1 p1) (hp : t.ptr = t1.ptr) : t = t1 := by
  induction t generalizing t1 p p1 with
  | nil =>
    cases t1 with
    | nil => rfl
    | node l a v r => simp at hp
  | node l a v r ihl ihr =>
    cases t1 with
    | nil => simp at hp
    | node l1 a1 v1 r1 =>
      simp only [Tree.ptr_node, Option.some.injEq] at hp
      subst hp
      obtain ⟨h0, hl, hrr⟩ := hr
      obtain ⟨g0, gl, grr⟩ := hr1
      rw [h0] at g0
      simp only [Option.some.injEq, BNode.mk.injEq] at g0
      obtain ⟨rfl, e2, e3, -⟩ := g0
      rw [ihl hl gl e2, ihr hrr grr e3]

theorem WF.tree_unique {h : Heap α} {b : BST} {t t1 : Tree α} (w : WF h b t) (w1 : WF h b t1) :
    t = t1 :=
  w.rep.unique w1.rep (by rw [← w.root, ← w1.root])

/-! ## Parent back-references -/

theorem Rep.child_parent {h : Heap α} {t : Tree α} {p : Ptr} (hr : Rep h t p) {a : Nat}
    (ha : a ∈ t.addrs) {n : BNode α} (hn : h.cells a = some n) {c : Nat}
    (hc : n.pLeft = some c ∨ n.pRight = some c) :
    c ∈ t.addrs ∧ ∃ nc, h.cells c = some nc ∧ nc.pParent = some a := by
  induction t generalizing p with
  | nil => simp at ha
  | node l b v r ihl ihr =>
    obtain ⟨h0, hl, hrr⟩ := hr
    simp only [Tree.addrs_node, List.mem_append, List.mem_cons] at ha ⊢
    rcases ha with ha | rfl | ha
    · obtain ⟨e1, e2⟩ := ihl hl ha
      exact ⟨Or.inl e1, e2⟩
    · rw [h0] at hn
      simp only [Option.some.injEq] at hn
      subst hn
      rcases hc with hc | hc
      · cases l with
        | nil => simp at hc
        | node ll la lv lr =>
          simp only [Tree.ptr_node, Option.some.injEq] at hc
          subst hc
          exact ⟨Or.inl (by simp), _, hl.1, rfl⟩
      · cases r with
        | nil => simp at hc
        | node rl ra rv rr =>
          simp only [Tree.ptr_node, Option.some.injEq] at hc
          subst hc
          exact ⟨Or.inr (Or.inr (by simp)), _, hrr.1, rfl⟩
    · obtain ⟨e1, e2⟩ := ihr hrr ha
      exact ⟨Or.inr (Or.inr e1), e2⟩

theorem Rep.parent_child {h : Heap α} {t : Tree α} {p : Ptr} (hr : Rep h t p) {a : Nat}
    (ha : a ∈ t.addrs) (hne : some a ≠ t.ptr) :
    ∃ q ∈ t.addrs, ∃ na nq, h.cells a = some na ∧ na.pParent = some q ∧
      h.cells q = some nq ∧ (nq.pLeft = some a ∨ nq.pRight = some a) := by
  induction t generalizing p with
  | nil => simp at ha
  | node l b v r ihl ihr =>
    obtain ⟨h0, hl, hrr⟩ := hr
    simp only [Tree.addrs_node, List.mem_append, List.mem_cons] at ha
    simp only [Tree.ptr_node] at hne
    rcases ha with ha | rfl | ha
    · by_cases hroot : some a = l.ptr
      · cases l with
        | nil => simp at ha
        | node ll la lv lr =>
          simp only [Tree.ptr_node, Option.some.injEq] at hroot
          subst hroot
          exact ⟨b, by simp, _, _, hl.1, rfl, h0, Or.inl rfl⟩
      · obtain ⟨q, e1, e2⟩ := ihl hl ha hroot
        exact ⟨q, by simp [e1], e2⟩
    · exact absurd rfl hne
    · by_cases hroot : some a = r.ptr
      · cases r with
        | nil => simp at ha
        | node rl ra rv rr =>
          simp only [Tree.ptr_node, Option.some.injEq] at hroot
          subst hroot
          exact ⟨b, by simp, _, _, hrr.1, rfl, h0, Or.inr rfl⟩
      · obtain ⟨q, e1, e2⟩ := ihr hrr ha hroot
        exact ⟨q, by simp [e1], e2⟩

/-- A well-formed tree satisfies the parent back-reference invariant. -/
theorem WF.parentLinked {h : Heap α} {b : BST} {t : Tree α} (w : WF h b t) :
    ParentLinked h b t.addrs := by
  refine ⟨?_, ?_, ?_⟩
  · intro r hr
    rw [w.root] at hr
    cases t with
    | nil => simp at hr
    | node l a v rr =>
      simp only [Tree.ptr_node, Option.some.injEq] at hr
      subst hr
      exact ⟨_, w.rep.1, rfl⟩
  · intro a ha n hn c hc
    exact w.rep.child_parent ha hn hc
  · intro a ha hne
    rw [w.root] at hne
    exact w.rep.parent_child ha hne

theorem WF.countInv {h : Heap α} {b : BST} {t : Tree α} (w : WF h b t) : b.CountInv := by
  unfold BST.CountInv
  rw [w.count, w.root, Tree.size_eq_zero, Tree.ptr_eq_none]

end custom

namespace custom

variable {α : Type}

/-! ## The equal-count case of copy-assignment -/

@[simp] theorem Tree.overlay_ptr (t s : Tree α) : (t.overlay s).ptr = t.ptr := by
  cases t with
  | nil => rfl
  | node l a v r => cases s <;> rfl

@[simp] theorem Tree.overlay_addrs (t s : Tree α) : (t.overlay s).addrs = t.addrs := by
  induction t generalizing s with
  | nil => rfl
  | node l a v r ihl ihr =>
    cases s with
    | nil => rfl
    | node sl sa sv sr => simp [Tree.overlay, ihl, ihr]

@[simp] theorem Tree.overlay_size (t s : Tree α) : (t.overlay s).size = t.size := by
  rw [← Tree.length_addrs, Tree.overlay_addrs, Tree.length_addrs]

/-- Function `assignShape` writes the values of the source along the paths the two graphs
share; it changes no link and touches no node outside the destination. -/
theorem assignShape_spec {h : Heap α} {td ts : Tree α} {pd ps : Ptr} (hd : Rep h td pd)
    (hs : Rep h ts ps) (hn : td.addrs.Nodup) (hdisj : ∀ x ∈ td.addrs, x ∉ ts.addrs)
    {fuel : Nat} (hf : td.size ≤ fuel) :
    ∃ h1, assignShape fuel h td.ptr ts.ptr = some h1 ∧ Rep h1 (td.overlay ts) pd ∧
      (∀ y, y ∉ td.addrs → h1.cells y = h.cells y) ∧ h1.next = h.next := by
  induction td generalizing h ts pd ps fuel with
  | nil => exact ⟨h, by cases fuel <;> simp [assignShape], trivial, fun _ _ => rfl, rfl⟩
  | node l a v r ihl ihr =>
    cases ts with
    | nil => exact ⟨h, by cases fuel <;> simp [assignShape], hd, fun _ _ => rfl, rfl⟩
    | node sl sa sv sr =>
      obtain ⟨d0, dl, dr⟩ := hd
      obtain ⟨s0, hsl, hsr⟩ := hs
      simp only [Tree.addrs_node] at hn
      have hn' := List.nodup_append.mp hn
      have hal : a ∉ l.addrs := fun hx => hn'.2.2 hx (by simp)
      have har : a ∉ r.addrs := (List.nodup_cons.mp hn'.2.1).1
      have hsrc : ∀ y ∈ (Tree.node sl sa sv sr).addrs, y ∉ (Tree.node l a v r).addrs :=
        fun y hy hx => hdisj y hx hy
      have hsa : sa ≠ a := fun e => hsrc sa (by simp) (by simp [e])
      cases fuel with
      | zero => simp at hf
      | succ fuel =>
        simp only [Tree.size_node] at hf
        let h1 : Heap α := h.write a ⟨sv, l.ptr, r.ptr, pd⟩
        have h1a : h1.cells a = some ⟨sv, l.ptr, r.ptr, pd⟩ := by simp [h1]
        have h1c : ∀ y, y ≠ a → h1.cells y = h.cells y := fun y hy => by simp [h1, hy]
        have h1src : ∀ y ∈ (Tree.node sl sa sv sr).addrs, h1.cells y = h.cells y :=
          fun y hy => h1c y (fun e => hsrc y hy (by simp [e]))
        have hsl1 : Rep h1 sl (some sa) := hsl.congr (fun y hy => h1src y (by simp [hy]))
        obtain ⟨h2, e1, e2, e3, e4⟩ := ihl (dl.write hal _ : Rep h1 l (some a)) hsl1 hn'.1
          (fun x hx hy => hdisj x (by simp [hx]) (by simp [hy]))
          (by omega : l.size ≤ fuel)
        have h2a : h2.cells a = some ⟨sv, l.ptr, r.ptr, pd⟩ := by rw [e3 a hal, h1a]
        have h2src : ∀ y ∈ (Tree.node sl sa sv sr).addrs, h2.cells y = h.cells y :=
          fun y hy => by
            rw [e3 y (fun hx => hsrc y hy (by simp [hx])), h1src y hy]
        have hr2 : Rep h2 r (some a) := (dr.write har _ : Rep h1 r (some a)).congr
          (fun y hy => e3 y (fun hx => hn'.2.2 hx (List.mem_cons_of_mem _ hy)))
        have hsr2 : Rep h2 sr (some sa) := hsr.congr (fun y hy => h2src y (by simp [hy]))
        obtain ⟨h3, f1, f2, f3, f4⟩ := ihr hr2 hsr2 (List.nodup_cons.mp hn'.2.1).2
          (fun x hx hy => hdisj x (by simp [hx]) (by simp [hy]))
          (by omega : r.size ≤ fuel)
        refine ⟨h3, ?_, ⟨?_, ?_, f2⟩, ?_, by rw [f4, e4]; rfl⟩
        · simp only [Tree.ptr_node, assignShape, s0, setData, d0]
          show (match h1.cells a, h1.cells sa with
            | some nd1, some ns1 => _
            | _, _ => none) = _
          rw [h1a, h1src sa (by simp), s0]
          simp only [e1, h2a, h2src sa (by simp), s0, f1]
        · rw [f3 a har, h2a]; simp
        · refine e2.congr (fun y hy => f3 y ?_)
          rw [Tree.overlay_addrs] at hy
          exact fun hx => hn'.2.2 hy (List.mem_cons_of_mem _ hx)
        · intro y hy
          simp only [Tree.addrs_node, List.mem_append, List.mem_cons, not_or] at hy
          rw [f3 y hy.2.2, e3 y hy.1, h1c y hy.2.1]

/-- Case 3 of `operator=`: the destination keeps its nodes and links and takes the values
of the source along the shared paths. -/
theorem assignCase3_spec {h : Heap α} {bd bs : BST} {td ts : Tree α}
    (wd : WF h bd td) (ws : WF h bs ts) (hdisj : ∀ x ∈ td.addrs, x ∉ ts.addrs)
    {sa : Nat} (hsa : ts.ptr = some sa) {fuel : Nat} (hf : td.size ≤ fuel) :
    ∃ h1, assignCase3 h fuel bd sa = some (h1, bd) ∧ WF h1 bd (td.overlay ts) ∧
      WF h1 bs ts ∧ (∀ y, y ∉ td.addrs → h1.cells y = h.cells y) := by
  obtain ⟨h1, e1, e2, e3, e4⟩ := assignShape_spec wd.rep ws.rep wd.nodup hdisj hf
  have hfr : h1.Fresh := fun y hy => by
    rw [e4] at hy
    rw [e3 y (fun hx => by have := wd.addr_lt_next hx; omega)]
    exact wd.fresh y hy
  refine ⟨h1, ?_, ⟨hfr, by simp [wd.root], e2, by simp [wd.nodup], by simp [wd.count]⟩,
    ws.transfer hfr (fun y hy => e3 y (fun hx => hdisj y hx hy)), e3⟩
  simp only [assignCase3, wd.root, ← hsa, e1]

/-- Function `operator=` always returns, whatever the two trees: the destination is again
well formed, the source is untouched, and the two still share no node. -/
theorem assign_total {h : Heap α} {bd bs : BST} {td ts : Tree α}
    (wd : WF h bd td) (ws : WF h bs ts) (hdisj : ∀ x ∈ td.addrs, x ∉ ts.addrs)
    {fuel : Nat} (hf : td.size + ts.size ≤ fuel) :
    ∃ h1 b1 t1, bd.assign h fuel bs false = some (h1, b1) ∧ WF h1 b1 t1 ∧ WF h1 bs ts ∧
      (∀ x ∈ t1.addrs, x ∉ ts.addrs) ∧ t1.size = ts.size := by
  by_cases hcase : td.size = ts.size ∧ 2 ≤ td.size
  · cases ts with
    | nil => simp at hcase; omega
    | node sl sa sv sr =>
      cases td with
      | nil => simp at hcase
      | node dl da dv dr =>
        have hcount : count h fuel (Tree.node sl sa sv sr).ptr =
            some (Tree.node sl sa sv sr).size := count_eq ws.rep (by omega)
        simp only [Tree.ptr_node] at hcount
        have d0 := wd.rep.1
        have hnot1 : (Tree.node sl sa sv sr).size ≠ 1 := by omega
        have hnotsingle : ¬(dl.ptr = none ∧ dr.ptr = none) := by
          rintro ⟨e1, e2⟩
          rw [Tree.ptr_eq_none.mp e1, Tree.ptr_eq_none.mp e2] at hcase
          simp at hcase
        obtain ⟨h1, e1, e2, e3, -⟩ := assignCase3_spec wd ws hdisj rfl
          (by omega : (Tree.node dl da dv dr).size ≤ fuel)
        refine ⟨h1, bd, _, ?_, e2, e3, ?_, ?_⟩
        · simp only [BST.assign, ws.root, Tree.ptr_node, hcount, Bool.false_eq_true, if_false,
            if_neg hnot1, wd.root, d0, if_neg hnotsingle]
          rw [if_pos (by rw [wd.count]; exact hcase.1)]
          exact e1
        · intro x hx
          rw [Tree.overlay_addrs] at hx
          exact hdisj x hx
        · rw [Tree.overlay_size]; exact hcase.1
  · obtain ⟨h1, b1, e1, t1, w1, s1, ws1, d1⟩ := assign_spec wd ws hdisj hcase hf
    exact ⟨h1, b1, t1, e1, w1, ws1, d1, Tree.skeleton_size s1⟩

/-! ## Move and initializer-list assignment -/

theorem swap_eq (a b : BST) : a.swap b = (b, a) := rfl

/-- Function `operator=(BST &&)`: the destination's nodes are freed, the destination takes
over the source's fields and the source is left empty; the source's nodes are untouched. -/
theorem moveAssign_spec {h : Heap α} {bd bs : BST} {td ts : Tree α}
    (wd : WF h bd td) (ws : WF h bs ts) (hdisj : ∀ x ∈ td.addrs, x ∉ ts.addrs)
    {fuel : Nat} (hf : td.size ≤ fuel) :
    ∃ h1, bd.moveAssign h fuel bs = some (h1, bs, ⟨none, 0⟩) ∧ WF h1 bs ts ∧
      WF h1 ⟨none, 0⟩ .nil ∧ (∀ y ∈ ts.addrs, h1.cells y = h.cells y) ∧
      (∀ y ∈ td.addrs, h1.cells y = none) := by
  obtain ⟨h1, e1, e2, e3, e4⟩ := destroy_spec wd.rep wd.nodup hf
  have hfr : h1.Fresh := fun a ha => by
    rw [e4] at ha
    by_cases hm : a ∈ td.addrs
    · exact e2 a hm
    · rw [e3 a hm]; exact wd.fresh a ha
  have hsrc : ∀ y ∈ ts.addrs, h1.cells y = h.cells y :=
    fun y hy => e3 y (fun hx => hdisj y hx hy)
  refine ⟨h1, ?_, ws.transfer hfr hsrc, ⟨hfr, rfl, trivial, by simp, rfl⟩, hsrc, e2⟩
  simp [BST.moveAssign, BST.clear, wd.root, e1, BST.swap]

/-- Function `operator=(initializer_list)` always returns and leaves a well-formed, ordered
tree. -/
theorem assignList_spec [LinearOrder α] {h : Heap α} {b : BST} {t : Tree α} (w : WF h b t)
    (il : List α) {fuel : Nat} (hf : t.size + il.length ≤ fuel) :
    ∃ h1 b1 t1, b.assignList h fuel il = some (h1, b1) ∧ WF h1 b1 t1 ∧ Ordered t1 := by
  obtain ⟨h1, e1, e2, -, -⟩ := clear_spec w (by omega : t.size ≤ fuel)
  have hlen : (Tree.nil : Tree α).size + (il.map (fun x => (x, false))).length ≤ fuel := by
    simp; omega
  obtain ⟨h2, b2, t2, f1, f2, f3, -⟩ := insertAll_total (il.map (fun x => (x, false))) e2
    (by simp [Ordered]) hlen
  exact ⟨h2, b2, t2, by simp only [BST.assignList, e1, f1], f2, f3⟩

end custom

namespace custom

variable {α : Type}

/-! ## The equal-count case of copy-assignment, node by node -/

theorem setData_links {h h1 : Heap α} {p : Nat} {t : α} (e : setData h p t = some h1) :
    h1.next = h.next ∧ ∀ y, (h1.cells y).map BNode.links = (h.cells y).map BNode.links := by
  unfold setData at e
  cases hc : h.cells p with
  | none => simp [hc] at e
  | some n =>
    simp only [hc, Option.some.injEq] at e
    subst e
    refine ⟨rfl, fun y => ?_⟩
    by_cases hy : y = p
    · subst hy; simp [Heap.write, hc, BNode.links]
    · simp [Heap.write, hy]

/-- Function `assignShape` creates no node, destroys no node and changes no link, whatever
the two pointers are. -/
theorem assignShape_links (fuel : Nat) : ∀ {h h1 : Heap α} {pd ps : Ptr},
    assignShape fuel h pd ps = some h1 →
    h1.next = h.next ∧ ∀ y, (h1.cells y).map BNode.links = (h.cells y).map BNode.links := by
  induction fuel with
  | zero =>
    intro h h1 pd ps e
    cases pd <;> cases ps <;> simp [assignShape] at e <;> subst e <;>
      exact ⟨rfl, fun _ => rfl⟩
  | succ fuel ih =>
    intro h h1 pd ps e
    cases pd with
    | none => simp [assignShape] at e; subst e; exact ⟨rfl, fun _ => rfl⟩
    | some dst =>
      cases ps with
      | none => simp [assignShape] at e; subst e; exact ⟨rfl, fun _ => rfl⟩
      | some src =>
        simp only [assignShape] at e
        cases hs : h.cells src with
        | none => simp [hs] at e
        | some ns =>
          simp only [hs] at e
          cases hsd : setData h dst ns.data with
          | none => simp [hsd] at e
          | some h2 =>
            simp only [hsd] at e
            obtain ⟨n2, c2⟩ := setData_links hsd
            cases hd2 : h2.cells dst with
            | none => simp [hd2] at e
            | some nd1 =>
              cases hs2 : h2.cells src with
              | none => simp [hd2, hs2] at e
              | some ns1 =>
                simp only [hd2, hs2] at e
                cases ha : assignShape fuel h2 nd1.pLeft ns1.pLeft with
                | none => simp [ha] at e
                | some h3 =>
                  simp only [ha] at e
                  obtain ⟨n3, c3⟩ := ih ha
                  cases hd3 : h3.cells dst with
                  | none => simp [hd3] at e
                  | some nd2 =>
                    cases hs3 : h3.cells src with
                    | none => simp [hd3, hs3] at e
                    | some ns2 =>
                      simp only [hd3, hs3] at e
                      obtain ⟨n4, c4⟩ := ih e
                      exact ⟨by rw [n4, n3, n2], fun y => by rw [c4, c3, c2]⟩

theorem Tree.overlay_shape (t s : Tree α) : (t.overlay s).shape = t.shape := by
  induction t generalizing s with
  | nil => rfl
  | node l a v r ihl ihr =>
    cases s with
    | nil => rfl
    | node sl sa sv sr => simp [Tree.overlay, Tree.shape, ihl, ihr]

theorem Tree.overlay_nodeAt (t s : Tree α) (path : List Bool) {a : Nat} {v : α}
    (e : t.nodeAt path = some (a, v)) :
    (t.overlay s).nodeAt path = some (a, ((s.nodeAt path).map Prod.snd).getD v) := by
  induction t generalizing s path with
  | nil => simp [Tree.nodeAt] at e
  | node l b w r ihl ihr =>
    cases s with
    | nil => simpa [Tree.overlay, Tree.nodeAt] using e
    | node sl sa sv sr =>
      cases path with
      | nil =>
        simp only [Tree.nodeAt, Option.some.injEq, Prod.mk.injEq] at e
        simp [Tree.overlay, Tree.nodeAt, e.1]
      | cons d path =>
        cases d with
        | false => simpa [Tree.overlay, Tree.nodeAt] using ihl sl path e
        | true => simpa [Tree.overlay, Tree.nodeAt] using ihr sr path e

theorem Tree.overlay_skeleton {t s : Tree α} (hs : t.shape = s.shape) :
    (t.overlay s).skeleton = s.skeleton := by
  induction t generalizing s with
  | nil => cases s <;> simp [Tree.shape] at hs ⊢; rfl
  | node l a v r ihl ihr =>
    cases s with
    | nil => simp [Tree.shape] at hs
    | node sl sa sv sr =>
      simp only [Tree.shape, Tree.node.injEq, true_and, and_true] at hs
      simp [Tree.overlay, Tree.skeleton, ihl hs.1, ihr hs.2]

theorem Rep.cell_nodeAt {h : Heap α} {t : Tree α} {p : Ptr} (hr : Rep h t p) {path : List Bool}
    {a : Nat} {v : α} (e : t.nodeAt path = some (a, v)) :
    ∃ n, h.cells a = some n ∧ n.data = v := by
  induction t generalizing p path with
  | nil => simp [Tree.nodeAt] at e
  | node l b w r ihl ihr =>
    obtain ⟨h0, hl, hrr⟩ := hr
    cases path with
    | nil =>
      simp only [Tree.nodeAt, Option.some.injEq, Prod.mk.injEq] at e
      obtain ⟨rfl, rfl⟩ := e
      exact ⟨_, h0, rfl⟩
    | cons d path =>
      cases d with
      | false => exact ihl hl e
      | true => exact ihr hrr e

/-- Function `operator=` on two trees with the same count of two or more nodes: case 3 is
taken; the destination object, its nodes and its links stay as they are, and its graph is
the overlay of the source on the destination. -/
theorem assign_equal_count {h : Heap α} {bd bs : BST} {td ts : Tree α}
    (wd : WF h bd td) (ws : WF h bs ts) (hdisj : ∀ x ∈ td.addrs, x ∉ ts.addrs)
    (hsz : td.size = ts.size) (h2 : 2 ≤ td.size) {fuel : Nat} (hf : td.size ≤ fuel) :
    ∃ h1, bd.assign h fuel bs false = some (h1, bd) ∧ WF h1 bd (td.overlay ts) ∧
      WF h1 bs ts ∧ (∀ y, y ∉ td.addrs → h1.cells y = h.cells y) ∧ h1.next = h.next ∧
      ∀ y, (h1.cells y).map BNode.links = (h.cells y).map BNode.links := by
  cases ts with
  | nil => simp at hsz; omega
  | node sl sa sv sr =>
    cases td with
    | nil => simp at h2
    | node dl da dv dr =>
      have hcount : count h fuel (Tree.node sl sa sv sr).ptr =
          some (Tree.node sl sa sv sr).size := count_eq ws.rep (by omega)
      simp only [Tree.ptr_node] at hcount
      have d0 := wd.rep.1
      have hnot1 : (Tree.node sl sa sv sr).size ≠ 1 := by omega
      have hnotsingle : ¬(dl.ptr = none ∧ dr.ptr = none) := by
        rintro ⟨e1, e2⟩
        rw [Tree.ptr_eq_none.mp e1, Tree.ptr_eq_none.mp e2] at h2
        simp at h2
      obtain ⟨h1, e1, e2, e3, e4⟩ := assignCase3_spec wd ws hdisj rfl hf
      have hlinks : h1.next = h.next ∧
          ∀ y, (h1.cells y).map BNode.links = (h.cells y).map BNode.links := by
        unfold assignCase3 at e1
        cases ha : assignShape fuel h bd.root (some sa) with
        | none => simp [ha] at e1
        | some h3 =>
          simp only [ha, Option.some.injEq, Prod.mk.injEq, and_true] at e1
          subst e1
          exact assignShape_links fuel ha
      refine ⟨h1, ?_, e2, e3, e4, hlinks.1, hlinks.2⟩
      simp only [BST.assign, ws.root, Tree.ptr_node, hcount, Bool.false_eq_true, if_false,
        if_neg hnot1, wd.root, d0, if_neg hnotsingle]
      rw [if_pos (by rw [wd.count]; exact hsz)]
      exact e1

end custom

namespace custom

variable {α : Type}

/-! ## The concrete tree is well formed -/

/-- The tree built from 5, 3, 8, 1, 4 is well formed. -/
theorem exampleTree_wf : WF exampleHeap exampleBST exampleTree := by
  refine ⟨?_, rfl, ?_, by decide, rfl⟩
  · intro a ha
    simp only [exampleHeap] at ha ⊢
    match a, ha with
    | n + 5, _ => rfl
  · simp [exampleTree, Rep, exampleHeap]

/-- Inserting 5, 3, 8, 1, 4 into an empty tree gives the tree object `exampleBST` and a
store that agrees with `exampleHeap` (checked on every address up to `next`). -/
theorem exampleHeap_built :
    ∃ h b, insertAll 10 [((5 : Int), false), (3, false), (8, false), (1, false), (4, false)]
        (Heap.empty, BST.new) = some (h, b) ∧
      b = exampleBST ∧ h.next = exampleHeap.next ∧
      ∀ a < 6, h.cells a = exampleHeap.cells a :=
  ⟨_, _, rfl, by decide, by decide, by decide⟩

/-- The tree built from 5, 3, 8, 1, 4 satisfies the ordering invariant. -/
theorem exampleTree_ordered : Ordered exampleTree := by
  simp [exampleTree, Ordered]

/-! ## Claims -/

/-- C1: for every finite sequence of `insert` calls (any values, any `keepUnique` flags)
applied to an initially empty tree, every call returns, and the values visited by stepping
an iterator from `begin()` with `++` until it equals `end()` are in non-decreasing order;
inserting 5, 3, 8, 1, 4 gives [1, 3, 4, 5, 8]. -/
theorem insert_sequence_traversal_sorted :
    (∀ (β : Type) [LinearOrder β] (calls : List (β × Bool)) (k : Nat),
      ∃ h b vals, insertAll (2 * calls.length + k) calls (Heap.empty, BST.new) = some (h, b) ∧
        b.toList h (2 * calls.length + k) = some vals ∧ vals.Sorted (· ≤ ·)) ∧
    (∃ h b, insertAll 10 [((5 : Int), false), (3, false), (8, false), (1, false), (4, false)]
        (Heap.empty, BST.new) = some (h, b) ∧ b.toList h 10 = some [1, 3, 4, 5, 8]) := by
  constructor
  · intro β _ calls k
    have hfuel : (Tree.nil : Tree β).size + calls.length ≤ 2 * calls.length + k := by
      simp; omega
    obtain ⟨h, b, t, e1, w, ho, hs⟩ := insertAll_total calls (@WF.new β)
      (by simp [Ordered]) hfuel
    simp only [Tree.size_nil, zero_add] at hs
    exact ⟨h, b, t.inorder, e1, toList_eq w (by omega), ho.sorted⟩
  · exact ⟨_, _, rfl, by decide⟩

/-- C2: on a well-formed, ordered tree `insert` returns; and if it returns
`inserted == true` then exactly one node is added: the traversal afterwards is the
traversal before (`xs ++ ys`, same nodes, same values, same order) with the new node
holding `x` placed after every element `≤ x` and before every element `> x`; the returned
iterator references the new node, which was not live before and holds `x`. -/
theorem insert_true_adds_one_node [LinearOrder α] (h : Heap α) (b : BST) (t : Tree α)
    (w : WF h b t) (ho : Ordered t) (x : α) (keepUnique : Bool) (fuel : Nat)
    (hf : 2 * t.size + 2 ≤ fuel) :
    (∃ res, b.insert h fuel x keepUnique = some res) ∧
    ∀ h1 b1 it, b.insert h fuel x keepUnique = some (h1, b1, it, true) →
      ∃ n xs ys, it = some n ∧ h.cells n = none ∧ deref h1 it = some x ∧
        b.traverse h fuel = some (xs ++ ys) ∧
        b1.traverse h1 fuel = some (xs ++ (n, x) :: ys) ∧
        (∀ e ∈ xs, e.2 ≤ x) ∧ (∀ e ∈ ys, x < e.2) ∧ b1.size = b.size + 1 := by
  have hf1 : t.size ≤ fuel := by omega
  cases hd : t.descend keepUnique x none false with
  | found c =>
    have e := insert_found w hf1 hd
    refine ⟨⟨_, e⟩, ?_⟩
    intro h1 b1 it hi
    rw [e] at hi
    simp at hi
  | slot q wl =>
    obtain ⟨h2, e1, e2, e3, e4⟩ := insert_slot w hf1 hd
    refine ⟨⟨_, e1⟩, ?_⟩
    intro h1 b1 it hi
    rw [e1] at hi
    simp only [Option.some.injEq, Prod.mk.injEq, and_true] at hi
    obtain ⟨rfl, rfl, rfl⟩ := hi
    obtain ⟨xs, ys, s1, s2, s3⟩ := Tree.ins_entries h.next hd
    have hsz := Tree.ins_size h.next hd
    refine ⟨h.next, xs, ys, rfl, w.fresh _ (le_refl _), ?_, ?_, ?_, (s3 ho).1, (s3 ho).2, rfl⟩
    · have hmem : (h.next, x) ∈ (t.ins keepUnique x h.next).entries := by rw [s2]; simp
      obtain ⟨n, c1, c2⟩ := e2.rep.data hmem
      simp [deref, c1, c2]
    · rw [traverse_eq w (by omega), s1]
    · rw [traverse_eq e2 (by omega), s2]

/-- C2 at a concrete input: inserting a second 4 into the tree built from 5, 3, 8, 1, 4. -/
theorem insert_true_adds_one_node_witness :
    ∃ h1 b1 n xs ys, exampleBST.insert exampleHeap 12 (4 : Int) false =
        some (h1, b1, some n, true) ∧
      exampleHeap.cells n = none ∧ deref h1 (some n) = some 4 ∧
      exampleBST.traverse exampleHeap 12 = some (xs ++ ys) ∧
      b1.traverse h1 12 = some (xs ++ (n, 4) :: ys) ∧
      (∀ e ∈ xs, e.2 ≤ 4) ∧ (∀ e ∈ ys, 4 < e.2) ∧ b1.size = exampleBST.size + 1 := by
  obtain ⟨⟨⟨h1, b1, it, ok⟩, hres⟩, hall⟩ := insert_true_adds_one_node exampleHeap exampleBST
    exampleTree exampleTree_wf exampleTree_ordered 4 false 12 (by decide)
  have hok : (exampleBST.insert exampleHeap 12 (4 : Int) false).map (fun r => r.2.2.2) =
      some true := by decide
  rw [hres] at hok
  simp only [Option.map_some', Option.some.injEq] at hok
  subst hok
  obtain ⟨n, xs, ys, e1, e2⟩ := hall h1 b1 it hres
  subst e1
  exact ⟨h1, b1, n, xs, ys, hres, e2⟩

/-- C7: on a well-formed, ordered tree, `insert(x, keepUnique = true)` of a value `x` that
some node holds returns `(it, false)` where `it` references a node whose value equals `x`,
and leaves the store and the tree object exactly as they were (same nodes, same links, same
values, same `size()`). -/
theorem insert_keepUnique_present [LinearOrder α] (h : Heap α) (b : BST) (t : Tree α)
    (w : WF h b t) (ho : Ordered t) (x : α) (fuel : Nat) (hf : 2 * t.size ≤ fuel)
    (vals : List α) (hv : b.toList h fuel = some vals) (hx : x ∈ vals) :
    ∃ c, b.insert h fuel x true = some (h, b, some c, false) ∧
      deref h (some c) = some x := by
  rw [toList_eq w hf] at hv
  simp only [Option.some.injEq] at hv
  subst hv
  obtain ⟨c, e1, e2⟩ := Tree.descend_found ho hx none false
  obtain ⟨n, c1, c2⟩ := w.rep.data e2
  exact ⟨c, insert_found w (by omega) e1, by simp [deref, c1, c2]⟩

/-- C7 at a concrete input: inserting 4 with `keepUnique` into the tree built from
5, 3, 8, 1, 4. -/
theorem insert_keepUnique_present_witness :
    ∃ c, exampleBST.insert exampleHeap 10 (4 : Int) true =
        some (exampleHeap, exampleBST, some c, false) ∧
      deref exampleHeap (some c) = some 4 :=
  insert_keepUnique_present exampleHeap exampleBST exampleTree exampleTree_wf
    exampleTree_ordered 4 10 (by decide) [1, 3, 4, 5, 8] (by decide) (by decide)

/-- C8: on a well-formed, ordered tree, `insert(x, keepUnique = false)` of a value `x` that
some node holds returns `inserted == true` and increases `size()` by exactly one; the new
node lies in the right subtree of the node `f` at which the search from the root first
meets a value equal to `x` (the node `find(x)` returns): the graph afterwards is the graph
before with only the right subtree `r` of `f` replaced by a graph `r1` that holds the new
node. -/
theorem insert_duplicate_right_subtree [LinearOrder α] (h : Heap α) (b : BST) (t : Tree α)
    (w : WF h b t) (ho : Ordered t) (x : α) (fuel : Nat) (hf : 2 * t.size ≤ fuel)
    (vals : List α) (hv : b.toList h fuel = some vals) (hx : x ∈ vals) :
    ∃ h1 b1 n f c l r r1, b.insert h fuel x false = some (h1, b1, some n, true) ∧
      b1.size = b.size + 1 ∧ b.find h fuel x = some (some f) ∧
      t = plug c (.node l f x r) ∧ WF h1 b1 (plug c (.node l f x r1)) ∧
      n ∈ r1.addrs ∧ n ∉ t.addrs ∧ deref h1 (some n) = some x := by
  rw [toList_eq w hf] at hv
  simp only [Option.some.injEq] at hv
  subst hv
  obtain ⟨q, wl, hd⟩ := Tree.descend_slot t x none false
  obtain ⟨h1, e1, e2, e3, e4⟩ := insert_slot w (by omega : t.size ≤ fuel) hd
  obtain ⟨c, l, f, r, d1, d2, d3⟩ := Tree.ins_duplicate ho hx h.next
  have hnew : h.next ∉ t.addrs := fun hm => by
    have := w.rep.lt_next w.fresh hm; omega
  have hmem : h.next ∈ (r.ins false x h.next).addrs := Tree.mem_addrs_ins r x h.next
  refine ⟨h1, _, h.next, f, c, l, r, r.ins false x h.next, e1, rfl, ?_, d1, ?_, hmem, hnew, ?_⟩
  · simp only [BST.find, w.root]
    rw [findLoop_eq x w.rep (by omega), d2]
  · rw [← d3]; exact e2
  · obtain ⟨xs, ys, _, s2, _⟩ := Tree.ins_entries h.next hd
    have hm : (h.next, x) ∈ (t.ins false x h.next).entries := by rw [s2]; simp
    obtain ⟨n, c1, c2⟩ := e2.rep.data hm
    simp [deref, c1, c2]

/-- C8 at a concrete input: inserting a second 3 into the tree built from 5, 3, 8, 1, 4. -/
theorem insert_duplicate_right_subtree_witness :
    ∃ h1 b1 n f c l r r1, exampleBST.insert exampleHeap 10 (3 : Int) false =
        some (h1, b1, some n, true) ∧
      b1.size = exampleBST.size + 1 ∧ exampleBST.find exampleHeap 10 3 = some (some f) ∧
      exampleTree = plug c (.node l f 3 r) ∧ WF h1 b1 (plug c (.node l f 3 r1)) ∧
      n ∈ r1.addrs ∧ n ∉ exampleTree.addrs ∧ deref h1 (some n) = some 3 :=
  insert_duplicate_right_subtree exampleHeap exampleBST exampleTree exampleTree_wf
    exampleTree_ordered 3 10 (by decide) [1, 3, 4, 5, 8] (by decide) (by decide)

/-- C9: on a well-formed, ordered tree, `find(x)` returns an iterator to a node whose value
equals `x` if at least one node holds a value equal to `x`, and returns `end()` if no node
does.  (`find` only reads the store: it has no store or tree object to return.) -/
theorem find_present_or_end [LinearOrder α] (h : Heap α) (b : BST) (t : Tree α)
    (w : WF h b t) (ho : Ordered t) (x : α) (fuel : Nat) (hf : 2 * t.size ≤ fuel)
    (vals : List α) (hv : b.toList h fuel = some vals) :
    (x ∈ vals → ∃ p, b.find h fuel x = some (some p) ∧ deref h (some p) = some x) ∧
    (x ∉ vals → b.find h fuel x = some BST.end_) := by
  rw [toList_eq w hf] at hv
  simp only [Option.some.injEq] at hv
  subst hv
  have e : b.find h fuel x = some (t.lookup x) := by
    simp only [BST.find, w.root]
    exact findLoop_eq x w.rep (by omega)
  constructor
  · intro hx
    obtain ⟨p, e1, e2⟩ := Tree.lookup_mem ho hx
    obtain ⟨n, c1, c2⟩ := w.rep.data e2
    exact ⟨p, by rw [e, e1], by simp [deref, c1, c2]⟩
  · intro hx
    rw [e, Tree.lookup_not_mem hx]; rfl

/-- C9 at concrete inputs: `find(4)` and `find(7)` on the tree built from 5, 3, 8, 1, 4. -/
theorem find_present_or_end_witness :
    (∃ p, exampleBST.find exampleHeap 10 (4 : Int) = some (some p) ∧
      deref exampleHeap (some p) = some 4) ∧
    exampleBST.find exampleHeap 10 (7 : Int) = some BST.end_ :=
  ⟨(find_present_or_end exampleHeap exampleBST exampleTree exampleTree_wf
      exampleTree_ordered 4 10 (by decide) [1, 3, 4, 5, 8] (by decide)).1 (by decide),
   (find_present_or_end exampleHeap exampleBST exampleTree exampleTree_wf
      exampleTree_ordered 7 10 (by decide) [1, 3, 4, 5, 8] (by decide)).2 (by decide)⟩

end custom

namespace custom

variable {α : Type}

/-- C3: on a well-formed tree (the ordering invariant is not needed), `erase` of an iterator
at a node `z` (with zero, one or two children) returns, and the in-order sequence afterwards
is the in-order sequence before with exactly the one element at the position of `z` removed
and every other element kept in order. -/
theorem erase_removes_one_element (h : Heap α) (b : BST) (t : Tree α) (w : WF h b t)
    (xs ys : List (Nat × α)) (z : Nat) (v : α) (fuel : Nat) (hf : 2 * t.size ≤ fuel)
    (ht : b.traverse h fuel = some (xs ++ (z, v) :: ys)) :
    ∃ h1 b1 it, b.erase h fuel (some z) = some (h1, b1, it) ∧
      b.toList h fuel = some (xs.map Prod.snd ++ v :: ys.map Prod.snd) ∧
      b1.toList h1 fuel = some (xs.map Prod.snd ++ ys.map Prod.snd) := by
  have he : t.entries = xs ++ (z, v) :: ys := by
    rw [traverse_eq w hf] at ht
    exact Option.some.inj ht
  obtain ⟨h1, b1, t1, e1, w1, s1, n1, -, -⟩ := erase_traverse w he (by omega : t.size ≤ fuel)
  have hsz : t1.size ≤ t.size := by
    rw [← w1.count, ← w.count]; omega
  refine ⟨h1, b1, _, e1, ?_, ?_⟩
  · rw [toList_eq w hf, Tree.inorder, he]; simp
  · rw [toList_eq w1 (by omega), Tree.inorder, s1]; simp

/-- C3 at a concrete input: erasing 3 (node 1, two children) from the tree built from
5, 3, 8, 1, 4 leaves [1, 4, 5, 8]. -/
theorem erase_removes_one_element_witness :
    ∃ h1 b1 it, exampleBST.erase exampleHeap 10 (some 1) = some (h1, b1, it) ∧
      exampleBST.toList exampleHeap 10 = some [1, 3, 4, 5, 8] ∧
      b1.toList h1 10 = some [1, 4, 5, 8] :=
  erase_removes_one_element exampleHeap exampleBST exampleTree exampleTree_wf
    [(3, 1)] [(4, 4), (0, 5), (2, 8)] 1 3 10 (by decide) (by decide)

/-- C4: on a well-formed tree, `erase` of an iterator at a node `z` returns an iterator to
the node that immediately followed `z` in the traversal before the erase, or `end()` if `z`
was the last node; after the erase the traversal is the old one without `z`, so the returned
node is still part of the tree and sits at the position `z` had. -/
theorem erase_returns_successor (h : Heap α) (b : BST) (t : Tree α) (w : WF h b t)
    (xs ys : List (Nat × α)) (z : Nat) (v : α) (fuel : Nat) (hf : 2 * t.size ≤ fuel)
    (ht : b.traverse h fuel = some (xs ++ (z, v) :: ys)) :
    ∃ h1 b1, b.erase h fuel (some z) = some (h1, b1, (ys.map Prod.fst).head?) ∧
      b1.traverse h1 fuel = some (xs ++ ys) ∧
      ((xs ++ ys).map Prod.fst)[xs.length]? = (ys.map Prod.fst).head? ∧
      ((ys.map Prod.fst).head? = BST.end_ ↔ ys = []) := by
  have he : t.entries = xs ++ (z, v) :: ys := by
    rw [traverse_eq w hf] at ht
    exact Option.some.inj ht
  obtain ⟨h1, b1, t1, e1, w1, s1, n1, -, -⟩ := erase_traverse w he (by omega : t.size ≤ fuel)
  have hsz : t1.size ≤ t.size := by
    rw [← w1.count, ← w.count]; omega
  refine ⟨h1, b1, e1, ?_, ?_, ?_⟩
  · rw [traverse_eq w1 (by omega), s1]
  · rw [List.map_append, List.getElem?_append_right (by simp)]
    cases ys <;> simp
  · cases ys <;> simp [BST.end_]

/-- C4 at a concrete input: erasing 3 (node 1) from the tree built from 5, 3, 8, 1, 4
returns the node holding 4 (node 4), which then sits at position 1. -/
theorem erase_returns_successor_witness :
    ∃ h1 b1, exampleBST.erase exampleHeap 10 (some 1) = some (h1, b1, some 4) ∧
      b1.traverse h1 10 = some [(3, 1), (4, 4), (0, 5), (2, 8)] ∧
      ([3, 4, 0, 2] : List Nat)[1]? = some 4 ∧
      ((some 4 : iterator) = BST.end_ ↔ [((4 : Nat), (4 : Int)), (0, 5), (2, 8)] = []) :=
  erase_returns_successor exampleHeap exampleBST exampleTree exampleTree_wf
    [(3, 1)] [(4, 4), (0, 5), (2, 8)] 1 3 10 (by decide) (by decide)

/-- C5 (fails on the code): the destination built by inserting 1, 2, 3 and the source built
by inserting 2, 1, 3 have the same node count and different shapes; `dest = source` takes
the equal-count case, assigns only along the common paths, and leaves the destination with
in-order sequence [2, 3, 3] while the source has [1, 2, 3]. -/
theorem assign_same_count_different_shape :
    ∃ h0 src h dest h1 dest1,
      insertAll 20 [((2 : Int), false), (1, false), (3, false)] (Heap.empty, BST.new) =
        some (h0, src) ∧
      insertAll 20 [((1 : Int), false), (2, false), (3, false)] (h0, BST.new) =
        some (h, dest) ∧
      src.size = 3 ∧ dest.size = 3 ∧
      dest.assign h 20 src false = some (h1, dest1) ∧
      src.toList h1 20 = some [1, 2, 3] ∧ dest1.toList h1 20 = some [2, 3, 3] :=
  ⟨_, _, _, _, _, _, rfl, rfl, rfl, rfl, rfl, by decide, by decide⟩

/-- C6: for well-formed source and destination trees sharing no node, when the destination
is empty, or is a single node, or the source is empty or a single node, or the two node
counts differ, `dest = source` returns and the destination is again well formed, has
exactly the source's shape with the source's value at every node, `dest.size()` equals the
source's node count, and its traversal yields the source's values; likewise for a copy
constructed from the source; and a self-assignment leaves the tree as it is. -/
theorem assign_copies_shape (h : Heap α) (dest src : BST) (td ts : Tree α)
    (wd : WF h dest td) (ws : WF h src ts) (hdisj : ∀ x ∈ td.addrs, x ∉ ts.addrs)
    (hcase : dest.size = 0 ∨ dest.size = 1 ∨ src.size ≤ 1 ∨ dest.size ≠ src.size)
    (fuel : Nat) (hf : 2 * (td.size + ts.size) ≤ fuel) :
    (∃ h1 dest1 t1, dest.assign h fuel src false = some (h1, dest1) ∧ WF h1 dest1 t1 ∧
      t1.skeleton = ts.skeleton ∧ dest1.size = ts.size ∧ src.size = ts.size ∧
      dest1.toList h1 fuel = some ts.inorder ∧ src.toList h1 fuel = some ts.inorder) ∧
    (∃ h1 dest1 t1, BST.copy h fuel src = some (h1, dest1) ∧ WF h1 dest1 t1 ∧
      t1.skeleton = ts.skeleton ∧ dest1.size = ts.size ∧ src.size = ts.size ∧
      dest1.toList h1 fuel = some ts.inorder ∧ src.toList h1 fuel = some ts.inorder) ∧
    dest.assign h fuel dest true = some (h, dest) := by
  have key : ∀ (d : BST) (tdd : Tree α), WF h d tdd → (∀ x ∈ tdd.addrs, x ∉ ts.addrs) →
      ¬(tdd.size = ts.size ∧ 2 ≤ tdd.size) → tdd.size ≤ td.size →
      ∃ h1 dest1 t1, d.assign h fuel src false = some (h1, dest1) ∧ WF h1 dest1 t1 ∧
        t1.skeleton = ts.skeleton ∧ dest1.size = ts.size ∧ src.size = ts.size ∧
        dest1.toList h1 fuel = some ts.inorder ∧ src.toList h1 fuel = some ts.inorder := by
    intro d tdd wdd hdd hc hle
    obtain ⟨h1, b1, e1, t1, w1, s1, ws1, -⟩ := assign_spec wdd ws hdd hc
      (by omega : tdd.size + ts.size ≤ fuel)
    have hsz := Tree.skeleton_size s1
    refine ⟨h1, b1, t1, e1, w1, s1, by rw [BST.size, w1.count, hsz], ws.count, ?_, ?_⟩
    · rw [toList_eq w1 (by omega), Tree.skeleton_inorder s1]
    · rw [toList_eq ws1 (by omega)]
  refine ⟨?_, ?_, by simp [BST.assign]⟩
  · refine key dest td wd hdisj ?_ (le_refl _)
    simp only [BST.size, wd.count, ws.count] at hcase
    omega
  · exact key BST.new .nil ⟨ws.fresh, rfl, trivial, by simp, rfl⟩ (by simp) (by simp) (by simp)

end custom

namespace custom

variable {α : Type}

/-- The source of `pairHeap` is well formed. -/
theorem pairSrc_wf : WF pairHeap pairSrc pairSrcTree := by
  refine ⟨?_, rfl, ?_, by decide, rfl⟩
  · intro a ha
    simp only [pairHeap] at ha ⊢
    match a, ha with
    | n + 4, _ => rfl
  · simp [pairSrcTree, Rep, pairHeap]

/-- The destination of `pairHeap` is well formed. -/
theorem pairDest_wf : WF pairHeap pairDest pairDestTree := by
  refine ⟨pairSrc_wf.fresh, rfl, ?_, by decide, rfl⟩
  simp [pairDestTree, Rep, pairHeap]

/-- Inserting 2, 1, 3 into one empty tree and 10 into another gives the tree objects
`pairSrc` and `pairDest` and a store that agrees with `pairHeap` (checked on every address
up to `next`). -/
theorem pairHeap_built :
    ∃ h0 src h dest,
      insertAll 10 [((2 : Int), false), (1, false), (3, false)] (Heap.empty, BST.new) =
        some (h0, src) ∧
      insertAll 10 [((10 : Int), false)] (h0, BST.new) = some (h, dest) ∧
      src = pairSrc ∧ dest = pairDest ∧ h.next = pairHeap.next ∧
      ∀ a < 5, h.cells a = pairHeap.cells a :=
  ⟨_, _, _, _, rfl, rfl, by decide, by decide, by decide, by decide⟩

/-- C6 at a concrete input: A built from 2, 1, 3 and B built from 10; `B = A` gives B the
in-order sequence [1, 2, 3] and `B.size() == 3`. -/
theorem assign_copies_shape_witness :
    (∃ h1 dest1 t1, pairDest.assign pairHeap 8 pairSrc false = some (h1, dest1) ∧
      WF h1 dest1 t1 ∧ t1.skeleton = pairSrcTree.skeleton ∧ dest1.size = 3 ∧
      pairSrc.size = 3 ∧ dest1.toList h1 8 = some [1, 2, 3] ∧
      pairSrc.toList h1 8 = some [1, 2, 3]) ∧
    (∃ h1 dest1 t1, BST.copy pairHeap 8 pairSrc = some (h1, dest1) ∧
      WF h1 dest1 t1 ∧ t1.skeleton = pairSrcTree.skeleton ∧ dest1.size = 3 ∧
      pairSrc.size = 3 ∧ dest1.toList h1 8 = some [1, 2, 3] ∧
      pairSrc.toList h1 8 = some [1, 2, 3]) ∧
    pairDest.assign pairHeap 8 pairDest true = some (pairHeap, pairDest) :=
  assign_copies_shape pairHeap pairDest pairSrc pairDestTree pairSrcTree pairDest_wf
    pairSrc_wf (by decide) (by decide) 8 (by decide)

/-- C10: for every sequence of `insert` and `erase` calls starting from an empty tree (each
`erase` given the iterator reached from `begin()` by `k` increments, which is a node of the
tree or `end()`), every call returns, `size()` equals the number of `insert` calls that
returned `inserted == true` minus the number of `erase` calls made on an iterator other
than `end()`, and `empty()` is true if and only if `size() == 0`. -/
theorem size_counts_calls [LinearOrder α] (calls : List (Call α)) (k : Nat) :
    ∃ h b inserted erased,
      runCalls (calls.length + k) calls (Heap.empty, BST.new, 0, 0) =
        some (h, b, inserted, erased) ∧
      erased ≤ inserted ∧ b.size = inserted - erased ∧ (b.empty = true ↔ b.size = 0) := by
  have hfuel : (Tree.nil : Tree α).size + calls.length ≤ calls.length + k := by
    simp
  obtain ⟨h1, b1, t1, i1, r1, e1, w1, c1⟩ := runCalls_total calls (@WF.new α) hfuel 0 0 rfl
  refine ⟨h1, b1, i1, r1, e1, by omega, ?_, by simp [BST.empty, BST.size]⟩
  rw [BST.size, w1.count]
  omega

end custom

namespace custom

variable {α : Type}

/-- The first tree of `deepHeap` is well formed. -/
theorem deepTree_wf : WF deepHeap deepBST deepTree := by
  refine ⟨?_, rfl, ?_, by decide, rfl⟩
  · intro a ha
    simp only [deepHeap] at ha ⊢
    match a, ha with
    | n + 6, _ => rfl
  · simp [deepTree, Rep, deepHeap]

/-- The second tree of `deepHeap` is well formed. -/
theorem deepSrc_wf : WF deepHeap deepSrc deepSrcTree := by
  refine ⟨deepTree_wf.fresh, rfl, ?_, by decide, rfl⟩
  simp [deepSrcTree, Rep, deepHeap]

/-- Inserting 5, 3, 9, 7, 8 into one empty tree and 20 into another gives the tree objects
`deepBST` and `deepSrc` and a store that agrees with `deepHeap` (checked on every address
up to `next`). -/
theorem deepHeap_built :
    ∃ h0 b h src,
      insertAll 10 [((5 : Int), false), (3, false), (9, false), (7, false), (8, false)]
        (Heap.empty, BST.new) = some (h0, b) ∧
      insertAll 10 [((20 : Int), false)] (h0, BST.new) = some (h, src) ∧
      b = deepBST ∧ src = deepSrc ∧ h.next = deepHeap.next ∧
      ∀ a < 7, h.cells a = deepHeap.cells a :=
  ⟨_, _, _, _, rfl, rfl, by decide, by decide, by decide, by decide⟩

theorem mem_addrs_split {t : Tree α} {z : Nat} (hz : z ∈ t.addrs) :
    ∃ xs v ys, t.entries = xs ++ (z, v) :: ys := by
  obtain ⟨⟨z1, v⟩, hm, rfl⟩ := List.mem_map.mp hz
  obtain ⟨xs, ys, e⟩ := List.append_of_mem hm
  exact ⟨xs, v, ys, e⟩

/-- C11 as stated fails: in the ordered tree built by inserting 5, 3, 1, 3 the node at
address 1 holds 3 and has two children (1 and the second 3); `erase` on it returns an
iterator whose value is 3, which is not strictly greater than 3 (the smallest strictly
greater value of the tree is 5). -/
theorem erase_two_children_duplicate_successor :
    ∃ h b t, insertAll 10 [((5 : Int), false), (3, false), (1, false), (3, false)]
        (Heap.empty, BST.new) = some (h, b) ∧
      WF h b t ∧ Ordered t ∧ b.toList h 10 = some [1, 3, 3, 5] ∧
      (∃ nz, h.cells 1 = some nz ∧ nz.data = 3 ∧ nz.pLeft ≠ none ∧ nz.pRight ≠ none) ∧
      ∃ h1 b1 it, b.erase h 10 (some 1) = some (h1, b1, it) ∧ deref h1 it = some 3 ∧
        ¬ ((3 : Int) < 3) := by
  have hlen : (Tree.nil : Tree Int).size +
      [((5 : Int), false), (3, false), (1, false), (3, false)].length ≤ 10 := by decide
  obtain ⟨h, b, t, e, w, ho, -⟩ := insertAll_total
    [((5 : Int), false), (3, false), (1, false), (3, false)] (@WF.new Int)
    (by simp [Ordered]) hlen
  have e1 : (insertAll 10 [((5 : Int), false), (3, false), (1, false), (3, false)]
      (Heap.empty, BST.new)).bind (fun s => s.2.toList s.1 10) = some [1, 3, 3, 5] := by
    decide
  have e2 : (insertAll 10 [((5 : Int), false), (3, false), (1, false), (3, false)]
      (Heap.empty, BST.new)).bind (fun s => s.1.cells 1) =
      some ⟨3, some 2, some 3, some 0⟩ := by decide
  have e3 : (insertAll 10 [((5 : Int), false), (3, false), (1, false), (3, false)]
      (Heap.empty, BST.new)).bind (fun s => (s.2.erase s.1 10 (some 1)).bind
        (fun r => deref r.1 r.2.2)) = some 3 := by decide
  rw [e] at e1 e2 e3
  simp only [Option.some_bind] at e1 e2 e3
  refine ⟨h, b, t, e, w, ho, e1, ⟨_, e2, rfl, by simp, by simp⟩, ?_⟩
  cases he : b.erase h 10 (some 1) with
  | none => rw [he] at e3; simp at e3
  | some r =>
    obtain ⟨h1, b1, it⟩ := r
    rw [he] at e3
    exact ⟨h1, b1, it, rfl, e3, by decide⟩

/-- C11 as amended: on a well-formed, ordered tree, `erase` on an iterator to a node `z`
with two children returns an iterator to the node that follows `z` in in-order; its value
`sv` is at least the value `v` of `z`, every value before `z` is at most `v`, every value
after the returned node is at least `sv`, so `sv` is at most every value of the tree that is
strictly greater than `v`; and `sv` is itself strictly greater than `v` when no node after
`z` holds a value equal to `v`. -/
theorem erase_two_children_returns_next [LinearOrder α] (h : Heap α) (b : BST) (t : Tree α)
    (w : WF h b t) (ho : Ordered t) (xs ys : List (Nat × α)) (z : Nat) (v : α) (fuel : Nat)
    (hf : 2 * t.size ≤ fuel) (ht : b.traverse h fuel = some (xs ++ (z, v) :: ys))
    (nz : BNode α) (hz : h.cells z = some nz) (hl : nz.pLeft ≠ none)
    (hr : nz.pRight ≠ none) :
    ∃ h1 b1 s sv ys1, ys = (s, sv) :: ys1 ∧
      b.erase h fuel (some z) = some (h1, b1, some s) ∧ deref h1 (some s) = some sv ∧
      v ≤ sv ∧ (∀ e ∈ xs, e.2 ≤ v) ∧ (∀ e ∈ ys1, sv ≤ e.2) ∧
      (∀ e ∈ xs ++ ys, v < e.2 → sv ≤ e.2) ∧ ((∀ e ∈ ys, e.2 ≠ v) → v < sv) := by
  have he : t.entries = xs ++ (z, v) :: ys := by
    rw [traverse_eq w hf] at ht
    exact Option.some.inj ht
  obtain ⟨h1, b1, t1, e1, w1, -, s1⟩ := erase_ordered w ho he (by omega : t.size ≤ fuel)
  -- the right child of `z` is among the nodes after `z`
  have hne : ys ≠ [] := by
    have hmem : z ∈ t.addrs := List.mem_map.mpr ⟨(z, v), by rw [he]; simp, rfl⟩
    obtain ⟨c, l, v1, r, et⟩ := exists_plug_of_mem hmem
    subst et
    obtain ⟨-, -, s3⟩ := split_of_plug w.nodup he
    obtain ⟨hs, -⟩ :=
      (@rep_plug _ _ _ _ (plug c (.node l z v1 r)).ptr _).mp ⟨w.rep, rfl⟩
    have h0 := hs.1
    rw [hz] at h0
    simp only [Option.some.injEq] at h0
    subst h0
    cases r with
    | nil => exact absurd rfl hr
    | node rl ra rv rr => rw [s3]; simp
  cases ys with
  | nil => exact absurd rfl hne
  | cons e ys1 =>
    obtain ⟨s, sv⟩ := e
    have hsorted := ho.sorted
    rw [Tree.inorder, he] at hsorted
    simp only [List.map_append, List.map_cons, List.Sorted, List.pairwise_append,
      List.pairwise_cons, List.mem_cons, List.mem_map, forall_eq_or_imp] at hsorted
    obtain ⟨-, ⟨⟨hvs, hvys⟩, hsys, -⟩, hxs⟩ := hsorted
    have hdata : deref h1 (some s) = some sv := by
      obtain ⟨n, c1, c2⟩ := w1.rep.data (by rw [s1]; simp : (s, sv) ∈ t1.entries)
      simp [deref, c1, c2]
    have hsmin : ∀ e ∈ ys1, sv ≤ e.2 := fun e he1 => hsys e.2 ⟨e, he1, rfl⟩
    refine ⟨h1, b1, s, sv, ys1, rfl, by simpa using e1, hdata, hvs, ?_, hsmin, ?_, ?_⟩
    · intro e he1
      exact (hxs e.2 ⟨e, he1, rfl⟩).1
    · intro e he1 hlt
      simp only [List.mem_append, List.mem_cons] at he1
      rcases he1 with he1 | rfl | he1
      · exact absurd (hxs e.2 ⟨e, he1, rfl⟩).1 (not_le.mpr hlt)
      · exact le_refl _
      · exact hsmin e he1
    · intro hneq
      exact lt_of_le_of_ne hvs (fun e => hneq (s, sv) (by simp) e.symm)

/-- C11 as amended at a concrete input: erasing 3 (node 1, children 1 and 4) from the tree
built from 5, 3, 8, 1, 4 returns the node holding 4. -/
theorem erase_two_children_returns_next_witness :
    ∃ h1 b1 s sv ys1, [((4 : Nat), (4 : Int)), (0, 5), (2, 8)] = (s, sv) :: ys1 ∧
      exampleBST.erase exampleHeap 10 (some 1) = some (h1, b1, some s) ∧
      deref h1 (some s) = some sv ∧ 3 ≤ sv ∧ (∀ e ∈ [((3 : Nat), (1 : Int))], e.2 ≤ 3) ∧
      (∀ e ∈ ys1, sv ≤ e.2) ∧
      (∀ e ∈ [((3 : Nat), (1 : Int))] ++ [(4, 4), (0, 5), (2, 8)], 3 < e.2 → sv ≤ e.2) ∧
      ((∀ e ∈ [((4 : Nat), (4 : Int)), (0, 5), (2, 8)], e.2 ≠ 3) → 3 < sv) :=
  erase_two_children_returns_next exampleHeap exampleBST exampleTree exampleTree_wf
    exampleTree_ordered [(3, 1)] [(4, 4), (0, 5), (2, 8)] 1 3 10 (by decide) (by decide)
    ⟨3, some 3, some 4, some 0⟩ rfl (by decide) (by decide)

/-- C12: for every store and tree object, `erase` called with the end/none iterator returns
`end()` and changes nothing: the store (every node and every link) and the tree object
(`root` and `size()`) are returned as they were. -/
theorem erase_end_noop (h : Heap α) (b : BST) (fuel : Nat) :
    b.erase h fuel BST.end_ = some (h, b, BST.end_) := rfl

/-- C13: on a well-formed tree `clear()` returns and leaves the empty state: `root` none,
`size() == 0`, `empty()` true, `begin() == end()`, every former node freed; applying
`clear()` again yields the same store and the same empty tree object, and `clear()` on an
already-empty tree changes nothing. -/
theorem clear_empties_idempotent (h : Heap α) (b : BST) (t : Tree α) (w : WF h b t)
    (fuel : Nat) (hf : t.size ≤ fuel) :
    (∃ h1 b1, b.clear h fuel = some (h1, b1) ∧ b1.root = none ∧ b1.size = 0 ∧
      b1.empty = true ∧ b1.begin h1 fuel = some BST.end_ ∧
      (∀ a ∈ t.addrs, h1.cells a = none) ∧ b1.clear h1 fuel = some (h1, b1)) ∧
    (∀ (h0 : Heap α) (f : Nat), BST.new.clear h0 f = some (h0, BST.new)) := by
  constructor
  · obtain ⟨h1, e1, e2, e3, e4⟩ := destroy_spec w.rep w.nodup hf
    refine ⟨h1, ⟨none, 0⟩, by simp [BST.clear, w.root, e1], rfl, rfl, rfl, rfl, e2, ?_⟩
    cases fuel <;> simp [BST.clear, destroy]
  · intro h0 f
    cases f <;> simp [BST.clear, destroy, BST.new]

/-- C13 at a concrete input: clearing the tree built from 5, 3, 8, 1, 4. -/
theorem clear_empties_idempotent_witness :
    (∃ h1 b1, exampleBST.clear exampleHeap 5 = some (h1, b1) ∧ b1.root = none ∧
      b1.size = 0 ∧ b1.empty = true ∧ b1.begin h1 5 = some BST.end_ ∧
      (∀ a ∈ exampleTree.addrs, h1.cells a = none) ∧ b1.clear h1 5 = some (h1, b1)) ∧
    (∀ (h0 : Heap Int) (f : Nat), BST.new.clear h0 f = some (h0, BST.new)) :=
  clear_empties_idempotent exampleHeap exampleBST exampleTree exampleTree_wf 5 (by decide)

/-- C14: on a well-formed tree whose in-order node list is `t.addrs` (of length `size()`),
`begin()` references the first node, or is `end()` when there is none; `operator++` at
position `i` gives position `i + 1`, which is `end()` past the last node; so `j` increments
from `begin()` reach position `j`, the position is `end()` exactly from `size()` on, and the
`begin()`-to-`end()` traversal returns and visits exactly the nodes in in-order. -/
theorem traversal_visits_inorder (h : Heap α) (b : BST) (t : Tree α) (w : WF h b t)
    (fuel : Nat) (hf : 2 * t.size ≤ fuel) :
    b.begin h fuel = some (t.addrs[0]?) ∧
    (∀ i, increment h fuel (t.addrs[i]?) = some (t.addrs[i + 1]?)) ∧
    t.addrs.length = b.size ∧
    (∀ i, t.addrs[i]? = BST.end_ ↔ b.size ≤ i) ∧
    (∀ j, ∃ first, b.begin h fuel = some first ∧
      advance h fuel j first = some (t.addrs[j]?)) ∧
    b.traverse h fuel = some t.entries ∧ t.entries.map Prod.fst = t.addrs := by
  have hf1 : t.size ≤ fuel := by omega
  have hlen : t.addrs.length = b.size := by rw [Tree.length_addrs, BST.size, w.count]
  refine ⟨?_, fun i => increment_index w.rep w.nodup hf1 i, hlen, ?_,
    fun j => advance_begin w hf1 j, traverse_eq w hf, rfl⟩
  · rw [begin_eq w hf1, List.head?_eq_getElem?]
  · intro i
    rw [← hlen]
    exact List.getElem?_eq_none_iff

/-- C14 at a concrete input: the tree built from 5, 3, 8, 1, 4, whose in-order node list is
3, 1, 4, 0, 2. -/
theorem traversal_visits_inorder_witness :
    exampleBST.begin exampleHeap 10 = some (some 3) ∧
    (∀ i, increment exampleHeap 10 (exampleTree.addrs[i]?) =
      some (exampleTree.addrs[i + 1]?)) ∧
    exampleTree.addrs.length = exampleBST.size ∧
    (∀ i, exampleTree.addrs[i]? = BST.end_ ↔ exampleBST.size ≤ i) ∧
    (∀ j, ∃ first, exampleBST.begin exampleHeap 10 = some first ∧
      advance exampleHeap 10 j first = some (exampleTree.addrs[j]?)) ∧
    exampleBST.traverse exampleHeap 10 = some [(3, 1), (1, 3), (4, 4), (0, 5), (2, 8)] ∧
    exampleTree.entries.map Prod.fst = [3, 1, 4, 0, 2] :=
  traversal_visits_inorder exampleHeap exampleBST exampleTree exampleTree_wf 10 (by decide)

/-- C15: on a well-formed tree whose in-order node list is `t.addrs`, `operator--` at
position `i + 1` gives the node at position `i` (the in-order predecessor), and at the first
position it gives the none/sentinel iterator. -/
theorem decrement_gives_predecessor (h : Heap α) (b : BST) (t : Tree α) (w : WF h b t)
    (fuel : Nat) (hf : t.size ≤ fuel) :
    (∀ i, i + 1 < b.size → decrement h fuel (t.addrs[i + 1]?) = some (t.addrs[i]?)) ∧
    (0 < b.size → decrement h fuel (t.addrs[0]?) = some BST.end_) := by
  have hd := decrement_index w.rep w.nodup hf
  rw [BST.size, w.count]
  exact hd

/-- C15 at a concrete input: in the tree built from 5, 3, 8, 1, 4 (in-order node list
3, 1, 4, 0, 2), `--` at the node holding 5 gives the node holding 4 and `--` at the first
node gives the none iterator. -/
theorem decrement_gives_predecessor_witness :
    decrement exampleHeap 5 (some 0) = some (some 4) ∧
    decrement exampleHeap 5 (some 3) = some BST.end_ :=
  ⟨(decrement_gives_predecessor exampleHeap exampleBST exampleTree exampleTree_wf 5
      (by decide)).1 2 (by decide),
   (decrement_gives_predecessor exampleHeap exampleBST exampleTree exampleTree_wf 5
      (by decide)).2 (by decide)⟩

end custom

namespace custom

variable {α : Type}

/-- C16: on a well-formed tree that satisfies the ordering invariant, `insert` of any value
with any `keepUnique` flag returns and leaves a well-formed tree that satisfies the
invariant, and so does `erase` of any node of the tree (zero, one or two children). -/
theorem ordering_preserved [LinearOrder α] (h : Heap α) (b : BST) (t : Tree α)
    (w : WF h b t) (ho : Ordered t) (fuel : Nat) (hf : t.size ≤ fuel) :
    (∀ (x : α) (keepUnique : Bool), ∃ h1 b1 it ok t1,
      b.insert h fuel x keepUnique = some (h1, b1, it, ok) ∧ WF h1 b1 t1 ∧ Ordered t1) ∧
    (∀ z ∈ t.addrs, ∃ h1 b1 it t1,
      b.erase h fuel (some z) = some (h1, b1, it) ∧ WF h1 b1 t1 ∧ Ordered t1) := by
  constructor
  · intro x ku
    obtain ⟨h1, b1, it, ok, t1, e1, w1, o1, -⟩ := insert_total w ho hf x ku
    exact ⟨h1, b1, it, ok, t1, e1, w1, o1⟩
  · intro z hz
    obtain ⟨xs, v, ys, he⟩ := mem_addrs_split hz
    obtain ⟨h1, b1, t1, e1, w1, o1, -⟩ := erase_ordered w ho he hf
    exact ⟨h1, b1, _, t1, e1, w1, o1⟩

/-- C16 at a concrete input: inserting 4 into, and erasing the node holding 5 (node 0, two
children) from, the tree built from 5, 3, 8, 1, 4. -/
theorem ordering_preserved_witness :
    (∃ h1 b1 it ok t1, exampleBST.insert exampleHeap 5 (4 : Int) false =
      some (h1, b1, it, ok) ∧ WF h1 b1 t1 ∧ Ordered t1) ∧
    (∃ h1 b1 it t1, exampleBST.erase exampleHeap 5 (some 0) = some (h1, b1, it) ∧
      WF h1 b1 t1 ∧ Ordered t1) :=
  ⟨(ordering_preserved exampleHeap exampleBST exampleTree exampleTree_wf exampleTree_ordered
      5 (by decide)).1 4 false,
   (ordering_preserved exampleHeap exampleBST exampleTree exampleTree_wf exampleTree_ordered
      5 (by decide)).2 0 (by decide)⟩

/-- C17: a well-formed tree satisfies the parent back-reference invariant (the root has no
parent, every other node's `pParent` is the node holding it as `pLeft` or `pRight`), and
the invariant holds again on the nodes of the tree after `insert`, after `erase` of any
node of the tree, and for the destination of a copy-assignment from any well-formed source
that shares no node with it. -/
theorem parent_links_preserved [LinearOrder α] (h : Heap α) (b src : BST) (t ts : Tree α)
    (w : WF h b t) (ws : WF h src ts) (hdisj : ∀ x ∈ t.addrs, x ∉ ts.addrs) (fuel : Nat)
    (hf : t.size + ts.size ≤ fuel) :
    ParentLinked h b t.addrs ∧
    (∀ (x : α) (keepUnique : Bool), ∃ h1 b1 it ok t1,
      b.insert h fuel x keepUnique = some (h1, b1, it, ok) ∧ WF h1 b1 t1 ∧
      ParentLinked h1 b1 t1.addrs) ∧
    (∀ z ∈ t.addrs, ∃ h1 b1 it t1,
      b.erase h fuel (some z) = some (h1, b1, it) ∧ WF h1 b1 t1 ∧
      ParentLinked h1 b1 t1.addrs) ∧
    (∃ h1 b1 t1, b.assign h fuel src false = some (h1, b1) ∧ WF h1 b1 t1 ∧
      ParentLinked h1 b1 t1.addrs) := by
  have hf1 : t.size ≤ fuel := by omega
  refine ⟨w.parentLinked, ?_, ?_, ?_⟩
  · intro x ku
    obtain ⟨h1, b1, it, ok, t1, e1, w1, -⟩ := insert_wf w hf1 x ku
    exact ⟨h1, b1, it, ok, t1, e1, w1, w1.parentLinked⟩
  · intro z hz
    obtain ⟨xs, v, ys, he⟩ := mem_addrs_split hz
    obtain ⟨h1, b1, t1, e1, w1, -⟩ := erase_traverse w he hf1
    exact ⟨h1, b1, _, t1, e1, w1, w1.parentLinked⟩
  · obtain ⟨h1, b1, t1, e1, w1, -⟩ := assign_total w ws hdisj hf
    exact ⟨h1, b1, t1, e1, w1, w1.parentLinked⟩

/-- C17 at a concrete input: the tree built from 5, 3, 9, 7, 8; erasing the node holding 5
(node 0) is the two-children case in which the successor, the node holding 7, is not the
right child; the source of the assignment is the tree built from 20. -/
theorem parent_links_preserved_witness :
    ParentLinked deepHeap deepBST deepTree.addrs ∧
    (∃ h1 b1 it ok t1, deepBST.insert deepHeap 6 (6 : Int) false = some (h1, b1, it, ok) ∧
      WF h1 b1 t1 ∧ ParentLinked h1 b1 t1.addrs) ∧
    (∃ h1 b1 it t1, deepBST.erase deepHeap 6 (some 0) = some (h1, b1, it) ∧ WF h1 b1 t1 ∧
      ParentLinked h1 b1 t1.addrs) ∧
    (∃ h1 b1 t1, deepBST.assign deepHeap 6 deepSrc false = some (h1, b1) ∧ WF h1 b1 t1 ∧
      ParentLinked h1 b1 t1.addrs) :=
  have key := parent_links_preserved deepHeap deepBST deepSrc deepTree deepSrcTree
    deepTree_wf deepSrc_wf (by decide) 6 (by decide)
  ⟨key.1, key.2.1 6 false, key.2.2.1 0 (by decide), key.2.2.2⟩

/-- C18: the invariant `count == 0` exactly when `root` is none holds for the
default-constructed tree and for every well-formed tree, and every operation on
well-formed trees returns and leaves well-formed trees, on which it holds again: `insert`,
`erase` (on `end()` or on an iterator to a node of the tree), `clear`, copy-assignment,
move-assignment, initializer-list assignment and `swap`; and when `empty()` is false the
root is not none and `begin()` returns. -/
theorem count_invariant_preserved [LinearOrder α] (h : Heap α) (a b : BST) (ta tb : Tree α)
    (wa : WF h a ta) (wb : WF h b tb) (hdisj : ∀ x ∈ ta.addrs, x ∉ tb.addrs) (fuel : Nat)
    (hf : ta.size + tb.size ≤ fuel) :
    BST.new.CountInv ∧ a.CountInv ∧ b.CountInv ∧
    (∀ (x : α) (keepUnique : Bool), ∃ h1 a1 it ok t1,
      a.insert h fuel x keepUnique = some (h1, a1, it, ok) ∧ WF h1 a1 t1 ∧ a1.CountInv) ∧
    (∀ it, (it = BST.end_ ∨ ∃ z ∈ ta.addrs, it = some z) → ∃ h1 a1 next t1,
      a.erase h fuel it = some (h1, a1, next) ∧ WF h1 a1 t1 ∧ a1.CountInv) ∧
    (∃ h1 a1, a.clear h fuel = some (h1, a1) ∧ WF h1 a1 .nil ∧ a1.CountInv) ∧
    (∃ h1 a1 t1, a.assign h fuel b false = some (h1, a1) ∧ WF h1 a1 t1 ∧ WF h1 b tb ∧
      a1.CountInv) ∧
    (∃ h1 a1 b1, a.moveAssign h fuel b = some (h1, a1, b1) ∧ WF h1 a1 tb ∧
      WF h1 b1 .nil ∧ a1.CountInv ∧ b1.CountInv) ∧
    (∀ il : List α, ta.size + il.length ≤ fuel → ∃ h1 a1 t1,
      a.assignList h fuel il = some (h1, a1) ∧ WF h1 a1 t1 ∧ a1.CountInv) ∧
    ((a.swap b).1.CountInv ∧ (a.swap b).2.CountInv ∧ WF h (a.swap b).1 tb ∧
      WF h (a.swap b).2 ta) ∧
    (a.empty = false → a.root ≠ none ∧ ∃ it, a.begin h fuel = some it) := by
  have hf1 : ta.size ≤ fuel := by omega
  refine ⟨by simp [BST.CountInv, BST.new], wa.countInv, wb.countInv, ?_, ?_, ?_, ?_, ?_, ?_,
    ⟨wb.countInv, wa.countInv, wb, wa⟩, ?_⟩
  · intro x ku
    obtain ⟨h1, b1, it, ok, t1, e1, w1, -⟩ := insert_wf wa hf1 x ku
    exact ⟨h1, b1, it, ok, t1, e1, w1, w1.countInv⟩
  · rintro it (rfl | ⟨z, hz, rfl⟩)
    · exact ⟨h, a, BST.end_, ta, rfl, wa, wa.countInv⟩
    · obtain ⟨xs, v, ys, he⟩ := mem_addrs_split hz
      obtain ⟨h1, b1, t1, e1, w1, -⟩ := erase_traverse wa he hf1
      exact ⟨h1, b1, _, t1, e1, w1, w1.countInv⟩
  · obtain ⟨h1, e1, e2, -, -⟩ := clear_spec wa hf1
    exact ⟨h1, _, e1, e2, e2.countInv⟩
  · obtain ⟨h1, b1, t1, e1, w1, w2, -, -⟩ := assign_total wa wb hdisj hf
    exact ⟨h1, b1, t1, e1, w1, w2, w1.countInv⟩
  · obtain ⟨h1, e1, e2, e3, -, -⟩ := moveAssign_spec wa wb hdisj hf1
    exact ⟨h1, _, _, e1, e2, e3, e2.countInv, e3.countInv⟩
  · intro il hil
    obtain ⟨h1, b1, t1, e1, w1, -⟩ := assignList_spec wa il hil
    exact ⟨h1, b1, t1, e1, w1, w1.countInv⟩
  · intro hne
    have hroot : a.root ≠ none := by
      intro hr
      have := wa.countInv.mpr hr
      simp [BST.empty, this] at hne
    exact ⟨hroot, _, begin_eq wa hf1⟩

/-- C18 at a concrete input: the destination built from 10 and the source built from
2, 1, 3. -/
theorem count_invariant_preserved_witness :
    BST.new.CountInv ∧ pairDest.CountInv ∧ pairSrc.CountInv ∧
    (∃ h1 a1 it ok t1, pairDest.insert pairHeap 4 (7 : Int) false =
      some (h1, a1, it, ok) ∧ WF h1 a1 t1 ∧ a1.CountInv) ∧
    (∃ h1 a1 next t1, pairDest.erase pairHeap 4 (some 3) = some (h1, a1, next) ∧
      WF h1 a1 t1 ∧ a1.CountInv) ∧
    (∃ h1 a1, pairDest.clear pairHeap 4 = some (h1, a1) ∧ WF h1 a1 .nil ∧ a1.CountInv) ∧
    (∃ h1 a1 t1, pairDest.assign pairHeap 4 pairSrc false = some (h1, a1) ∧ WF h1 a1 t1 ∧
      WF h1 pairSrc pairSrcTree ∧ a1.CountInv) ∧
    (∃ h1 a1 b1, pairDest.moveAssign pairHeap 4 pairSrc = some (h1, a1, b1) ∧
      WF h1 a1 pairSrcTree ∧ WF h1 b1 .nil ∧ a1.CountInv ∧ b1.CountInv) ∧
    (∃ h1 a1 t1, pairDest.assignList pairHeap 4 [(3 : Int), 1, 3] = some (h1, a1) ∧
      WF h1 a1 t1 ∧ a1.CountInv) ∧
    ((pairDest.swap pairSrc).1.CountInv ∧ (pairDest.swap pairSrc).2.CountInv) ∧
    (pairDest.root ≠ none ∧ ∃ it, pairDest.begin pairHeap 4 = some it) :=
  have key := count_invariant_preserved pairHeap pairDest pairSrc pairDestTree pairSrcTree
    pairDest_wf pairSrc_wf (by decide) 4 (by decide)
  ⟨key.1, key.2.1, key.2.2.1, key.2.2.2.1 7 false,
    key.2.2.2.2.1 (some 3) (Or.inr ⟨3, by decide, rfl⟩), key.2.2.2.2.2.1,
    key.2.2.2.2.2.2.1, key.2.2.2.2.2.2.2.1, key.2.2.2.2.2.2.2.2.1 [3, 1, 3] (by decide),
    ⟨key.2.2.2.2.2.2.2.2.2.1.1, key.2.2.2.2.2.2.2.2.2.1.2.1⟩,
    key.2.2.2.2.2.2.2.2.2.2 (by decide)⟩

/-- C19: for well-formed trees `dest` and `src` sharing no node, the move-assignment
`dest = std::move(src)` returns; the destination object then has exactly the `root` and
`numElements` that `src` had, every node of the source graph is untouched (the former nodes
of `dest` are freed), and `src` is left empty (`root` none, `size() == 0`).  Move
construction gives the new object the `root` and `numElements` of `src` and leaves `src`
empty, without touching the store. -/
theorem move_takes_source (h : Heap α) (dest src : BST) (td ts : Tree α)
    (wd : WF h dest td) (ws : WF h src ts) (hdisj : ∀ x ∈ td.addrs, x ∉ ts.addrs)
    (fuel : Nat) (hf : td.size ≤ fuel) :
    (∃ h1 dest1 src1, dest.moveAssign h fuel src = some (h1, dest1, src1) ∧
      dest1.root = src.root ∧ dest1.size = src.size ∧ WF h1 dest1 ts ∧
      (∀ y ∈ ts.addrs, h1.cells y = h.cells y) ∧ (∀ y ∈ td.addrs, h1.cells y = none) ∧
      src1.root = none ∧ src1.size = 0) ∧
    ((BST.move src).1.root = src.root ∧ (BST.move src).1.size = src.size ∧
      (BST.move src).2.root = none ∧ (BST.move src).2.size = 0) := by
  obtain ⟨h1, e1, e2, -, e4, e5⟩ := moveAssign_spec wd ws hdisj hf
  exact ⟨⟨h1, src, ⟨none, 0⟩, e1, rfl, rfl, e2, e4, e5, rfl, rfl⟩, rfl, rfl, rfl, rfl⟩

/-- C19 at a concrete input: the destination built from 10 takes over the source built from
2, 1, 3. -/
theorem move_takes_source_witness :
    (∃ h1 dest1 src1, pairDest.moveAssign pairHeap 1 pairSrc = some (h1, dest1, src1) ∧
      dest1.root = pairSrc.root ∧ dest1.size = pairSrc.size ∧ WF h1 dest1 pairSrcTree ∧
      (∀ y ∈ pairSrcTree.addrs, h1.cells y = pairHeap.cells y) ∧
      (∀ y ∈ pairDestTree.addrs, h1.cells y = none) ∧
      src1.root = none ∧ src1.size = 0) ∧
    ((BST.move pairSrc).1.root = pairSrc.root ∧ (BST.move pairSrc).1.size = pairSrc.size ∧
      (BST.move pairSrc).2.root = none ∧ (BST.move pairSrc).2.size = 0) :=
  move_takes_source pairHeap pairDest pairSrc pairDestTree pairSrcTree pairDest_wf
    pairSrc_wf (by decide) 1 (by decide)

/-- C20: for every pair of tree objects `a` and `b`, after `a.swap(b)` the object `a` holds
the former `root` and count of `b` and `b` holds those of `a`; `swap` neither reads nor
writes the store, so no node is created, destroyed or relinked; and swapping twice restores
both objects exactly. -/
theorem swap_exchanges (a b : BST) :
    (a.swap b).1.root = b.root ∧ (a.swap b).1.size = b.size ∧
    (a.swap b).2.root = a.root ∧ (a.swap b).2.size = a.size ∧
    (a.swap b).1.swap (a.swap b).2 = (a, b) :=
  ⟨rfl, rfl, rfl, rfl, rfl⟩

end custom

namespace custom

variable {α : Type}

/-- The tree of `chainHeap` built from 1, 2, 3 is well formed. -/
theorem chainSrc_wf : WF chainHeap chainSrc chainSrcTree := by
  refine ⟨?_, rfl, ?_, by decide, rfl⟩
  · intro a ha
    simp only [chainHeap] at ha ⊢
    match a, ha with
    | n + 9, _ => rfl
  · simp [chainSrcTree, Rep, chainHeap]

/-- The tree of `chainHeap` built from 3, 2, 1 is well formed. -/
theorem chainDest_wf : WF chainHeap chainDest chainDestTree := by
  refine ⟨chainSrc_wf.fresh, rfl, ?_, by decide, rfl⟩
  simp [chainDestTree, Rep, chainHeap]

/-- The tree of `chainHeap` built from 7, 8, 9 is well formed. -/
theorem chainTwin_wf : WF chainHeap chainTwin chainTwinTree := by
  refine ⟨chainSrc_wf.fresh, rfl, ?_, by decide, rfl⟩
  simp [chainTwinTree, Rep, chainHeap]

/-- Inserting 1, 2, 3 into one empty tree, 3, 2, 1 into another and 7, 8, 9 into a third
gives the tree objects `chainSrc`, `chainDest` and `chainTwin` and a store that agrees with
`chainHeap` (checked on every address up to `next`). -/
theorem chainHeap_built :
    ∃ h0 src h1 dest h twin,
      insertAll 10 [((1 : Int), false), (2, false), (3, false)] (Heap.empty, BST.new) =
        some (h0, src) ∧
      insertAll 10 [((3 : Int), false), (2, false), (1, false)] (h0, BST.new) =
        some (h1, dest) ∧
      insertAll 10 [((7 : Int), false), (8, false), (9, false)] (h1, BST.new) =
        some (h, twin) ∧
      src = chainSrc ∧ dest = chainDest ∧ twin = chainTwin ∧ h.next = chainHeap.next ∧
      ∀ a < 10, h.cells a = chainHeap.cells a :=
  ⟨_, _, _, _, _, _, rfl, rfl, rfl, by decide, by decide, by decide, by decide, by decide⟩

/-- C21 (fails on the code): a set constructed from the initializer list 3, 1, 3 holds 3
twice: its traversal is [1, 3, 3], which is not strictly increasing, and `size()` is 3
while the list has 2 distinct values; the same happens when a set holding 7 is assigned the
list.  The constructor and the assignment go through `bst = il`, which inserts with
`keepUnique == false`.  The range constructor and `insert(il)`, which pass
`keepUnique == true`, give [1, 3] and `size() == 2` on the same values. -/
theorem set_initializer_list_keeps_duplicates :
    (∃ h s, set.ofList (Heap.empty : Heap Int) 10 [3, 1, 3] = some (h, s) ∧ s.size = 3 ∧
      s.toList h 10 = some [1, 3, 3]) ∧
    (∃ h0 s0 h s, set.ofRange (Heap.empty : Heap Int) 10 [7] = some (h0, s0) ∧
      s0.assignList h0 10 [3, 1, 3] = some (h, s) ∧ s.size = 3 ∧
      s.toList h 10 = some [1, 3, 3]) ∧
    ([3, 1, 3] : List Int).dedup.length = 2 ∧
    (∃ h s, set.ofRange (Heap.empty : Heap Int) 10 [3, 1, 3] = some (h, s) ∧ s.size = 2 ∧
      s.toList h 10 = some [1, 3]) ∧
    (∃ h s, set.insertList 10 [(3 : Int), 1, 3] (Heap.empty, set.new) = some (h, s) ∧
      s.size = 2 ∧ s.toList h 10 = some [1, 3]) :=
  ⟨⟨_, _, rfl, by decide, by decide⟩, ⟨_, _, _, _, rfl, rfl, by decide, by decide⟩,
    by decide, ⟨_, _, rfl, by decide, by decide⟩, ⟨_, _, rfl, by decide, by decide⟩⟩

/-- C22 (fails on the code): the destination built by inserting 3, 2, 1 and the source built
by inserting 1, 2, 3 are both well formed and ordered and both have `size() == 3`;
`dest = source` takes the equal-count case and writes only the root, so the destination,
still well formed with `size()` equal to its node count, has the in-order sequence
[1, 2, 1] and no longer satisfies the ordering invariant. -/
theorem assign_same_count_breaks_ordering :
    WF chainHeap chainDest chainDestTree ∧ Ordered chainDestTree ∧
    WF chainHeap chainSrc chainSrcTree ∧ Ordered chainSrcTree ∧
    chainDest.size = 3 ∧ chainSrc.size = 3 ∧
    ∃ h1 t1, chainDest.assign chainHeap 6 chainSrc false = some (h1, chainDest) ∧
      WF h1 chainDest t1 ∧ chainDest.size = t1.size ∧
      chainDest.toList h1 6 = some [1, 2, 1] ∧ chainSrc.toList h1 6 = some [1, 2, 3] ∧
      ¬ Ordered t1 := by
  obtain ⟨h1, e1, e2, e3, -⟩ := assign_equal_count chainDest_wf chainSrc_wf (by decide)
    (by decide) (by decide) (by decide : chainDestTree.size ≤ 6)
  refine ⟨chainDest_wf, by simp [chainDestTree, Ordered, Tree.inorder, Tree.entries],
    chainSrc_wf, by simp [chainSrcTree, Ordered, Tree.inorder, Tree.entries], rfl, rfl,
    h1, _, e1, e2, by decide, ?_, ?_, ?_⟩
  · rw [toList_eq e2 (by decide)]; rfl
  · rw [toList_eq e3 (by decide)]; rfl
  · simp [chainDestTree, chainSrcTree, Tree.overlay, Ordered, Tree.inorder, Tree.entries]

/-- C23: for well-formed trees `dest` and `src` sharing no node, both with the same count of
two or more nodes, `dest = source` returns with the destination object unchanged (`root`
and `size()`); no node is created or destroyed and every node keeps its three links; nodes
outside the destination are untouched; the destination is well formed with the graph `t1`
of the same shape on the same nodes; every destination node whose path from the root also
exists in the source holds the value of the source node at that path, and every other
destination node holds its old value.  When the two trees have the same shape, the
destination has the source's value at every node and its traversal yields the source's
values. -/
theorem assign_equal_count_in_place (h : Heap α) (dest src : BST) (td ts : Tree α)
    (wd : WF h dest td) (ws : WF h src ts) (hdisj : ∀ x ∈ td.addrs, x ∉ ts.addrs)
    (hcount : dest.size = src.size) (hn : 2 ≤ dest.size) (fuel : Nat)
    (hf : 2 * td.size ≤ fuel) :
    ∃ h1 t1, dest.assign h fuel src false = some (h1, dest) ∧
      h1.next = h.next ∧
      (∀ y, (h1.cells y).map BNode.links = (h.cells y).map BNode.links) ∧
      (∀ y, y ∉ td.addrs → h1.cells y = h.cells y) ∧
      WF h1 dest t1 ∧ WF h1 src ts ∧ t1.shape = td.shape ∧ t1.addrs = td.addrs ∧
      (∀ path a v, td.nodeAt path = some (a, v) →
        t1.nodeAt path = some (a, ((ts.nodeAt path).map Prod.snd).getD v) ∧
        ∃ n, h1.cells a = some n ∧ n.data = ((ts.nodeAt path).map Prod.snd).getD v) ∧
      (td.shape = ts.shape →
        t1.skeleton = ts.skeleton ∧ dest.toList h1 fuel = some ts.inorder) := by
  have hsz : td.size = ts.size := by
    have := wd.count; have := ws.count; simp only [BST.size] at hcount; omega
  have h2 : 2 ≤ td.size := by have := wd.count; simp only [BST.size] at hn; omega
  obtain ⟨h1, e1, e2, e3, e4, e5, e6⟩ := assign_equal_count wd ws hdisj hsz h2
    (by omega : td.size ≤ fuel)
  refine ⟨h1, td.overlay ts, e1, e5, e6, e4, e2, e3, Tree.overlay_shape _ _,
    Tree.overlay_addrs _ _, ?_, ?_⟩
  · intro path a v hp
    have hv := Tree.overlay_nodeAt td ts path hp
    exact ⟨hv, e2.rep.cell_nodeAt hv⟩
  · intro hs
    refine ⟨Tree.overlay_skeleton hs, ?_⟩
    rw [toList_eq e2 (by rw [Tree.overlay_size]; exact hf),
      Tree.skeleton_inorder (Tree.overlay_skeleton hs)]

/-- C23 at a concrete input: the destination built from 7, 8, 9 and the source built from
1, 2, 3 have the same shape; after `dest = source` the destination sits on the same nodes
and its traversal yields [1, 2, 3]. -/
theorem assign_equal_count_in_place_witness :
    ∃ h1 t1, chainTwin.assign chainHeap 6 chainSrc false = some (h1, chainTwin) ∧
      h1.next = chainHeap.next ∧ WF h1 chainTwin t1 ∧ t1.addrs = chainTwinTree.addrs ∧
      t1.skeleton = chainSrcTree.skeleton ∧ chainTwin.toList h1 6 = some [1, 2, 3] := by
  obtain ⟨h1, t1, e1, e2, -, -, e5, -, -, e8, -, e10⟩ :=
    assign_equal_count_in_place chainHeap chainTwin chainSrc chainTwinTree chainSrcTree
      chainTwin_wf chainSrc_wf (by decide) rfl (by decide) 6 (by decide)
  exact ⟨h1, t1, e1, e2, e5, e8, (e10 rfl).1, (e10 rfl).2⟩

/-- C24: for every store and every amount of fuel, `operator++` and `operator--` applied to
the end/none iterator both return the end iterator: they return (no node is dereferenced)
and `--end()` references no node, so not the last element. -/
theorem step_end_stays_end (h : Heap α) (fuel : Nat) :
    increment h fuel BST.end_ = some BST.end_ ∧ decrement h fuel BST.end_ = some BST.end_ ∧
    ∀ z : Nat, decrement h fuel BST.end_ ≠ some (some z) :=
  ⟨rfl, rfl, fun z e => by simp [decrement, BST.end_] at e⟩

/-- C25: on a well-formed tree with in-order node list `t.addrs`, for every node `n` at a
position `i` that has an in-order successor `m` (the node at position `i + 1`):
`operator++` at `n` gives `m` and `operator--` at `m` gives `n`; so `++` then `--` from `n`
returns to `n`, and `--` then `++` from `m`, a node with the in-order predecessor `n`,
returns to `m`. -/
theorem increment_decrement_inverse (h : Heap α) (b : BST) (t : Tree α) (w : WF h b t)
    (fuel : Nat) (hf : t.size ≤ fuel) (i n m : Nat) (hi : t.addrs[i]? = some n)
    (hm : t.addrs[i + 1]? = some m) :
    increment h fuel (some n) = some (some m) ∧ decrement h fuel (some m) = some (some n) ∧
    (increment h fuel (some n)).bind (decrement h fuel) = some (some n) ∧
    (decrement h fuel (some m)).bind (increment h fuel) = some (some m) := by
  have hlt : i + 1 < t.size := by
    have := (List.getElem?_eq_some.mp hm).1
    rwa [Tree.length_addrs] at this
  have e1 : increment h fuel (some n) = some (some m) := by
    have := increment_index w.rep w.nodup hf i
    rwa [hi, hm] at this
  have e2 : decrement h fuel (some m) = some (some n) := by
    have := (decrement_index w.rep w.nodup hf).1 i hlt
    rwa [hi, hm] at this
  exact ⟨e1, e2, by rw [e1]; exact e2, by rw [e2]; exact e1⟩

/-- C25 at a concrete input: in the tree built from 5, 3, 8, 1, 4 the in-order node list is
3, 1, 4, 0, 2; from the node holding 3 (node 1) `++` leads to the node holding 4 (node 4)
and `--` leads back. -/
theorem increment_decrement_inverse_witness :
    increment exampleHeap 5 (some 1) = some (some 4) ∧
    decrement exampleHeap 5 (some 4) = some (some 1) ∧
    (increment exampleHeap 5 (some 1)).bind (decrement exampleHeap 5) = some (some 1) ∧
    (decrement exampleHeap 5 (some 4)).bind (increment exampleHeap 5) = some (some 4) :=
  increment_decrement_inverse exampleHeap exampleBST exampleTree exampleTree_wf 5
    (by decide) 1 1 4 rfl rfl

end custom
